import Mathlib

/-!
# HTTP transaction batch consumer

A shallow embedding of `pkg/network/http/batch_manager.go` (the userspace consumer of the
per-CPU ring of HTTP transaction pages written by the kernel probe) together with the
types of `pkg/network/ebpf/http_types_linux.go` it reads, and of the counters of
`pkg/network/http/telemetry.go` that the transactions it returns are aggregated into.
Three smaller functions of the repository are embedded next to it: `Method.String` of
`pkg/network/http/transaction/model.go`, `addInspectionResultToMap` of
`pkg/network/http/ebpf_gotls.go` and `parseProcessCmdLine` of
`pkg/compliance/checks/process_utils.go`.

Conventions of the embedding.

* Go machine integers are `Nat` (unsigned) or `Int` (signed); conversions and signed
  arithmetic that can overflow go through `toInt64`, `wrapInt64` and `toUint32`, which
  spell out the reduction modulo `2^64` resp. `2^32`. Go's `int` is 64 bits wide on the
  platforms the probe is built for.
* The eBPF page map is kernel memory that changes under the consumer; it is a parameter
  `batchMap` of every operation, a function from keys to an optional page (`none` is a
  failed `Lookup`). One call looks every key up at most once, so a function is a faithful
  picture of the copies one call obtains.
* A Go runtime panic (index or slice bounds out of range) is the result `none` of an
  operation; the Go `error` value is part of the result inside `some`.
* The transaction record is a type parameter `α`: the batch manager only copies records.
  To speak of which slot a delivered record came from, a page map is tagged: every record
  is paired with the CPU of its key, the `Idx` of its page and its position (`tagged`).
* Code the sources use but do not contain (the `Metric` counter of the telemetry library,
  the methods `StatusClass` and `Method` of the kernel record) is modelled from the spec
  and marked so; an interface method is a function parameter of the operation calling it.
* Go strings are Lean strings; `strings.HasPrefix`, `strings.SplitN`, `strings.Split`
  and `strconv.ParseInt` are embedded for the one-character separators and the base and
  width the sources call them with. A Go `map[string]string` is a function from keys to
  an optional value.
* Values that come from outside (notification and page fields) range over their Go
  types; cursors range over the values the manager can hold, and theorems say which part
  of the cursor invariant (`CursorOK`) they use.
-/

namespace Http

/-! ## Constants and machine integers -/

/-- Number of transactions per page (`HTTPBatchSize = 0xf`). -/
abbrev HTTPBatchSize : Nat := 15

/-- Number of page slots per CPU (`HTTPBatchPages = 0xf`). -/
abbrev HTTPBatchPages : Nat := 15

/-- Bound on the page lookups made for one CPU in one poll (`maxLookupsPerCPU = 2`). -/
abbrev maxLookupsPerCPU : Nat := 2

/-- Go conversion `int(x)` of a `uint64`: the two's complement reading of the 64 bits. -/
def toInt64 (u : Nat) : Int :=
  if u % 2 ^ 64 < 2 ^ 63 then ((u % 2 ^ 64 : Nat) : Int) else ((u % 2 ^ 64 : Nat) : Int) - 2 ^ 64

/-- Result of signed 64-bit arithmetic: the exact value reduced into `[-2^63, 2^63)`. -/
def wrapInt64 (i : Int) : Int :=
  (i + 2 ^ 63) % 2 ^ 64 - 2 ^ 63

/-- Go conversion `uint32(x)` of an `int`: the low 32 bits. -/
def toUint32 (i : Int) : Nat :=
  (i % 2 ^ 32).toNat

/-- Go slice expression `s[lo:hi]` on a slice whose capacity equals its length;
`none` is the panic "slice bounds out of range". -/
def sliceFromTo {α : Type} (s : List α) (lo hi : Int) : Option (List α) :=
  if 0 ≤ lo ∧ lo ≤ hi ∧ hi ≤ (s.length : Int) then
    some ((s.drop lo.toNat).take (hi.toNat - lo.toNat))
  else none

/-- Go slice expression `s[lo:]`. -/
def sliceFrom {α : Type} (s : List α) (lo : Int) : Option (List α) :=
  sliceFromTo s lo s.length

/-! ## Data model -/

/-- Record `HttpNotification` (`Cpu : uint32`, `Idx : uint64`). -/
structure HttpNotification where
  Cpu : Nat
  Idx : Nat
  deriving DecidableEq

/-- Record `HttpBatch`: one page (`Idx : uint64`, `Pos : uint8`, `Txs : [15]EbpfHttpTx`). -/
structure HttpBatch (α : Type) where
  Idx : Nat
  Pos : Nat
  Txs : Fin HTTPBatchSize → α

/-- Record `HttpBatchKey` (`Cpu : uint32`, `Num : uint32`). -/
structure httpBatchKey where
  Cpu : Nat
  Num : Nat
  deriving DecidableEq

/-- The page map: `Lookup` by key, `none` when the lookup returns an error. -/
abbrev BatchMap (α : Type) := httpBatchKey → Option (HttpBatch α)

/-- The userspace cursor of one CPU (`usrBatchState`, two Go `int`s). -/
structure usrBatchState where
  idx : Int
  pos : Int
  deriving DecidableEq

/-- The batch manager: the cursor array. `numCPUs` is the length of `stateByCPU`, as
`newBatchManager` sets both from the same argument; `batchMap` is passed to each call. -/
structure batchManager where
  stateByCPU : List usrBatchState
  deriving DecidableEq

/-- Field `numCPUs`. -/
def batchManager.numCPUs (m : batchManager) : Nat := m.stateByCPU.length

/-- Userspace part of `newBatchManager`: `make([]usrBatchState, numCPUs)`. -/
def newBatchManager (numCPUs : Nat) : batchManager :=
  ⟨List.replicate numCPUs ⟨0, 0⟩⟩

/-- The Go `error` values `GetTransactionsFrom` returns. -/
inductive TxError where
  | retrieving (cpu : Nat)
  | ErrLostBatch
  deriving DecidableEq

/-! ## Operations -/

/-- Method `(*httpBatchKey).Prepare`: the key of the page a notification announces. -/
def httpBatchKey.Prepare (n : HttpNotification) : httpBatchKey :=
  { Cpu := n.Cpu, Num := toUint32 (Int.tmod (toInt64 n.Idx) HTTPBatchPages) }

/-- Method `(*httpBatch).IsDirty`. -/
def HttpBatch.IsDirty {α : Type} (batch : HttpBatch α) (notification : HttpNotification) : Bool :=
  batch.Idx != notification.Idx

/-- Method `(*httpBatch).Transactions`: the 15 records of the page as a slice. -/
def HttpBatch.Transactions {α : Type} (batch : HttpBatch α) : List α :=
  List.ofFn batch.Txs

/-- Method `(*batchManager).GetTransactionsFrom`. The result is `none` when the call
panics, else the manager after the call and the two Go results (`none` for `nil`). -/
def GetTransactionsFrom {α : Type} (batchMap : BatchMap α) (m : batchManager)
    (notification : HttpNotification) :
    Option (batchManager × Option (List α) × Option TxError) :=
  match m.stateByCPU[notification.Cpu]? with
  | none => none
  | some state =>
    match batchMap (httpBatchKey.Prepare notification) with
    | none => some (m, none, some (TxError.retrieving notification.Cpu))
    | some batch =>
      if toInt64 batch.Idx < state.idx then
        some (m, none, none)
      else if batch.IsDirty notification then
        some (m, none, some TxError.ErrLostBatch)
      else
        let offset := state.pos
        let m' : batchManager :=
          ⟨m.stateByCPU.set notification.Cpu ⟨wrapInt64 (toInt64 notification.Idx + 1), 0⟩⟩
        match sliceFrom batch.Transactions offset with
        | none => none
        | some tocopy => some (m', some tocopy, none)

/-- What the inner loop of `GetPendingTransactions` does for one CPU: the cursor it
leaves, the transactions it appends, and the keys it passes to `Lookup`, in order. -/
structure cpuSweep (α : Type) where
  state : usrBatchState
  txs : List α
  keys : List httpBatchKey
  deriving DecidableEq

/-- The key `GetPendingTransactions` looks up for CPU `i` at cursor `usrState`. -/
def pendingKey (i : Nat) (usrState : usrBatchState) : httpBatchKey :=
  { Cpu := toUint32 i, Num := toUint32 (Int.tmod usrState.idx HTTPBatchPages) }

/-- The loop `for lookup := 0; lookup < maxLookupsPerCPU; lookup++` of
`GetPendingTransactions` for CPU `i`, with `n` iterations left. -/
def pendingLoop {α : Type} (batchMap : BatchMap α) (i : Nat) :
    Nat → usrBatchState → Option (cpuSweep α)
  | 0, usrState => some ⟨usrState, [], []⟩
  | n + 1, usrState =>
    let batchKey := pendingKey i usrState
    match batchMap batchKey with
    | none => some ⟨usrState, [], [batchKey]⟩
    | some batch =>
      let krnStateIDX := toInt64 batch.Idx
      let krnStatePos : Int := batch.Pos
      if krnStateIDX ≠ usrState.idx ∨ krnStatePos ≤ usrState.pos then
        some ⟨usrState, [], [batchKey]⟩
      else
        match sliceFromTo batch.Transactions usrState.pos krnStatePos with
        | none => none
        | some pending =>
          if krnStatePos = HTTPBatchSize then
            match pendingLoop batchMap i n ⟨wrapInt64 (usrState.idx + 1), 0⟩ with
            | none => none
            | some r => some ⟨r.state, pending ++ r.txs, batchKey :: r.keys⟩
          else
            some ⟨⟨usrState.idx, krnStatePos⟩, pending, [batchKey]⟩

/-- The loop `for i := 0; i < m.numCPUs; i++` of `GetPendingTransactions`, from CPU `i`
on, over the cursors not yet visited: each CPU's cursor is replaced by the one its inner
loop leaves and its transactions are appended in CPU order. -/
def sweepCPUs {α : Type} (batchMap : BatchMap α) :
    Nat → List usrBatchState → Option (List usrBatchState × List α × List httpBatchKey)
  | _, [] => some ([], [], [])
  | i, usrState :: rest =>
    match pendingLoop batchMap i maxLookupsPerCPU usrState with
    | none => none
    | some r =>
      match sweepCPUs batchMap (i + 1) rest with
      | none => none
      | some (rest', txs, keys) => some (r.state :: rest', r.txs ++ txs, r.keys ++ keys)

/-- Method `(*batchManager).GetPendingTransactions`: the manager after the sweep, the
transactions returned, and the keys looked up; `none` when the call panics. -/
def GetPendingTransactions {α : Type} (batchMap : BatchMap α) (m : batchManager) :
    Option (batchManager × List α × List httpBatchKey) :=
  match sweepCPUs batchMap 0 m.stateByCPU with
  | none => none
  | some (states, txs, keys) => some (⟨states⟩, txs, keys)

/-! ## Specification vocabulary -/

/-- The list `txs` is exactly the records of the slots `lo ≤ j < hi` of `page`, in page
order (written `page.txs[lo : hi]` in prose). -/
def IsSlots {α : Type} (page : HttpBatch α) (lo hi : Nat) (txs : List α) : Prop :=
  txs.length = hi - lo ∧
    ∀ (j : Nat) (h : lo + j < HTTPBatchSize), lo + j < hi →
      txs[j]? = some (page.Txs ⟨lo + j, h⟩)

/-- Identity of a transaction slot: the CPU of the key it is read under, the `Idx` of the
page it is read from, and its position in that page. -/
structure TxId where
  cpu : Nat
  idx : Nat
  slot : Nat
  deriving DecidableEq

/-- Lexicographic order on (page idx, position). -/
def TxId.before (a b : TxId) : Prop :=
  a.idx < b.idx ∨ (a.idx = b.idx ∧ a.slot < b.slot)

/-- The page map with every record paired with the identity of the slot holding it. -/
def tagged {α : Type} (batchMap : BatchMap α) : BatchMap (TxId × α) :=
  fun k =>
    match batchMap k with
    | none => none
    | some page => some ⟨page.Idx, page.Pos, fun j => (⟨k.Cpu, page.Idx, j⟩, page.Txs j)⟩

/-- The two drain paths of the run loop. -/
inductive Call where
  | notify (n : HttpNotification)
  | poll

/-- One call of a drain path, with the contents of the page map when it is made. -/
structure Step (α : Type) where
  batchMap : BatchMap α
  call : Call

/-- One call against the tagged page map: the manager after it and the transactions it
delivers (`none` when the call panics). -/
def Step.exec {α : Type} (m : batchManager) (s : Step α) :
    Option (batchManager × List (TxId × α)) :=
  match s.call with
  | Call.notify n =>
    match GetTransactionsFrom (tagged s.batchMap) m n with
    | none => none
    | some (m', txs, _) => some (m', txs.getD [])
  | Call.poll =>
    match GetPendingTransactions (tagged s.batchMap) m with
    | none => none
    | some (m', txs, _) => some (m', txs)

/-- A sequence of calls: the final manager (`none` if some call panicked, which ends the
run) and all transactions delivered, in delivery order. -/
def drain {α : Type} (m : batchManager) : List (Step α) → Option batchManager × List (TxId × α)
  | [] => (some m, [])
  | s :: rest =>
    match s.exec m with
    | none => (none, [])
    | some (m', out) => ((drain m' rest).1, out ++ (drain m' rest).2)

/-- The slot identities delivered for one CPU, in delivery order. -/
def deliveredOn {α : Type} (cpu : Nat) (out : List (TxId × α)) : List TxId :=
  (out.map Prod.fst).filter (fun t => t.cpu == cpu)

/-! ## Cursor order and invariant -/

/-- Lexicographic order `≤` on cursors. -/
def usrBatchState.le (c c' : usrBatchState) : Prop :=
  c.idx < c'.idx ∨ (c.idx = c'.idx ∧ c.pos ≤ c'.pos)

/-- The slot `t` is at or after the cursor `c`: not yet consumed according to `c`. -/
def usrBatchState.atOrBefore (c : usrBatchState) (t : TxId) : Prop :=
  c.idx < (t.idx : Int) ∨ (c.idx = (t.idx : Int) ∧ c.pos ≤ (t.slot : Int))

/-- The slot `t` is strictly before the cursor `c`: consumed according to `c`. -/
def TxId.behind (t : TxId) (c : usrBatchState) : Prop :=
  (t.idx : Int) < c.idx ∨ ((t.idx : Int) = c.idx ∧ (t.slot : Int) < c.pos)

/-- The cursor is a page number that fits a Go `int` and a position inside a page. -/
def CursorOK (c : usrBatchState) : Prop :=
  0 ≤ c.idx ∧ c.idx ≤ 2 ^ 63 - 1 ∧ 0 ≤ c.pos ∧ c.pos < HTTPBatchSize

/-- What one call does for one CPU: the cursor moves from `c` forward to the valid
cursor `c'`, and the slots `d` it delivers are strictly increasing and lie between them. -/
def Advanced (c c' : usrBatchState) (d : List TxId) : Prop :=
  c.le c' ∧ CursorOK c' ∧ d.Pairwise TxId.before ∧ ∀ t ∈ d, c.atOrBefore t ∧ t.behind c'

/-- Every page of a tagged map has `Idx < 2^63 - 1` and `Pos ≤ PAGE_SIZE`, and each of
its records carries the identity of its slot. -/
def WellTagged {α : Type} (batchMap : BatchMap (TxId × α)) : Prop :=
  ∀ k page, batchMap k = some page →
    page.Idx < 2 ^ 63 - 1 ∧ page.Pos ≤ HTTPBatchSize ∧
      ∀ j : Fin HTTPBatchSize, (page.Txs j).1 = ⟨k.Cpu, page.Idx, j⟩

/-! ## Transactions and telemetry -/

/-- Type `Method` of `transaction/model.go` (`type Method int`). -/
abbrev Method := Int

/-- Constant `MethodUnknown`. -/
def MethodUnknown : Method := 0

/-- Constant `MethodGet`. -/
def MethodGet : Method := 1

/-- Constant `MethodPost`. -/
def MethodPost : Method := 2

/-- Constant `MethodPut`. -/
def MethodPut : Method := 3

/-- Constant `MethodDelete`. -/
def MethodDelete : Method := 4

/-- Constant `MethodHead`. -/
def MethodHead : Method := 5

/-- Constant `MethodOptions`. -/
def MethodOptions : Method := 6

/-- Constant `MethodPatch`. -/
def MethodPatch : Method := 7

/-- Record `HTTPConnTuple` of `http_types_linux.go`. -/
structure HTTPConnTuple where
  Saddr_h : Nat
  Saddr_l : Nat
  Daddr_h : Nat
  Daddr_l : Nat
  Sport : Nat
  Dport : Nat
  Netns : Nat
  Pid : Nat
  Metadata : Nat

/-- Record `EbpfHttpTx` of `http_types_linux.go`: the transaction as the kernel writes it. -/
structure EbpfHttpTx where
  Tup : HTTPConnTuple
  Request_started : Nat
  Request_method : Nat
  Response_status_code : Nat
  Response_last_seen : Nat
  Request_fragment : Fin 160 → Int
  Owned_by_src_port : Nat
  Tcp_seq : Nat
  Tags : Nat

/-- Modelled from the spec: the method `StatusClass` of the kernel record, whose body is
not among the sources; the spec gives `status_class = status_code/100 * 100`. -/
def EbpfHttpTx.StatusClass (tx : EbpfHttpTx) : Int :=
  ((tx.Response_status_code / 100 * 100 : Nat) : Int)

/-- Modelled from the spec: the method `Method` of the kernel record, whose body is not
among the sources; the spec reads the `method (u8)` field as the method enum. -/
def EbpfHttpTx.Method (tx : EbpfHttpTx) : Http.Method :=
  (tx.Request_method : Int)

/-- Modelled from the spec: the type `Metric` of the telemetry library, which is not
among the sources: a named monotonic counter ("Monotonic counters") that starts at 0. -/
structure Metric where
  name : String
  value : Int
  deriving DecidableEq

/-- Modelled from the spec: `NewMetric` of a metric group, a counter at 0 under a name. -/
def NewMetric (name : String) : Metric :=
  ⟨name, 0⟩

/-- Modelled from the spec: `Metric.Add`, the counter grows by `v`. -/
def Metric.Add (m : Metric) (v : Int) : Metric :=
  { m with value := m.value + v }

/-- Record `telemetry` of `telemetry.go`; the field `then` is written `then_`. -/
structure telemetry where
  then_ : Int
  hits1XX : Metric
  hits2XX : Metric
  hits3XX : Metric
  hits4XX : Metric
  hits5XX : Metric
  misses : Metric
  dropped : Metric
  rejected : Metric
  malformed : Metric
  aggregations : Metric
  deriving DecidableEq

/-- Function `newTelemetry`, with the wall clock reading `now` as a parameter; the Go
function always returns a nil error. -/
def newTelemetry (now : Int) : telemetry :=
  { then_ := now
    hits1XX := NewMetric "hits1xx"
    hits2XX := NewMetric "hits2xx"
    hits3XX := NewMetric "hits3xx"
    hits4XX := NewMetric "hits4xx"
    hits5XX := NewMetric "hits5xx"
    misses := NewMetric "misses"
    dropped := NewMetric "dropped"
    rejected := NewMetric "rejected"
    malformed := NewMetric "malformed"
    aggregations := NewMetric "aggregations" }

/-- The `switch tx.StatusClass()` statement of `aggregate`, for the status class `c`. -/
def telemetry.countHit (t : telemetry) (c : Int) : telemetry :=
  if c = 100 then { t with hits1XX := t.hits1XX.Add 1 }
  else if c = 200 then { t with hits2XX := t.hits2XX.Add 1 }
  else if c = 300 then { t with hits3XX := t.hits3XX.Add 1 }
  else if c = 400 then { t with hits4XX := t.hits4XX.Add 1 }
  else if c = 500 then { t with hits5XX := t.hits5XX.Add 1 }
  else t

/-- Method `(*telemetry).aggregate`. The interface method `StatusClass` of the
transactions is the parameter `statusClass`; a nil slice is the empty list; the sentinel
the batch manager returns and the one `aggregate` compares with are the one
`ErrLostBatch` of the spec. -/
def telemetry.aggregate {α : Type} (statusClass : α → Int) (t : telemetry) (txs : List α)
    (err : Option TxError) : telemetry :=
  let t' := txs.foldl (fun acc tx => acc.countHit (statusClass tx)) t
  if err = some TxError.ErrLostBatch then
    { t' with misses := t'.misses.Add (txs.length : Int) }
  else t'

/-- The sum `hits1XX + hits2XX + hits3XX + hits4XX + hits5XX` that `report` logs as the
requests processed. -/
def telemetry.totalHits (t : telemetry) : Int :=
  t.hits1XX.value + t.hits2XX.value + t.hits3XX.value + t.hits4XX.value + t.hits5XX.value

/-- A sequence of `aggregate` calls, each with its own `(txs, err)`. -/
def telemetry.aggregateAll {α : Type} (statusClass : α → Int) (t : telemetry)
    (calls : List (List α × Option TxError)) : telemetry :=
  calls.foldl (fun acc call => acc.aggregate statusClass call.1 call.2) t

/-- The status class is one of those `aggregate` counts. -/
def IsHitClass (c : Int) : Prop :=
  c = 100 ∨ c = 200 ∨ c = 300 ∨ c = 400 ∨ c = 500

instance (c : Int) : Decidable (IsHitClass c) := by
  unfold IsHitClass; infer_instance

/-- How many transactions of `txs` have status class `c`. -/
def classCount {α : Type} (statusClass : α → Int) (c : Int) (txs : List α) : Nat :=
  txs.countP (fun tx => statusClass tx = c)

/-- The total number of transactions handed to `aggregate` by a sequence of calls. -/
def ingested {α : Type} (calls : List (List α × Option TxError)) : Nat :=
  (calls.map (fun call => call.1.length)).sum

/-- Strict lexicographic order `<` on cursors. -/
def usrBatchState.lt (c c' : usrBatchState) : Prop :=
  c.idx < c'.idx ∨ (c.idx = c'.idx ∧ c.pos < c'.pos)

/-- The position of the cursor is inside a page. -/
def PosOK (c : usrBatchState) : Prop :=
  0 ≤ c.pos ∧ c.pos < HTTPBatchSize

/-! ## Telemetry snapshot and method names -/

/-- Modelled from the spec: the metrics `newTelemetry` creates through its metric group,
in the order of creation. The metric group is not among the sources; each `NewMetric`
call registers the metric it returns. -/
def telemetry.metrics (t : telemetry) : List Metric :=
  [t.hits1XX, t.hits2XX, t.hits3XX, t.hits4XX, t.hits5XX,
   t.misses, t.dropped, t.rejected, t.malformed, t.aggregations]

/-- Modelled from the spec: the telemetry snapshot `GetStats() → map[string]int64`, not
among the sources: the value of every registered metric under its name. -/
def telemetry.snapshot (t : telemetry) : List (String × Int) :=
  t.metrics.map (fun m => (m.name, m.value))

/-- Method `Method.String` of `transaction/model.go`. -/
def Method.String (m : Method) : String :=
  if m = MethodGet then "GET"
  else if m = MethodPost then "POST"
  else if m = MethodPut then "PUT"
  else if m = MethodHead then "HEAD"
  else if m = MethodDelete then "DELETE"
  else if m = MethodOptions then "OPTIONS"
  else if m = MethodPatch then "PATCH"
  else "UNKNOWN"

/-! ## Go strings -/

/-- Go `strings.HasPrefix(s, p)` for a prefix `p` of one byte. -/
def HasPrefix (s : String) (p : Char) : Prop :=
  s.data.head? = some p

instance (s : String) (p : Char) : Decidable (HasPrefix s p) := by
  unfold HasPrefix; infer_instance

/-- Go `strings.SplitN(s, sep, 2)` for a separator of one byte: `s` alone when it does
not contain the separator, else the parts before and after its first occurrence. -/
def SplitN2 (s : String) (sep : Char) : List String :=
  match s.data.dropWhile (fun c => c != sep) with
  | [] => [s]
  | _ :: rest => [String.mk (s.data.takeWhile (fun c => c != sep)), String.mk rest]

/-- The pieces of a character list between the occurrences of `sep`. -/
def splitChars (sep : Char) : List Char → List (List Char)
  | [] => [[]]
  | c :: cs =>
    if c = sep then [] :: splitChars sep cs
    else
      match splitChars sep cs with
      | [] => [[c]]
      | p :: ps => (c :: p) :: ps

/-- Go `strings.Split(s, sep)` for a separator of one byte. -/
def Split (s : String) (sep : Char) : List String :=
  (splitChars sep s.data).map String.mk

/-- Go `strconv.ParseInt(s, 10, 32)`: an optional sign and one or more decimal digits,
with a value that fits `int32`; `none` is a non-nil error. -/
def ParseInt32 (s : String) : Option Int :=
  let signed : Bool × List Char :=
    match s.data with
    | '+' :: ds => (false, ds)
    | '-' :: ds => (true, ds)
    | ds => (false, ds)
  if signed.2 = [] ∨ ¬ (signed.2.all Char.isDigit = true) then none
  else
    let v : Nat := signed.2.foldl (fun acc c => 10 * acc + (c.toNat - '0'.toNat)) 0
    let x : Int := if signed.1 then -(v : Int) else (v : Int)
    if -(2 ^ 31) ≤ x ∧ x < 2 ^ 31 then some x else none

/-! ## Process command lines (`compliance/checks/process_utils.go`) -/

/-- A Go `map[string]string`: the value under each key, if any. -/
abbrev StrMap := String → Option String

/-- The map `make(map[string]string, 0)`. -/
def StrMap.empty : StrMap :=
  fun _ => none

/-- Assignment `m[k] = v`. -/
def StrMap.set (m : StrMap) (k v : String) : StrMap :=
  fun x => if x = k then some v else m x

/-- The loop `for i, arg := range args` of `parseProcessCmdLine`, at index `i` with the
arguments from `i` on still to visit; `none` is an index out of range. -/
def parseLoop (args : List String) : Nat → List String → StrMap → Bool → Option StrMap
  | _, [], results, _ => some results
  | i, arg :: rest, results, pendingFlagValue =>
    if HasPrefix arg '-' then
      let parts := SplitN2 arg '='
      if parts.length = 2 then
        match parts[0]?, parts[1]? with
        | some p0, some p1 => parseLoop args (i + 1) rest (results.set p0 p1) pendingFlagValue
        | _, _ => none
      else
        match parts[0]? with
        | some p0 => parseLoop args (i + 1) rest (results.set p0 "") true
        | none => none
    else if pendingFlagValue then
      match (if i = 0 then none else args[i - 1]?) with
      | some prev => parseLoop args (i + 1) rest (results.set prev arg) pendingFlagValue
      | none => none
    else
      parseLoop args (i + 1) rest (results.set arg "") pendingFlagValue

/-- Function `parseProcessCmdLine`; `none` is a runtime panic. -/
def parseProcessCmdLine (args : List String) : Option StrMap :=
  parseLoop args 0 args StrMap.empty false

/-! ## Go TLS offsets (`http/ebpf_gotls.go`) -/

/-- The errors `addInspectionResultToMap` returns, by the place that returns them. -/
inductive GoTLSError where
  | parsingInspectionResult
  | mapNotFound
  | unexpectedPathFormat
  | failedExtractingPid
  | failedWriting
  deriving DecidableEq

/-- Method `(*GoTLSProgram).addInspectionResultToMap`. The outcome of
`inspectionResultToProbeData` is `probeData` and that of `GetMap(offsetsDataMap)` is
`dataMap` (`none` for an error); `Put` is the write to the eBPF map, `none` when it
fails. The result is the Go error (`none` for nil) and the offsets map after the call. -/
def addInspectionResultToMap {β M : Type} (probeData : Option β) (dataMap : Option M)
    (Put : M → Nat → β → Option M) (binPath : String) : Option GoTLSError × Option M :=
  match probeData with
  | none => (some GoTLSError.parsingInspectionResult, dataMap)
  | some data =>
    match dataMap with
    | none => (some GoTLSError.mapNotFound, none)
    | some offsets =>
      let splitPath := Split binPath '/'
      if splitPath.length ≠ 4 then (some GoTLSError.unexpectedPathFormat, some offsets)
      else
        let pidStr := splitPath.getD 2 ""
        match ParseInt32 pidStr with
        | none => (some GoTLSError.failedExtractingPid, some offsets)
        | some pid =>
          match Put offsets (toUint32 pid) data with
          | none => (some GoTLSError.failedWriting, some offsets)
          | some offsets' => (none, some offsets')

/-! ## Sample data -/

/-- A page whose record in slot `j` is the number `100 * idx + j`. -/
def samplePage (idx pos : Nat) : HttpBatch Nat :=
  ⟨idx, pos, fun j => 100 * idx + j⟩

/-- The page map holding the listed pages under the listed keys, and nothing else. -/
def sampleMap (pages : List (httpBatchKey × HttpBatch Nat)) : BatchMap Nat :=
  fun k =>
    match pages.find? (fun p => p.1 == k) with
    | none => none
    | some p => some p.2

/-- A kernel record with the given method and status code, all else zero. -/
def sampleTx (method status : Nat) : EbpfHttpTx :=
  { Tup := ⟨0, 0, 0, 0, 0, 0, 0, 0, 0⟩
    Request_started := 0
    Request_method := method
    Response_status_code := status
    Response_last_seen := 0
    Request_fragment := fun _ => 0
    Owned_by_src_port := 0
    Tcp_seq := 0
    Tags := 0 }

/-! ## Machine integers and slices -/

theorem toInt64_of_lt {u : Nat} (h : u < 2 ^ 63) : toInt64 u = (u : Int) := by
  unfold toInt64
  have h1 : u % 2 ^ 64 = u := Nat.mod_eq_of_lt (by omega)
  rw [h1, if_pos h]

theorem toInt64_le (u : Nat) : toInt64 u ≤ (u : Int) := by
  unfold toInt64
  have h1 : u % 2 ^ 64 ≤ u := Nat.mod_le _ _
  split <;> omega

theorem toInt64_range (u : Nat) : -2 ^ 63 ≤ toInt64 u ∧ toInt64 u < 2 ^ 63 := by
  unfold toInt64
  have h1 : u % 2 ^ 64 < 2 ^ 64 := Nat.mod_lt _ (by norm_num)
  split <;> omega

theorem wrapInt64_of_range {i : Int} (h1 : -2 ^ 63 ≤ i) (h2 : i < 2 ^ 63) :
    wrapInt64 i = i := by
  unfold wrapInt64
  have : (i + 2 ^ 63) % 2 ^ 64 = i + 2 ^ 63 := Int.emod_eq_of_lt (by omega) (by omega)
  omega

theorem Transactions_length {α : Type} (page : HttpBatch α) :
    page.Transactions.length = HTTPBatchSize := by
  unfold HttpBatch.Transactions
  rw [List.length_ofFn]

theorem Transactions_getElem? {α : Type} (page : HttpBatch α) (j : Nat)
    (h : j < HTTPBatchSize) : page.Transactions[j]? = some (page.Txs ⟨j, h⟩) := by
  unfold HttpBatch.Transactions
  rw [List.getElem?_ofFn, List.ofFnNthVal, dif_pos h]

theorem sliceFromTo_Transactions {α : Type} (page : HttpBatch α) (lo hi : Nat)
    (h1 : lo ≤ hi) (h2 : hi ≤ HTTPBatchSize) :
    sliceFromTo page.Transactions (lo : Int) (hi : Int)
      = some ((page.Transactions.drop lo).take (hi - lo)) := by
  unfold sliceFromTo
  rw [if_pos]
  · simp
  · rw [Transactions_length]; omega

theorem sliceFromTo_some {α : Type} {s out : List α} {lo hi : Int}
    (h : sliceFromTo s lo hi = some out) :
    0 ≤ lo ∧ lo ≤ hi ∧ hi ≤ (s.length : Int) ∧
      out = (s.drop lo.toNat).take (hi.toNat - lo.toNat) := by
  unfold sliceFromTo at h
  split at h
  · rename_i hb
    simp only [Option.some.injEq] at h
    exact ⟨hb.1, hb.2.1, hb.2.2, h.symm⟩
  · simp at h

theorem isSlots_drop_take {α : Type} (page : HttpBatch α) (lo hi : Nat)
    (h2 : hi ≤ HTTPBatchSize) :
    IsSlots page lo hi ((page.Transactions.drop lo).take (hi - lo)) := by
  constructor
  · simp [Transactions_length]; omega
  · intro j h hj
    rw [List.getElem?_take, if_pos (by omega), List.getElem?_drop,
      Transactions_getElem? page _ h]

/-! ## The notification path -/

theorem sliceFrom_Transactions {α : Type} (page : HttpBatch α) (offset : Int)
    (h0 : 0 ≤ offset) (h1 : offset ≤ HTTPBatchSize) :
    sliceFrom page.Transactions offset = some (page.Transactions.drop offset.toNat) := by
  obtain ⟨p, rfl⟩ := Int.eq_ofNat_of_zero_le h0
  have hp : p ≤ HTTPBatchSize := by omega
  unfold sliceFrom
  rw [Transactions_length, sliceFromTo_Transactions page p HTTPBatchSize hp (le_refl _)]
  simp only [Int.toNat_ofNat, Option.some.injEq]
  apply List.take_of_length_le
  simp [Transactions_length]

/-- The success path of `GetTransactionsFrom`: the page carries the notified idx and is
not behind the cursor. -/
theorem GetTransactionsFrom_ok {α : Type} (batchMap : BatchMap α) (m : batchManager)
    (n : HttpNotification) (c : usrBatchState) (page : HttpBatch α)
    (hc : m.stateByCPU[n.Cpu]? = some c)
    (hpage : batchMap (httpBatchKey.Prepare n) = some page)
    (hge : ¬ toInt64 page.Idx < c.idx) (hidx : page.Idx = n.Idx)
    (h0 : 0 ≤ c.pos) (h1 : c.pos ≤ HTTPBatchSize) :
    GetTransactionsFrom batchMap m n
      = some (⟨m.stateByCPU.set n.Cpu ⟨wrapInt64 (toInt64 n.Idx + 1), 0⟩⟩,
          some (page.Transactions.drop c.pos.toNat), none) := by
  unfold GetTransactionsFrom
  simp only [hc, hpage]
  rw [if_neg hge]
  have hd : page.IsDirty n = false := by simp [HttpBatch.IsDirty, hidx]
  simp [hd, sliceFrom_Transactions page c.pos h0 h1]

/-- Every successful return of `GetTransactionsFrom` comes from its success path. -/
theorem GetTransactionsFrom_some_inv {α : Type} {batchMap : BatchMap α} {m m' : batchManager}
    {n : HttpNotification} {txs : List α} {e : Option TxError}
    (h : GetTransactionsFrom batchMap m n = some (m', some txs, e)) :
    ∃ c page, m.stateByCPU[n.Cpu]? = some c ∧ batchMap (httpBatchKey.Prepare n) = some page ∧
      ¬ toInt64 page.Idx < c.idx ∧ page.Idx = n.Idx ∧ 0 ≤ c.pos ∧ c.pos ≤ HTTPBatchSize ∧
      m' = ⟨m.stateByCPU.set n.Cpu ⟨wrapInt64 (toInt64 n.Idx + 1), 0⟩⟩ ∧
      txs = page.Transactions.drop c.pos.toNat ∧ e = none := by
  unfold GetTransactionsFrom at h
  cases hc : m.stateByCPU[n.Cpu]? with
  | none => simp [hc] at h
  | some c =>
    cases hpage : batchMap (httpBatchKey.Prepare n) with
    | none => simp [hc, hpage] at h
    | some page =>
      simp only [hc, hpage] at h
      by_cases hlt : toInt64 page.Idx < c.idx
      · simp [hlt] at h
      · rw [if_neg hlt] at h
        by_cases hd : page.IsDirty n = true
        · simp [hd] at h
        · rw [if_neg hd] at h
          have hidx : page.Idx = n.Idx := by
            simpa [HttpBatch.IsDirty] using hd
          cases hs : sliceFrom page.Transactions c.pos with
          | none => simp [hs] at h
          | some out =>
            simp only [hs, Option.some.injEq, Prod.mk.injEq] at h
            obtain ⟨h0, h1, _, hout⟩ := sliceFromTo_some hs
            rw [Transactions_length] at h1
            have h1' : c.pos ≤ (HTTPBatchSize : Int) := by omega
            have := sliceFrom_Transactions page c.pos h0 h1'
            rw [hs] at this
            simp only [Option.some.injEq] at this
            exact ⟨c, page, rfl, rfl, hlt, hidx, h0, h1', h.1.symm, by rw [← h.2.1, this], h.2.2.symm⟩

theorem isSlots_last {α : Type} {page : HttpBatch α} {txs : List α}
    (h : IsSlots page 14 HTTPBatchSize txs) : txs = [page.Txs ⟨14, by decide⟩] := by
  obtain ⟨hlen, hget⟩ := h
  have h0 := hget 0 (by decide) (by decide)
  match txs, hlen, h0 with
  | [x], _, h0 =>
    simp only [List.getElem?_cons_zero, Option.some.injEq] at h0
    rw [h0]

/-- C2 (overlap trim). When the page looked up for notification `n` carries the notified
idx and the cursor `c` of `n.Cpu` stands on that same page (a Go `int`, so below `2^63`,
with `0 ≤ c.pos ≤ PAGE_SIZE` so that the slice `txs[c.pos : PAGE_SIZE]` exists),
`GetTransactionsFrom` returns no error and exactly the records of slots
`c.pos .. PAGE_SIZE-1` in page order; with `c.pos = PAGE_SIZE - 1` that is the single
record of slot 14. -/
theorem GetTransactionsFrom_overlap_trim {α : Type} (batchMap : BatchMap α)
    (m : batchManager) (n : HttpNotification) (c : usrBatchState) (page : HttpBatch α)
    (hc : m.stateByCPU[n.Cpu]? = some c)
    (hpage : batchMap (httpBatchKey.Prepare n) = some page)
    (hidx : page.Idx = n.Idx) (hcur : c.idx = (n.Idx : Int)) (hint : c.idx < 2 ^ 63)
    (h0 : 0 ≤ c.pos) (h1 : c.pos ≤ HTTPBatchSize) :
    ∃ m' txs, GetTransactionsFrom batchMap m n = some (m', some txs, none) ∧
      IsSlots page c.pos.toNat HTTPBatchSize txs ∧
      (c.pos = HTTPBatchSize - 1 → txs = [page.Txs ⟨14, by decide⟩]) := by
  have hge : ¬ toInt64 page.Idx < c.idx := by
    rw [hidx, toInt64_of_lt (by omega), hcur]; omega
  refine ⟨_, _, GetTransactionsFrom_ok batchMap m n c page hc hpage hge hidx h0 h1, ?_, ?_⟩
  · have h := isSlots_drop_take page c.pos.toNat HTTPBatchSize (le_refl _)
    rwa [List.take_of_length_le (by simp [Transactions_length])] at h
  · intro h14
    have h := isSlots_drop_take page c.pos.toNat HTTPBatchSize (le_refl _)
    rw [List.take_of_length_le (by simp [Transactions_length])] at h
    have h15 : ((HTTPBatchSize : Nat) : Int) = 15 := rfl
    have e : c.pos.toNat = 14 := by omega
    rw [e] at h ⊢
    exact isSlots_last h

theorem GetTransactionsFrom_overlap_trim_witness :
    ∃ m' txs, GetTransactionsFrom (sampleMap [(⟨0, 4⟩, samplePage 4 15)]) ⟨[⟨4, 14⟩]⟩ ⟨0, 4⟩
        = some (m', some txs, none) ∧
      IsSlots (samplePage 4 15) (14 : Int).toNat HTTPBatchSize txs ∧
      ((14 : Int) = HTTPBatchSize - 1 → txs = [(samplePage 4 15).Txs ⟨14, by decide⟩]) :=
  GetTransactionsFrom_overlap_trim (sampleMap [(⟨0, 4⟩, samplePage 4 15)]) ⟨[⟨4, 14⟩]⟩ ⟨0, 4⟩
    ⟨4, 14⟩ (samplePage 4 15) rfl rfl rfl rfl (by decide) (by decide) (by decide)

/-- C3 (page jump), evaluated on the code. A poll reads the three records written so far
to page 0 and leaves the cursor at `{0,3}`; the notification of page 1, found complete
under its own idx and ahead of the cursor, then yields slots 3..14 of page 1 only: the
offset kept for page 0 is applied to page 1 and its first three records are not
delivered, while the cursor moves on to `{2,0}`. -/
theorem GetTransactionsFrom_page_jump_offset :
    GetPendingTransactions (sampleMap [(⟨0, 0⟩, samplePage 0 3)]) (newBatchManager 1)
        = some (⟨[⟨0, 3⟩]⟩, [0, 1, 2], [⟨0, 0⟩]) ∧
      GetTransactionsFrom (sampleMap [(⟨0, 0⟩, samplePage 15 2), (⟨0, 1⟩, samplePage 1 15)])
          ⟨[⟨0, 3⟩]⟩ ⟨0, 1⟩
        = some (⟨[⟨2, 0⟩]⟩,
            some [103, 104, 105, 106, 107, 108, 109, 110, 111, 112, 113, 114], none) := by
  decide

/-- C4, counterexample. From cursor `{0,0}` the notification of page `2^63 - 1`, found
complete under its own idx, returns the page without error, yet the cursor afterwards is
`{-2^63, 0}` and not `{n.idx + 1, 0}`: the Go expression `int(n.Idx) + 1` overflows. -/
theorem advance_wraps_at_max_idx :
    GetTransactionsFrom
        (sampleMap [(⟨0, 7⟩, samplePage 9223372036854775807 15)]) (newBatchManager 1)
        ⟨0, 9223372036854775807⟩
      = some (⟨[⟨-9223372036854775808, 0⟩]⟩,
          some (samplePage 9223372036854775807 15).Transactions, none) ∧
    (⟨-9223372036854775808, 0⟩ : usrBatchState)
      ≠ ⟨((9223372036854775807 : Nat) : Int) + 1, 0⟩ := by
  decide

/-- C4 (advance), amended: for a notification with `n.Idx < 2^63 - 1`, whenever
`GetTransactionsFrom` returns transactions it returns no error and the cursor of `n.Cpu`
afterwards is exactly `{n.Idx + 1, 0}`; and it does return transactions whenever the page
looked up carries the notified idx and is not behind the cursor. -/
theorem GetTransactionsFrom_advance {α : Type} (batchMap : BatchMap α) (m : batchManager)
    (n : HttpNotification) (c : usrBatchState)
    (hc : m.stateByCPU[n.Cpu]? = some c) (hn : n.Idx < 2 ^ 63 - 1) :
    (∀ m' txs e, GetTransactionsFrom batchMap m n = some (m', some txs, e) →
        e = none ∧ m'.stateByCPU[n.Cpu]? = some ⟨(n.Idx : Int) + 1, 0⟩) ∧
    (∀ page, batchMap (httpBatchKey.Prepare n) = some page → page.Idx = n.Idx →
        c.idx ≤ (page.Idx : Int) → 0 ≤ c.pos → c.pos ≤ HTTPBatchSize →
        ∃ m' txs, GetTransactionsFrom batchMap m n = some (m', some txs, none) ∧
          m'.stateByCPU[n.Cpu]? = some ⟨(n.Idx : Int) + 1, 0⟩) := by
  have hlen : n.Cpu < m.stateByCPU.length := by
    rcases List.getElem?_eq_some_iff.mp hc with ⟨h, _⟩
    exact h
  have hw : wrapInt64 (toInt64 n.Idx + 1) = (n.Idx : Int) + 1 := by
    rw [toInt64_of_lt (by omega)]
    exact wrapInt64_of_range (by omega) (by omega)
  constructor
  · intro m' txs e h
    obtain ⟨_, _, _, _, _, _, _, _, hm, _, he⟩ := GetTransactionsFrom_some_inv h
    refine ⟨he, ?_⟩
    rw [hm, hw]
    simp [hlen]
  · intro page hpage hidx hle h0 h1
    have hge : ¬ toInt64 page.Idx < c.idx := by
      rw [hidx, toInt64_of_lt (by omega)]; rw [hidx] at hle; omega
    refine ⟨_, _, GetTransactionsFrom_ok batchMap m n c page hc hpage hge hidx h0 h1, ?_⟩
    rw [hw]
    simp [hlen]

theorem GetTransactionsFrom_advance_witness :
    (∀ m' txs e, GetTransactionsFrom (sampleMap [(⟨0, 5⟩, samplePage 5 15)]) ⟨[⟨0, 0⟩]⟩ ⟨0, 5⟩
          = some (m', some txs, e) →
        e = none ∧ m'.stateByCPU[(0 : Nat)]? = some ⟨((5 : Nat) : Int) + 1, 0⟩) ∧
    (∀ page, sampleMap [(⟨0, 5⟩, samplePage 5 15)] (httpBatchKey.Prepare ⟨0, 5⟩) = some page →
        page.Idx = 5 → (0 : Int) ≤ (page.Idx : Int) → (0 : Int) ≤ 0 →
        (0 : Int) ≤ HTTPBatchSize →
        ∃ m' txs, GetTransactionsFrom (sampleMap [(⟨0, 5⟩, samplePage 5 15)]) ⟨[⟨0, 0⟩]⟩ ⟨0, 5⟩
            = some (m', some txs, none) ∧
          m'.stateByCPU[(0 : Nat)]? = some ⟨((5 : Nat) : Int) + 1, 0⟩) :=
  GetTransactionsFrom_advance (sampleMap [(⟨0, 5⟩, samplePage 5 15)]) ⟨[⟨0, 0⟩]⟩ ⟨0, 5⟩ ⟨0, 0⟩
    rfl (by decide)

/-- C5, counterexample. The cursor stands at `{20,0}`; the notification of page 3 finds
slot 3 recycled for page 18. The page idx differs from the notified idx, yet the call
returns `(nil, nil)` and not `ErrLostBatch`: the already-consumed test runs first. -/
theorem recycled_slot_behind_cursor :
    (samplePage 18 15).Idx ≠ (⟨0, 3⟩ : HttpNotification).Idx ∧
    sampleMap [(⟨0, 3⟩, samplePage 18 15)] (httpBatchKey.Prepare ⟨0, 3⟩)
      = some (samplePage 18 15) ∧
    GetTransactionsFrom (sampleMap [(⟨0, 3⟩, samplePage 18 15)]) ⟨[⟨20, 0⟩]⟩ ⟨0, 3⟩
      = some (⟨[⟨20, 0⟩]⟩, none, none) := by
  refine ⟨by decide, rfl, by decide⟩

/-- C5 (dirty test), amended: when the page looked up carries an idx other than the
notified one, `GetTransactionsFrom` leaves every cursor as it was; it returns
`ErrLostBatch` provided the page idx, read as an `int`, is not below the cursor idx, and
`(nil, nil)` when it is below. -/
theorem GetTransactionsFrom_dirty {α : Type} (batchMap : BatchMap α) (m : batchManager)
    (n : HttpNotification) (c : usrBatchState) (page : HttpBatch α)
    (hc : m.stateByCPU[n.Cpu]? = some c)
    (hpage : batchMap (httpBatchKey.Prepare n) = some page)
    (hne : page.Idx ≠ n.Idx) :
    (¬ toInt64 page.Idx < c.idx →
        GetTransactionsFrom batchMap m n = some (m, none, some TxError.ErrLostBatch)) ∧
    (toInt64 page.Idx < c.idx → GetTransactionsFrom batchMap m n = some (m, none, none)) := by
  have hd : page.IsDirty n = true := by simp [HttpBatch.IsDirty, hne]
  constructor
  · intro hge
    unfold GetTransactionsFrom
    simp only [hc, hpage]
    rw [if_neg hge, if_pos hd]
  · intro hlt
    unfold GetTransactionsFrom
    simp only [hc, hpage]
    rw [if_pos hlt]

theorem GetTransactionsFrom_dirty_witness :
    (¬ toInt64 (samplePage 18 15).Idx < (3 : Int) →
        GetTransactionsFrom (sampleMap [(⟨0, 3⟩, samplePage 18 15)]) ⟨[⟨3, 0⟩]⟩ ⟨0, 3⟩
          = some (⟨[⟨3, 0⟩]⟩, none, some TxError.ErrLostBatch)) ∧
    (toInt64 (samplePage 18 15).Idx < (3 : Int) →
        GetTransactionsFrom (sampleMap [(⟨0, 3⟩, samplePage 18 15)]) ⟨[⟨3, 0⟩]⟩ ⟨0, 3⟩
          = some (⟨[⟨3, 0⟩]⟩, none, none)) :=
  GetTransactionsFrom_dirty (sampleMap [(⟨0, 3⟩, samplePage 18 15)]) ⟨[⟨3, 0⟩]⟩ ⟨0, 3⟩ ⟨3, 0⟩
    (samplePage 18 15) rfl rfl (by decide)

/-- C6 (already-consumed test). When the page looked up for notification `n` has an idx
below the idx of the cursor of `n.Cpu`, `GetTransactionsFrom` returns `(nil, nil)` and
the manager is unchanged. -/
theorem GetTransactionsFrom_already_consumed {α : Type} (batchMap : BatchMap α)
    (m : batchManager) (n : HttpNotification) (c : usrBatchState) (page : HttpBatch α)
    (hc : m.stateByCPU[n.Cpu]? = some c)
    (hpage : batchMap (httpBatchKey.Prepare n) = some page)
    (hlt : (page.Idx : Int) < c.idx) :
    GetTransactionsFrom batchMap m n = some (m, none, none) := by
  have h : toInt64 page.Idx < c.idx := lt_of_le_of_lt (toInt64_le _) hlt
  unfold GetTransactionsFrom
  simp only [hc, hpage]
  rw [if_pos h]

theorem GetTransactionsFrom_already_consumed_witness :
    GetTransactionsFrom (sampleMap [(⟨0, 2⟩, samplePage 2 15)]) ⟨[⟨3, 4⟩, ⟨0, 0⟩]⟩ ⟨0, 2⟩
      = some (⟨[⟨3, 4⟩, ⟨0, 0⟩]⟩, none, none) :=
  GetTransactionsFrom_already_consumed (sampleMap [(⟨0, 2⟩, samplePage 2 15)])
    ⟨[⟨3, 4⟩, ⟨0, 0⟩]⟩ ⟨0, 2⟩ ⟨3, 4⟩ (samplePage 2 15) rfl rfl (by decide)

/-- C7, counterexample. For the notification of page `2^63 - 1` the first call returns
the 15 records of the page and leaves the cursor at `{-2^63, 0}`; the second call,
against the same page map, returns the same 15 records again. -/
theorem second_call_redelivers_at_max_idx :
    GetTransactionsFrom
        (sampleMap [(⟨0, 7⟩, samplePage 9223372036854775807 15)]) (newBatchManager 1)
        ⟨0, 9223372036854775807⟩
      = some (⟨[⟨-9223372036854775808, 0⟩]⟩,
          some (samplePage 9223372036854775807 15).Transactions, none) ∧
    GetTransactionsFrom
        (sampleMap [(⟨0, 7⟩, samplePage 9223372036854775807 15)])
        ⟨[⟨-9223372036854775808, 0⟩]⟩ ⟨0, 9223372036854775807⟩
      = some (⟨[⟨-9223372036854775808, 0⟩]⟩,
          some (samplePage 9223372036854775807 15).Transactions, none) ∧
    (samplePage 9223372036854775807 15).Transactions.length = 15 := by
  decide

/-- C7 (idempotence under the cursor), amended: for a notification whose idx is a
`uint64` other than `2^63 - 1`, if a first call returns transactions, a second call for
the same notification against the same page map returns `(nil, nil)` and leaves the
manager as the first call left it. -/
theorem GetTransactionsFrom_twice {α : Type} (batchMap : BatchMap α) (m m1 : batchManager)
    (n : HttpNotification) (txs : List α) (e : Option TxError)
    (h64 : n.Idx < 2 ^ 64) (hne : n.Idx ≠ 2 ^ 63 - 1)
    (h1 : GetTransactionsFrom batchMap m n = some (m1, some txs, e)) :
    GetTransactionsFrom batchMap m1 n = some (m1, none, none) := by
  obtain ⟨c, page, hc, hpage, _, hidx, _, _, hm, _, _⟩ := GetTransactionsFrom_some_inv h1
  have hlen : n.Cpu < m.stateByCPU.length := by
    rcases List.getElem?_eq_some_iff.mp hc with ⟨h, _⟩
    exact h
  have hc1 : m1.stateByCPU[n.Cpu]? = some ⟨wrapInt64 (toInt64 n.Idx + 1), 0⟩ := by
    rw [hm]; simp [hlen]
  have hr := toInt64_range n.Idx
  have hmax : toInt64 n.Idx ≠ 2 ^ 63 - 1 := by
    unfold toInt64
    rw [Nat.mod_eq_of_lt h64]
    split <;> omega
  have hlt : toInt64 page.Idx < wrapInt64 (toInt64 n.Idx + 1) := by
    rw [hidx, wrapInt64_of_range (by omega) (by omega)]
    omega
  unfold GetTransactionsFrom
  simp only [hc1, hpage]
  rw [if_pos hlt]

theorem GetTransactionsFrom_twice_witness :
    GetTransactionsFrom (sampleMap [(⟨0, 0⟩, samplePage 0 15)]) ⟨[⟨1, 0⟩]⟩ ⟨0, 0⟩
      = some (⟨[⟨1, 0⟩]⟩, none, none) :=
  GetTransactionsFrom_twice (sampleMap [(⟨0, 0⟩, samplePage 0 15)]) (newBatchManager 1)
    ⟨[⟨1, 0⟩]⟩ ⟨0, 0⟩ (samplePage 0 15).Transactions none (by decide) (by decide) (by decide)

/-! ## The poll path: one CPU -/

theorem toUint32_of_lt {i : Int} (h0 : 0 ≤ i) (h1 : i < 2 ^ 32) : toUint32 i = i.toNat := by
  unfold toUint32
  rw [Int.emod_eq_of_lt h0 h1]

/-- For a CPU index that fits `uint32` and a cursor on a page number, the key looked up
by the poll is `(i, idx mod PAGE_COUNT)`. -/
theorem pendingKey_eq {i : Nat} {c : usrBatchState} (hi : i < 2 ^ 32) (h0 : 0 ≤ c.idx) :
    pendingKey i c = ⟨i, (c.idx % HTTPBatchPages).toNat⟩ := by
  unfold pendingKey
  have h1 : Int.tmod c.idx HTTPBatchPages = c.idx % HTTPBatchPages :=
    Int.tmod_eq_emod h0 (by decide)
  have h2 : 0 ≤ c.idx % (HTTPBatchPages : Int) := Int.emod_nonneg _ (by decide)
  have h3 : c.idx % (HTTPBatchPages : Int) < (HTTPBatchPages : Int) :=
    Int.emod_lt_of_pos _ (by decide)
  have h15 : ((HTTPBatchPages : Nat) : Int) = 15 := rfl
  rw [h1, toUint32_of_lt h2 (by omega), toUint32_of_lt (by omega) (by omega)]
  simp

theorem pendingLoop_lookup_failed {α : Type} (batchMap : BatchMap α) (i n : Nat)
    (c : usrBatchState) (h : batchMap (pendingKey i c) = none) :
    pendingLoop batchMap i (n + 1) c = some ⟨c, [], [pendingKey i c]⟩ := by
  simp [pendingLoop, h]

theorem pendingLoop_nothing_new {α : Type} (batchMap : BatchMap α) (i n : Nat)
    (c : usrBatchState) (page : HttpBatch α) (hpage : batchMap (pendingKey i c) = some page)
    (h : toInt64 page.Idx ≠ c.idx ∨ (page.Pos : Int) ≤ c.pos) :
    pendingLoop batchMap i (n + 1) c = some ⟨c, [], [pendingKey i c]⟩ := by
  simp only [pendingLoop, hpage]
  rw [if_pos h]

/-- One iteration that finds new records on the cursor's page. -/
theorem pendingLoop_new {α : Type} (batchMap : BatchMap α) (i n : Nat)
    (c : usrBatchState) (page : HttpBatch α) (hpage : batchMap (pendingKey i c) = some page)
    (hidx : toInt64 page.Idx = c.idx) (h0 : 0 ≤ c.pos) (h1 : c.pos < page.Pos)
    (h2 : page.Pos ≤ HTTPBatchSize) :
    pendingLoop batchMap i (n + 1) c =
      if page.Pos = HTTPBatchSize then
        match pendingLoop batchMap i n ⟨wrapInt64 (c.idx + 1), 0⟩ with
        | none => none
        | some r =>
          some ⟨r.state,
            (page.Transactions.drop c.pos.toNat).take (page.Pos - c.pos.toNat) ++ r.txs,
            pendingKey i c :: r.keys⟩
      else
        some ⟨⟨c.idx, page.Pos⟩,
          (page.Transactions.drop c.pos.toNat).take (page.Pos - c.pos.toNat),
          [pendingKey i c]⟩ := by
  obtain ⟨p, hp⟩ := Int.eq_ofNat_of_zero_le h0
  have hs : sliceFromTo page.Transactions c.pos (page.Pos : Int)
      = some ((page.Transactions.drop c.pos.toNat).take (page.Pos - c.pos.toNat)) := by
    rw [hp]
    rw [sliceFromTo_Transactions page p page.Pos (by omega) h2]
    simp
  have hn : ¬ (toInt64 page.Idx ≠ c.idx ∨ (page.Pos : Int) ≤ c.pos) := by
    intro h
    rcases h with h | h
    · exact h hidx
    · omega
  simp only [pendingLoop, hpage]
  rw [if_neg hn]
  simp only [hs]
  by_cases hf : page.Pos = HTTPBatchSize
  · have hf' : (page.Pos : Int) = (HTTPBatchSize : Int) := by rw [hf]
    rw [if_pos hf', if_pos hf]
  · have hf' : ¬ (page.Pos : Int) = (HTTPBatchSize : Int) := by
      intro h; exact hf (by exact_mod_cast h)
    rw [if_neg hf', if_neg hf]

/-- The inner loop makes at most as many lookups as it has iterations. -/
theorem pendingLoop_keys_length {α : Type} (batchMap : BatchMap α) (i : Nat) :
    ∀ (n : Nat) (c : usrBatchState) (r : cpuSweep α),
      pendingLoop batchMap i n c = some r → r.keys.length ≤ n := by
  intro n
  induction n with
  | zero =>
    intro c r h
    simp only [pendingLoop, Option.some.injEq] at h
    rw [← h]; simp
  | succ n ih =>
    intro c r h
    simp only [pendingLoop] at h
    split at h
    · simp only [Option.some.injEq] at h
      rw [← h]; simp
    · split at h
      · simp only [Option.some.injEq] at h
        rw [← h]; simp
      · split at h
        · simp at h
        · split at h
          · split at h
            · simp at h
            · rename_i r' hr'
              simp only [Option.some.injEq] at h
              rw [← h]
              have := ih _ _ hr'
              simp only [List.length_cons]
              omega
          · simp only [Option.some.injEq] at h
            rw [← h]; simp

/-! ## The poll path: all CPUs -/

/-- What a sweep that returns did for the CPU at offset `j`: it ran the inner loop on
that CPU's cursor, stored the cursor the loop left, and the loop's transactions are a
contiguous part of the output. -/
theorem sweepCPUs_get {α : Type} (batchMap : BatchMap α) :
    ∀ (states : List usrBatchState) (i0 : Nat) (states' : List usrBatchState)
      (out : List α) (keys : List httpBatchKey),
      sweepCPUs batchMap i0 states = some (states', out, keys) →
      ∀ (j : Nat) (c : usrBatchState), states[j]? = some c →
        ∃ r pre post, pendingLoop batchMap (i0 + j) maxLookupsPerCPU c = some r ∧
          states'[j]? = some r.state ∧ out = pre ++ r.txs ++ post := by
  intro states
  induction states with
  | nil => intro i0 states' out keys _ j c hj; simp at hj
  | cons s rest ih =>
    intro i0 states' out keys h j c hj
    simp only [sweepCPUs] at h
    cases hr : pendingLoop batchMap i0 maxLookupsPerCPU s with
    | none => simp [hr] at h
    | some r =>
      cases hrest : sweepCPUs batchMap (i0 + 1) rest with
      | none => simp [hr, hrest] at h
      | some t =>
        obtain ⟨rest', txs, ks⟩ := t
        simp only [hr, hrest, Option.some.injEq, Prod.mk.injEq] at h
        obtain ⟨hs, ho, _⟩ := h
        cases j with
        | zero =>
          simp only [List.getElem?_cons_zero, Option.some.injEq] at hj
          refine ⟨r, [], txs, ?_, ?_, ?_⟩
          · rw [← hj]; simpa using hr
          · rw [← hs]; simp
          · rw [← ho]; simp
        | succ j =>
          simp only [List.getElem?_cons_succ] at hj
          obtain ⟨r2, pre, post, h1, h2, h3⟩ := ih (i0 + 1) rest' txs ks hrest j c hj
          refine ⟨r2, r.txs ++ pre, post, ?_, ?_, ?_⟩
          · rw [← h1]; congr 1; omega
          · rw [← hs]; simpa using h2
          · rw [← ho, h3]; simp

/-- A sweep in which the inner loop of every CPU returns its cursor unchanged and no
transaction returns, changes no cursor and delivers nothing. -/
theorem sweepCPUs_idle {α : Type} (batchMap : BatchMap α) :
    ∀ (states : List usrBatchState) (i0 : Nat),
      (∀ (j : Nat) (c : usrBatchState), states[j]? = some c →
        ∃ ks, pendingLoop batchMap (i0 + j) maxLookupsPerCPU c = some ⟨c, [], ks⟩) →
      ∃ keys, sweepCPUs batchMap i0 states = some (states, [], keys) := by
  intro states
  induction states with
  | nil => intro i0 _; exact ⟨[], rfl⟩
  | cons s rest ih =>
    intro i0 h
    obtain ⟨ks, hks⟩ := h 0 s (by simp)
    obtain ⟨keys, hkeys⟩ := ih (i0 + 1) (by
      intro j c hj
      obtain ⟨ks', h'⟩ := h (j + 1) c (by simpa using hj)
      refine ⟨ks', ?_⟩
      rw [← h']; congr 1; omega)
    refine ⟨ks ++ keys, ?_⟩
    simp only [Nat.add_zero] at hks
    simp only [sweepCPUs, hks, hkeys, List.nil_append]

theorem GetPendingTransactions_get {α : Type} (batchMap : BatchMap α) (m m' : batchManager)
    (out : List α) (keys : List httpBatchKey)
    (h : GetPendingTransactions batchMap m = some (m', out, keys))
    (i : Nat) (c : usrBatchState) (hc : m.stateByCPU[i]? = some c) :
    ∃ r pre post, pendingLoop batchMap i maxLookupsPerCPU c = some r ∧
      m'.stateByCPU[i]? = some r.state ∧ out = pre ++ r.txs ++ post := by
  unfold GetPendingTransactions at h
  cases hs : sweepCPUs batchMap 0 m.stateByCPU with
  | none => simp [hs] at h
  | some t =>
    obtain ⟨states, txs, ks⟩ := t
    simp only [hs, Option.some.injEq, Prod.mk.injEq] at h
    obtain ⟨r, pre, post, h1, h2, h3⟩ := sweepCPUs_get batchMap _ _ _ _ _ hs i c hc
    refine ⟨r, pre, post, ?_, ?_, ?_⟩
    · simpa using h1
    · rw [← h.1]; exact h2
    · rw [← h.2.1]; exact h3

/-- C8 (poll of a page in progress). For a CPU `i` (a number that fits the `uint32` key
field) whose cursor `c` (two Go `int`s, `0 ≤ c.pos`) stands on the page found at
`(i, c.idx mod PAGE_COUNT)`, with `page.idx = c.idx` and `c.pos < page.pos < PAGE_SIZE`,
the inner loop of `GetPendingTransactions` returns exactly the records of slots
`c.pos .. page.pos-1` in page order, looks up that one key only, and leaves the cursor
`{c.idx, page.pos}`; and in any manager holding `c` for CPU `i`, a sweep that returns has
stored that cursor for CPU `i` and delivered those records as a contiguous part of its
output. -/
theorem GetPendingTransactions_page_in_progress {α : Type} (batchMap : BatchMap α) (i : Nat)
    (c : usrBatchState) (page : HttpBatch α)
    (hi : i < 2 ^ 32)
    (hpage : batchMap ⟨i, (c.idx % HTTPBatchPages).toNat⟩ = some page)
    (hidx : (page.Idx : Int) = c.idx) (hint : c.idx < 2 ^ 63)
    (h0 : 0 ≤ c.pos) (h1 : c.pos < page.Pos) (h2 : page.Pos < HTTPBatchSize) :
    ∃ txs, IsSlots page c.pos.toNat page.Pos txs ∧
      pendingLoop batchMap i maxLookupsPerCPU c
        = some ⟨⟨c.idx, page.Pos⟩, txs, [⟨i, (c.idx % HTTPBatchPages).toNat⟩]⟩ ∧
      ∀ (m m' : batchManager) (out : List α) (keys : List httpBatchKey),
        m.stateByCPU[i]? = some c →
        GetPendingTransactions batchMap m = some (m', out, keys) →
        m'.stateByCPU[i]? = some ⟨c.idx, page.Pos⟩ ∧ ∃ pre post, out = pre ++ txs ++ post := by
  have hk : pendingKey i c = ⟨i, (c.idx % HTTPBatchPages).toNat⟩ :=
    pendingKey_eq hi (by omega)
  have hloop := pendingLoop_new batchMap i 1 c page (by rw [hk]; exact hpage)
    (by rw [toInt64_of_lt (by omega)]; exact hidx) h0 h1 (by omega)
  rw [if_neg (by omega), hk] at hloop
  refine ⟨_, isSlots_drop_take page c.pos.toNat page.Pos (by omega), hloop, ?_⟩
  intro m m' out keys hc hsweep
  obtain ⟨r, pre, post, hr, hst, hout⟩ :=
    GetPendingTransactions_get batchMap m m' out keys hsweep i c hc
  rw [hloop] at hr
  simp only [Option.some.injEq] at hr
  subst hr
  exact ⟨hst, pre, post, hout⟩

theorem GetPendingTransactions_page_in_progress_witness :
    ∃ txs, IsSlots (samplePage 0 3) (0 : Int).toNat (samplePage 0 3).Pos txs ∧
      pendingLoop (sampleMap [(⟨0, 0⟩, samplePage 0 3)]) 0 maxLookupsPerCPU ⟨0, 0⟩
        = some ⟨⟨0, (samplePage 0 3).Pos⟩, txs, [⟨0, ((0 : Int) % HTTPBatchPages).toNat⟩]⟩ ∧
      ∀ (m m' : batchManager) (out : List Nat) (keys : List httpBatchKey),
        m.stateByCPU[(0 : Nat)]? = some ⟨0, 0⟩ →
        GetPendingTransactions (sampleMap [(⟨0, 0⟩, samplePage 0 3)]) m = some (m', out, keys) →
        m'.stateByCPU[(0 : Nat)]? = some ⟨0, (samplePage 0 3).Pos⟩ ∧
          ∃ pre post, out = pre ++ txs ++ post :=
  GetPendingTransactions_page_in_progress (sampleMap [(⟨0, 0⟩, samplePage 0 3)]) 0 ⟨0, 0⟩
    (samplePage 0 3) (by decide) rfl rfl (by decide) (by decide) (by decide) (by decide)

theorem pendingLoop_one_keys {α : Type} (batchMap : BatchMap α) (i : Nat)
    (c : usrBatchState) (r : cpuSweep α) (h : pendingLoop batchMap i 1 c = some r) :
    r.keys = [pendingKey i c] := by
  simp only [pendingLoop] at h
  split at h
  · simp only [Option.some.injEq] at h
    rw [← h]
  · split at h
    · simp only [Option.some.injEq] at h
      rw [← h]
    · split at h
      · simp at h
      · split at h
        · simp only [Option.some.injEq] at h
          rw [← h]
        · simp only [Option.some.injEq] at h
          rw [← h]

theorem pendingLoop_one_returns {α : Type} (batchMap : BatchMap α) (i : Nat)
    (c : usrBatchState) (h0 : 0 ≤ c.pos)
    (hpos : ∀ page, batchMap (pendingKey i c) = some page → page.Pos ≤ HTTPBatchSize) :
    ∃ r, pendingLoop batchMap i 1 c = some r := by
  cases hpage : batchMap (pendingKey i c) with
  | none => exact ⟨_, pendingLoop_lookup_failed batchMap i 0 c hpage⟩
  | some page =>
    by_cases hn : toInt64 page.Idx ≠ c.idx ∨ (page.Pos : Int) ≤ c.pos
    · exact ⟨_, pendingLoop_nothing_new batchMap i 0 c page hpage hn⟩
    · have hidx : toInt64 page.Idx = c.idx := by
        by_contra h; exact hn (Or.inl h)
      have h1 : c.pos < page.Pos := by
        by_contra h; exact hn (Or.inr (by omega))
      have := pendingLoop_new batchMap i 0 c page hpage hidx h0 h1 (hpos page hpage)
      rw [this]
      by_cases hf : page.Pos = HTTPBatchSize
      · rw [if_pos hf]; simp [pendingLoop]
      · rw [if_neg hf]; exact ⟨_, rfl⟩

/-- C9, counterexample. The cursor of CPU 0 stands at `{2^63 - 1, 0}` on a complete
page. The sweep delivers the page, but the cursor becomes `{-2^63, 0}`, not
`{c.idx + 1, 0}`, and the second lookup goes to slot `4294967288`, not to slot
`(c.idx + 1) mod 15 = 8`: the Go statement `usrState.idx++` overflows. -/
theorem poll_wraps_at_max_idx :
    GetPendingTransactions (sampleMap [(⟨0, 7⟩, samplePage 9223372036854775807 15)])
        ⟨[⟨9223372036854775807, 0⟩]⟩
      = some (⟨[⟨-9223372036854775808, 0⟩]⟩,
          (samplePage 9223372036854775807 15).Transactions,
          [⟨0, 7⟩, ⟨0, 4294967288⟩]) ∧
    (((9223372036854775807 : Int) + 1) % HTTPBatchPages).toNat = 8 := by
  decide

/-- C9 (poll of a complete page), amended by the bound `c.idx < 2^63 - 1`. The inner
loop of `GetPendingTransactions` never makes more than `maxLookupsPerCPU = 2` lookups for
a CPU. When the cursor `c` of CPU `i` stands on a complete page (`page.pos = PAGE_SIZE`,
`0 ≤ c.pos < PAGE_SIZE`), the loop delivers the records of slots `c.pos .. 14` first and
goes on as its single remaining iteration does from cursor `{c.idx + 1, 0}`; that
iteration looks up the one key `(i, (c.idx + 1) mod PAGE_COUNT)` and returns whenever the
page there, if any, has `pos ≤ PAGE_SIZE`. When that second page is complete as well, all
its records follow, the cursor ends past it and no third key is looked up. -/
theorem GetPendingTransactions_full_page {α : Type} (batchMap : BatchMap α) (i : Nat)
    (c : usrBatchState) (page : HttpBatch α)
    (hi : i < 2 ^ 32)
    (hpage : batchMap ⟨i, (c.idx % HTTPBatchPages).toNat⟩ = some page)
    (hidx : (page.Idx : Int) = c.idx) (hmax : c.idx < 2 ^ 63 - 1)
    (hfull : page.Pos = HTTPBatchSize) (h0 : 0 ≤ c.pos) (h1 : c.pos < HTTPBatchSize) :
    (∀ (c0 : usrBatchState) (r : cpuSweep α),
        pendingLoop batchMap i maxLookupsPerCPU c0 = some r →
        r.keys.length ≤ maxLookupsPerCPU) ∧
    ∃ suffix, IsSlots page c.pos.toNat HTTPBatchSize suffix ∧
      (pendingLoop batchMap i maxLookupsPerCPU c =
        match pendingLoop batchMap i 1 ⟨c.idx + 1, 0⟩ with
        | none => none
        | some r =>
          some ⟨r.state, suffix ++ r.txs, ⟨i, (c.idx % HTTPBatchPages).toNat⟩ :: r.keys⟩) ∧
      (∀ r, pendingLoop batchMap i 1 ⟨c.idx + 1, 0⟩ = some r →
        r.keys = [⟨i, ((c.idx + 1) % HTTPBatchPages).toNat⟩]) ∧
      ((∀ page2, batchMap ⟨i, ((c.idx + 1) % HTTPBatchPages).toNat⟩ = some page2 →
          page2.Pos ≤ HTTPBatchSize) →
        ∃ r, pendingLoop batchMap i 1 ⟨c.idx + 1, 0⟩ = some r) ∧
      (∀ page2, batchMap ⟨i, ((c.idx + 1) % HTTPBatchPages).toNat⟩ = some page2 →
        (page2.Idx : Int) = c.idx + 1 → page2.Pos = HTTPBatchSize →
        ∃ all2, IsSlots page2 0 HTTPBatchSize all2 ∧
          pendingLoop batchMap i maxLookupsPerCPU c
            = some ⟨⟨wrapInt64 (c.idx + 1 + 1), 0⟩, suffix ++ all2,
                [⟨i, (c.idx % HTTPBatchPages).toNat⟩,
                 ⟨i, ((c.idx + 1) % HTTPBatchPages).toNat⟩]⟩) := by
  have hk : pendingKey i c = ⟨i, (c.idx % HTTPBatchPages).toNat⟩ :=
    pendingKey_eq hi (by omega)
  have hk2 : pendingKey i ⟨c.idx + 1, 0⟩ = ⟨i, ((c.idx + 1) % HTTPBatchPages).toNat⟩ :=
    pendingKey_eq hi (by simp only; omega)
  have hw : wrapInt64 (c.idx + 1) = c.idx + 1 := wrapInt64_of_range (by omega) (by omega)
  have hloop := pendingLoop_new batchMap i 1 c page (by rw [hk]; exact hpage)
    (by rw [toInt64_of_lt (by omega)]; exact hidx) h0 (by omega) (by omega)
  rw [if_pos hfull, hk, hw, hfull] at hloop
  refine ⟨fun c0 r h => pendingLoop_keys_length batchMap i _ c0 r h, _,
    isSlots_drop_take page c.pos.toNat HTTPBatchSize (le_refl _), hloop, ?_, ?_, ?_⟩
  · intro r hr
    rw [← hk2]
    exact pendingLoop_one_keys batchMap i _ r hr
  · intro hpos
    exact pendingLoop_one_returns batchMap i _ (le_refl _) (by rw [hk2]; exact hpos)
  · intro page2 hpage2 hidx2 hfull2
    have h2 := pendingLoop_new batchMap i 0 ⟨c.idx + 1, 0⟩ page2 (by rw [hk2]; exact hpage2)
      (by rw [toInt64_of_lt (by omega)]; exact hidx2) (le_refl _)
      (by simp only [hfull2]; decide) (by omega)
    have hz : pendingLoop batchMap i 0 ⟨wrapInt64 (c.idx + 1 + 1), 0⟩
        = some ⟨⟨wrapInt64 (c.idx + 1 + 1), 0⟩, [], []⟩ := by simp [pendingLoop]
    rw [if_pos hfull2, hk2, hfull2, hz] at h2
    have h2' : pendingLoop batchMap i 1 ⟨c.idx + 1, 0⟩ = _ := h2
    refine ⟨_, isSlots_drop_take page2 0 HTTPBatchSize (le_refl _), ?_⟩
    rw [hloop, h2']
    simp

theorem GetPendingTransactions_full_page_witness :
    ∃ r, pendingLoop
        (sampleMap [(⟨0, 4⟩, samplePage 4 15), (⟨0, 5⟩, samplePage 5 2)]) 0 1 ⟨4 + 1, 0⟩
      = some r :=
  (GetPendingTransactions_full_page
    (sampleMap [(⟨0, 4⟩, samplePage 4 15), (⟨0, 5⟩, samplePage 5 2)]) 0 ⟨4, 6⟩
    (samplePage 4 15) (by decide) rfl rfl (by decide) rfl (by decide)
    (by decide)).2.choose_spec.2.2.2.1
    (by
      intro page2 h
      have e : page2 = samplePage 5 2 := by
        have h' : some (samplePage 5 2) = some page2 := h
        exact (Option.some.inj h').symm
      rw [e]; decide)

/-- The cursor rests: the lookup at its key fails, or finds a page of another idx or
with nothing written past the cursor's position. -/
theorem pendingLoop_at_rest {α : Type} (batchMap : BatchMap α) (i n : Nat)
    (c : usrBatchState)
    (h : ∀ page, batchMap (pendingKey i c) = some page →
      toInt64 page.Idx ≠ c.idx ∨ (page.Pos : Int) ≤ c.pos) :
    pendingLoop batchMap i (n + 1) c = some ⟨c, [], [pendingKey i c]⟩ := by
  cases hpage : batchMap (pendingKey i c) with
  | none => exact pendingLoop_lookup_failed batchMap i n c hpage
  | some page => exact pendingLoop_nothing_new batchMap i n c page hpage (h page hpage)

/-- The ways one iteration of the inner loop can return. -/
theorem pendingLoop_succ_cases {α : Type} (batchMap : BatchMap α) (i n : Nat)
    (c : usrBatchState) (r : cpuSweep α) (h : pendingLoop batchMap i (n + 1) c = some r) :
    (r.state = c ∧ ∀ page, batchMap (pendingKey i c) = some page →
        toInt64 page.Idx ≠ c.idx ∨ (page.Pos : Int) ≤ c.pos) ∨
    (∃ page, batchMap (pendingKey i c) = some page ∧ r.state = ⟨c.idx, page.Pos⟩) ∨
    (∃ r2, pendingLoop batchMap i n ⟨wrapInt64 (c.idx + 1), 0⟩ = some r2 ∧
        r.state = r2.state) := by
  cases hpage : batchMap (pendingKey i c) with
  | none =>
    rw [pendingLoop_lookup_failed batchMap i n c hpage] at h
    simp only [Option.some.injEq] at h
    left
    exact ⟨by rw [← h], fun page hp => by simp at hp⟩
  | some page =>
    by_cases hn : toInt64 page.Idx ≠ c.idx ∨ (page.Pos : Int) ≤ c.pos
    · rw [pendingLoop_nothing_new batchMap i n c page hpage hn] at h
      simp only [Option.some.injEq] at h
      left
      refine ⟨by rw [← h], fun page' hp => ?_⟩
      simp only [Option.some.injEq] at hp
      rw [← hp]
      exact hn
    · right
      simp only [pendingLoop, hpage] at h
      rw [if_neg hn] at h
      cases hs : sliceFromTo page.Transactions c.pos (page.Pos : Int) with
      | none => simp [hs] at h
      | some pending =>
        simp only [hs] at h
        by_cases hf : (page.Pos : Int) = (HTTPBatchSize : Int)
        · rw [if_pos hf] at h
          cases hr2 : pendingLoop batchMap i n ⟨wrapInt64 (c.idx + 1), 0⟩ with
          | none => simp [hr2] at h
          | some r2 =>
            simp only [hr2, Option.some.injEq] at h
            right
            exact ⟨r2, rfl, by rw [← h]⟩
        · rw [if_neg hf] at h
          simp only [Option.some.injEq] at h
          left
          exact ⟨page, rfl, by rw [← h]⟩

/-- After the inner loop, unless the cursor has moved on by as many pages as there were
iterations, the cursor rests: the same page map has nothing new for it. -/
theorem pendingLoop_settled {α : Type} (batchMap : BatchMap α) (i : Nat)
    (c : usrBatchState) (r : cpuSweep α)
    (h : pendingLoop batchMap i maxLookupsPerCPU c = some r)
    (hmove : r.state.idx ≠ wrapInt64 (wrapInt64 (c.idx + 1) + 1)) :
    ∀ page, batchMap (pendingKey i r.state) = some page →
      toInt64 page.Idx ≠ r.state.idx ∨ (page.Pos : Int) ≤ r.state.pos := by
  have one : ∀ (c1 : usrBatchState) (r1 : cpuSweep α),
      pendingLoop batchMap i 1 c1 = some r1 → r1.state.idx ≠ wrapInt64 (c1.idx + 1) →
      ∀ page, batchMap (pendingKey i r1.state) = some page →
        toInt64 page.Idx ≠ r1.state.idx ∨ (page.Pos : Int) ≤ r1.state.pos := by
    intro c1 r1 h1 hm1
    rcases pendingLoop_succ_cases batchMap i 0 c1 r1 h1 with ⟨hs, hrest⟩ | ⟨p, hp, hs⟩ | ⟨r2, hr2, hs⟩
    · rw [hs]; exact hrest
    · rw [hs]
      intro page hpage
      have hk : pendingKey i ⟨c1.idx, (p.Pos : Int)⟩ = pendingKey i c1 := rfl
      rw [hk, hp] at hpage
      simp only [Option.some.injEq] at hpage
      rw [← hpage]
      exact Or.inr (le_refl _)
    · simp only [pendingLoop, Option.some.injEq] at hr2
      rw [hs, ← hr2] at hm1
      exact absurd rfl hm1
  rcases pendingLoop_succ_cases batchMap i 1 c r h with ⟨hs, hrest⟩ | ⟨p, hp, hs⟩ | ⟨r2, hr2, hs⟩
  · rw [hs]; exact hrest
  · rw [hs]
    intro page hpage
    have hk : pendingKey i ⟨c.idx, (p.Pos : Int)⟩ = pendingKey i c := rfl
    rw [hk, hp] at hpage
    simp only [Option.some.injEq] at hpage
    rw [← hpage]
    exact Or.inr (le_refl _)
  · rw [hs]
    exact one _ r2 hr2 (by rw [← hs]; exact hmove)

theorem sweepCPUs_length {α : Type} (batchMap : BatchMap α) :
    ∀ (states : List usrBatchState) (i0 : Nat) (states' : List usrBatchState)
      (out : List α) (keys : List httpBatchKey),
      sweepCPUs batchMap i0 states = some (states', out, keys) →
      states'.length = states.length := by
  intro states
  induction states with
  | nil =>
    intro i0 states' out keys h
    simp only [sweepCPUs, Option.some.injEq, Prod.mk.injEq] at h
    rw [← h.1]
  | cons s rest ih =>
    intro i0 states' out keys h
    simp only [sweepCPUs] at h
    cases hr : pendingLoop batchMap i0 maxLookupsPerCPU s with
    | none => simp [hr] at h
    | some r =>
      cases hrest : sweepCPUs batchMap (i0 + 1) rest with
      | none => simp [hr, hrest] at h
      | some t =>
        obtain ⟨rest', txs, ks⟩ := t
        simp only [hr, hrest, Option.some.injEq, Prod.mk.injEq] at h
        rw [← h.1]
        simp [ih (i0 + 1) rest' txs ks hrest]

/-- A second sweep over the same page map, after a sweep in which no CPU's cursor moved
on by two pages, delivers nothing and changes no cursor. -/
theorem GetPendingTransactions_second_sweep {α : Type} (batchMap : BatchMap α)
    (m0 m : batchManager) (out0 : List α) (keys0 : List httpBatchKey)
    (h : GetPendingTransactions batchMap m0 = some (m, out0, keys0))
    (hmove : ∀ (i : Nat) (c0 c1 : usrBatchState), m0.stateByCPU[i]? = some c0 →
      m.stateByCPU[i]? = some c1 → c1.idx ≠ wrapInt64 (wrapInt64 (c0.idx + 1) + 1)) :
    ∃ keys, GetPendingTransactions batchMap m = some (m, [], keys) := by
  have hlen : m.stateByCPU.length = m0.stateByCPU.length := by
    unfold GetPendingTransactions at h
    cases hs : sweepCPUs batchMap 0 m0.stateByCPU with
    | none => simp [hs] at h
    | some t =>
      obtain ⟨states, txs, ks⟩ := t
      simp only [hs, Option.some.injEq, Prod.mk.injEq] at h
      rw [← h.1]
      exact sweepCPUs_length batchMap _ _ _ _ _ hs
  obtain ⟨keys, hkeys⟩ := sweepCPUs_idle batchMap m.stateByCPU 0 (by
    intro j c1 hc1
    rw [Nat.zero_add]
    have hj : j < m0.stateByCPU.length := by
      rcases List.getElem?_eq_some_iff.mp hc1 with ⟨hj, _⟩
      omega
    obtain ⟨r, _, _, hr, hst, _⟩ := GetPendingTransactions_get batchMap m0 m out0 keys0 h j
      _ (List.getElem?_eq_getElem hj)
    rw [hc1] at hst
    simp only [Option.some.injEq] at hst
    have hm := hmove j _ c1 (List.getElem?_eq_getElem hj) hc1
    rw [hst] at hm
    have hrest := pendingLoop_settled batchMap j _ r hr hm
    rw [← hst] at hrest
    exact ⟨_, pendingLoop_at_rest batchMap j 1 c1 hrest⟩)
  refine ⟨keys, ?_⟩
  unfold GetPendingTransactions
  rw [hkeys]
/-- C10 (nothing new). In a manager of at most `2^32` CPUs, for a CPU `i` whose cursor
`c` stands on a page number and whose page at `(i, c.idx mod PAGE_COUNT)` has another idx
or `pos ≤ c.pos`, the inner loop of `GetPendingTransactions` delivers nothing, makes that
one lookup and leaves the cursor unchanged, and so does every sweep that returns. If
that holds for the cursor of every CPU (the lookup may also fail), the sweep returns the
empty list and the manager unchanged. Consequently, when the manager is the result of a
first sweep in which no CPU's cursor moved on by two pages (each ended on a page in
progress or a stale page, not on the lookup bound), a second sweep over the same page map
returns the empty list and changes no cursor. -/
theorem GetPendingTransactions_nothing_new {α : Type} (batchMap : BatchMap α)
    (m : batchManager) (hcpus : m.numCPUs ≤ 2 ^ 32) :
    (∀ (i : Nat) (c : usrBatchState) (page : HttpBatch α),
        m.stateByCPU[i]? = some c → 0 ≤ c.idx →
        batchMap ⟨i, (c.idx % HTTPBatchPages).toNat⟩ = some page → page.Idx < 2 ^ 64 →
        ((page.Idx : Int) ≠ c.idx ∨ (page.Pos : Int) ≤ c.pos) →
        pendingLoop batchMap i maxLookupsPerCPU c
            = some ⟨c, [], [⟨i, (c.idx % HTTPBatchPages).toNat⟩]⟩ ∧
          ∀ (m' : batchManager) (out : List α) (keys : List httpBatchKey),
            GetPendingTransactions batchMap m = some (m', out, keys) →
            m'.stateByCPU[i]? = some c) ∧
    ((∀ (i : Nat) (c : usrBatchState), m.stateByCPU[i]? = some c →
        0 ≤ c.idx ∧ ∀ page, batchMap ⟨i, (c.idx % HTTPBatchPages).toNat⟩ = some page →
          page.Idx < 2 ^ 64 ∧ ((page.Idx : Int) ≠ c.idx ∨ (page.Pos : Int) ≤ c.pos)) →
      ∃ keys, GetPendingTransactions batchMap m = some (m, [], keys)) ∧
    (∀ (m0 : batchManager) (out0 : List α) (keys0 : List httpBatchKey),
      GetPendingTransactions batchMap m0 = some (m, out0, keys0) →
      (∀ (i : Nat) (c0 c1 : usrBatchState), m0.stateByCPU[i]? = some c0 →
        m.stateByCPU[i]? = some c1 → c1.idx ≠ wrapInt64 (wrapInt64 (c0.idx + 1) + 1)) →
      ∃ keys, GetPendingTransactions batchMap m = some (m, [], keys)) := by
  have hlt : ∀ (i : Nat) (c : usrBatchState), m.stateByCPU[i]? = some c → i < 2 ^ 32 := by
    intro i c hc
    rcases List.getElem?_eq_some_iff.mp hc with ⟨h, _⟩
    unfold batchManager.numCPUs at hcpus
    omega
  have hstale : ∀ (c : usrBatchState) (page : HttpBatch α), 0 ≤ c.idx → page.Idx < 2 ^ 64 →
      ((page.Idx : Int) ≠ c.idx ∨ (page.Pos : Int) ≤ c.pos) →
      (toInt64 page.Idx ≠ c.idx ∨ (page.Pos : Int) ≤ c.pos) := by
    intro c page h0 h64 h
    rcases h with h | h
    · left
      unfold toInt64
      rw [Nat.mod_eq_of_lt h64]
      split <;> omega
    · exact Or.inr h
  refine ⟨?_, ?_, fun m0 out0 keys0 h hmove =>
    GetPendingTransactions_second_sweep batchMap m0 m out0 keys0 h hmove⟩
  · intro i c page hc h0 hpage h64 h
    have hk : pendingKey i c = ⟨i, (c.idx % HTTPBatchPages).toNat⟩ :=
      pendingKey_eq (hlt i c hc) h0
    have hloop := pendingLoop_nothing_new batchMap i 1 c page (by rw [hk]; exact hpage)
      (hstale c page h0 h64 h)
    rw [hk] at hloop
    refine ⟨hloop, ?_⟩
    intro m' out keys hsweep
    obtain ⟨r, _, _, hr, hst, _⟩ :=
      GetPendingTransactions_get batchMap m m' out keys hsweep i c hc
    rw [hloop] at hr
    simp only [Option.some.injEq] at hr
    rw [hst, ← hr]
  · intro hall
    obtain ⟨keys, hkeys⟩ := sweepCPUs_idle batchMap m.stateByCPU 0 (by
      intro j c hc
      rw [Nat.zero_add]
      obtain ⟨h0, hp⟩ := hall j c hc
      have hk : pendingKey j c = ⟨j, (c.idx % HTTPBatchPages).toNat⟩ :=
        pendingKey_eq (hlt j c hc) h0
      cases hpage : batchMap (pendingKey j c) with
      | none => exact ⟨_, pendingLoop_lookup_failed batchMap j 1 c hpage⟩
      | some page =>
        obtain ⟨h64, h⟩ := hp page (by rw [← hk]; exact hpage)
        exact ⟨_, pendingLoop_nothing_new batchMap j 1 c page hpage (hstale c page h0 h64 h)⟩)
    refine ⟨keys, ?_⟩
    unfold GetPendingTransactions
    rw [hkeys]

theorem GetPendingTransactions_nothing_new_witness :
    ∃ keys, GetPendingTransactions (sampleMap [(⟨0, 0⟩, samplePage 0 3)]) ⟨[⟨0, 3⟩, ⟨0, 0⟩]⟩
      = some (⟨[⟨0, 3⟩, ⟨0, 0⟩]⟩, [], keys) :=
  (GetPendingTransactions_nothing_new (sampleMap [(⟨0, 0⟩, samplePage 0 3)])
      ⟨[⟨0, 3⟩, ⟨0, 0⟩]⟩ (by decide)).2.2 (newBatchManager 2) [0, 1, 2] [⟨0, 0⟩, ⟨1, 0⟩]
    (by decide)
    (by
      intro i c0 c1 h0 h1
      match i, h1 with
      | 0, h1 =>
        have e : c1 = ⟨0, 3⟩ := (Option.some.inj h1).symm
        have e0 : c0 = ⟨0, 0⟩ := (Option.some.inj h0).symm
        subst e e0
        decide
      | 1, h1 =>
        have e : c1 = ⟨0, 0⟩ := (Option.some.inj h1).symm
        have e0 : c0 = ⟨0, 0⟩ := (Option.some.inj h0).symm
        subst e e0
        decide
      | (k + 2), h1 => simp at h1)

/-! ## Delivery order: slices of a tagged page -/

theorem TxId.before_irrefl (t : TxId) : ¬ t.before t := by
  unfold TxId.before; omega

theorem usrBatchState.le_refl (c : usrBatchState) : c.le c := by
  unfold usrBatchState.le; omega

theorem usrBatchState.le_trans {a b c : usrBatchState} (h1 : a.le b) (h2 : b.le c) :
    a.le c := by
  unfold usrBatchState.le at *; omega

theorem atOrBefore_of_le {a b : usrBatchState} {t : TxId} (h1 : a.le b)
    (h2 : b.atOrBefore t) : a.atOrBefore t := by
  unfold usrBatchState.le usrBatchState.atOrBefore at *; omega

theorem behind_of_le {a b : usrBatchState} {t : TxId} (h1 : t.behind a) (h2 : a.le b) :
    t.behind b := by
  unfold usrBatchState.le TxId.behind at *; omega

theorem before_of_behind {a : usrBatchState} {s t : TxId} (h1 : s.behind a)
    (h2 : a.atOrBefore t) : s.before t := by
  unfold usrBatchState.atOrBefore TxId.behind TxId.before at *; omega

theorem advanced_nil {c : usrBatchState} (hc : CursorOK c) : Advanced c c [] :=
  ⟨usrBatchState.le_refl c, hc, List.Pairwise.nil, by simp⟩

theorem wellTagged_tagged {α : Type} (batchMap : BatchMap α)
    (h : ∀ k page, batchMap k = some page → page.Idx < 2 ^ 63 - 1 ∧ page.Pos ≤ HTTPBatchSize) :
    WellTagged (tagged batchMap) := by
  intro k page hp
  unfold tagged at hp
  cases hb : batchMap k with
  | none => simp [hb] at hp
  | some p =>
    simp only [hb, Option.some.injEq] at hp
    subst hp
    exact ⟨(h k p hb).1, (h k p hb).2, fun _ => rfl⟩

/-- The identities carried by a slice of a tagged page: strictly increasing, all of the
page's CPU and idx, with slots inside the slice. -/
theorem slice_ids {α : Type} (page : HttpBatch (TxId × α)) (cpu : Nat)
    (htag : ∀ j : Fin HTTPBatchSize, (page.Txs j).1 = ⟨cpu, page.Idx, j⟩) (lo n : Nat) :
    (((page.Transactions.drop lo).take n).map Prod.fst).Pairwise TxId.before ∧
      ∀ t ∈ ((page.Transactions.drop lo).take n).map Prod.fst,
        t.cpu = cpu ∧ t.idx = page.Idx ∧ lo ≤ t.slot ∧ t.slot < lo + n := by
  constructor
  · rw [List.pairwise_map]
    have hall : page.Transactions.Pairwise (fun a b => TxId.before a.1 b.1) := by
      unfold HttpBatch.Transactions
      rw [List.pairwise_ofFn]
      intro i j hij
      rw [htag i, htag j]
      right
      exact ⟨rfl, hij⟩
    exact (hall.sublist (List.drop_sublist lo _)).sublist (List.take_sublist n _)
  · intro t ht
    rw [List.mem_map] at ht
    obtain ⟨x, hx, rfl⟩ := ht
    obtain ⟨k, hk⟩ := List.mem_iff_getElem?.mp hx
    rw [List.getElem?_take] at hk
    split at hk
    · rename_i hkn
      rw [List.getElem?_drop] at hk
      by_cases hb : lo + k < HTTPBatchSize
      · rw [Transactions_getElem? page _ hb] at hk
        simp only [Option.some.injEq] at hk
        rw [← hk, htag]
        exact ⟨rfl, rfl, Nat.le_add_right _ _, by show lo + k < lo + n; omega⟩
      · have : page.Transactions[lo + k]? = none := by
          apply List.getElem?_eq_none
          rw [Transactions_length]; omega
        rw [this] at hk
        simp at hk
    · simp at hk

theorem deliveredOn_append {α : Type} (cpu : Nat) (a b : List (TxId × α)) :
    deliveredOn cpu (a ++ b) = deliveredOn cpu a ++ deliveredOn cpu b := by
  simp [deliveredOn]

theorem deliveredOn_same {α : Type} (cpu : Nat) (a : List (TxId × α))
    (h : ∀ t ∈ a.map Prod.fst, t.cpu = cpu) : deliveredOn cpu a = a.map Prod.fst := by
  unfold deliveredOn
  rw [List.filter_eq_self]
  intro t ht
  simp [h t ht]

theorem deliveredOn_other {α : Type} (cpu : Nat) (a : List (TxId × α))
    (h : ∀ t ∈ a.map Prod.fst, t.cpu ≠ cpu) : deliveredOn cpu a = [] := by
  unfold deliveredOn
  rw [List.filter_eq_nil_iff]
  intro t ht
  simp [h t ht]

/-! ## Delivery order: the poll path -/

/-- Against a well-tagged map and from a valid cursor the inner loop of the poll returns,
delivers slots of its own CPU only, and advances the cursor past what it delivers. -/
theorem pendingLoop_advanced {α : Type} (batchMap : BatchMap (TxId × α))
    (hbm : WellTagged batchMap) (i : Nat) (hi : i < 2 ^ 32) :
    ∀ (n : Nat) (c : usrBatchState), CursorOK c →
      ∃ r, pendingLoop batchMap i n c = some r ∧
        (∀ t ∈ r.txs.map Prod.fst, t.cpu = i) ∧ Advanced c r.state (r.txs.map Prod.fst) := by
  intro n
  induction n with
  | zero =>
    intro c hc
    exact ⟨⟨c, [], []⟩, rfl, by simp, advanced_nil hc⟩
  | succ n ih =>
    intro c hc
    cases hpage : batchMap (pendingKey i c) with
    | none =>
      exact ⟨_, pendingLoop_lookup_failed batchMap i n c hpage, by simp, advanced_nil hc⟩
    | some page =>
      by_cases hn : toInt64 page.Idx ≠ c.idx ∨ (page.Pos : Int) ≤ c.pos
      · exact ⟨_, pendingLoop_nothing_new batchMap i n c page hpage hn, by simp,
          advanced_nil hc⟩
      · obtain ⟨hI, hP, htag⟩ := hbm _ page hpage
        obtain ⟨hc0, hc1, hc2, hc3⟩ := hc
        have hidx : toInt64 page.Idx = c.idx := by
          by_contra h; exact hn (Or.inl h)
        have h1 : c.pos < page.Pos := by
          by_contra h; exact hn (Or.inr (by omega))
        have hidx' : (page.Idx : Int) = c.idx := by
          rw [← hidx, toInt64_of_lt (by omega)]
        have hcpu : (pendingKey i c).Cpu = i := by
          show toUint32 (i : Int) = i
          rw [toUint32_of_lt (by omega) (by omega)]
          simp
        rw [hcpu] at htag
        obtain ⟨hpw, hmem⟩ := slice_ids page i htag c.pos.toNat (page.Pos - c.pos.toNat)
        have hloop := pendingLoop_new batchMap i n c page hpage hidx hc2 h1 hP
        have hsl : ∀ t ∈ ((page.Transactions.drop c.pos.toNat).take
            (page.Pos - c.pos.toNat)).map Prod.fst,
            c.atOrBefore t ∧ (t.idx : Int) = c.idx ∧ (t.slot : Int) < page.Pos := by
          intro t ht
          obtain ⟨_, h2, h3, h4⟩ := hmem t ht
          refine ⟨?_, by rw [h2]; exact hidx', by omega⟩
          right
          exact ⟨by rw [h2]; exact hidx'.symm, by omega⟩
        by_cases hf : page.Pos = HTTPBatchSize
        · rw [if_pos hf] at hloop
          have hw : wrapInt64 (c.idx + 1) = c.idx + 1 :=
            wrapInt64_of_range (by omega) (by omega)
          rw [hw] at hloop
          have hc2ok : CursorOK ⟨c.idx + 1, 0⟩ :=
            ⟨by show 0 ≤ c.idx + 1; omega, by show c.idx + 1 ≤ 2 ^ 63 - 1; omega,
              le_refl _, by show (0 : Int) < 15; omega⟩
          obtain ⟨r2, hr2, hcpu2, hle2, hok2, hpw2, hmem2⟩ := ih ⟨c.idx + 1, 0⟩ hc2ok
          rw [hr2] at hloop
          have hstep : c.le ⟨c.idx + 1, 0⟩ := by
            left; show c.idx < c.idx + 1; omega
          refine ⟨_, hloop, ?_, usrBatchState.le_trans hstep hle2, hok2, ?_, ?_⟩
          · intro t ht
            simp only [List.map_append, List.mem_append] at ht
            rcases ht with ht | ht
            · exact (hmem t ht).1
            · exact hcpu2 t ht
          · simp only [List.map_append]
            rw [List.pairwise_append]
            refine ⟨hpw, hpw2, ?_⟩
            intro a ha b hb
            apply before_of_behind (a := ⟨c.idx + 1, 0⟩) _ (hmem2 b hb).1
            left
            show (a.idx : Int) < c.idx + 1
            have := (hsl a ha).2.1
            omega
          · intro t ht
            simp only [List.map_append, List.mem_append] at ht
            rcases ht with ht | ht
            · refine ⟨(hsl t ht).1, behind_of_le (a := ⟨c.idx + 1, 0⟩) ?_ hle2⟩
              left
              show (t.idx : Int) < c.idx + 1
              have := (hsl t ht).2.1
              omega
            · exact ⟨atOrBefore_of_le hstep (hmem2 t ht).1, (hmem2 t ht).2⟩
        · rw [if_neg hf] at hloop
          refine ⟨_, hloop, fun t ht => (hmem t ht).1, ?_, ?_, hpw, ?_⟩
          · right; exact ⟨rfl, by show c.pos ≤ (page.Pos : Int); omega⟩
          · exact ⟨hc0, hc1, by show (0 : Int) ≤ (page.Pos : Int); omega,
              by show (page.Pos : Int) < (HTTPBatchSize : Int); omega⟩
          · intro t ht
            exact ⟨(hsl t ht).1, Or.inr ⟨(hsl t ht).2.1, (hsl t ht).2.2⟩⟩

/-- Against a well-tagged map and from valid cursors the loop over the CPUs returns, and
for every CPU the slots delivered under its number are exactly what its inner loop
delivered: they advance that CPU's cursor. -/
theorem sweepCPUs_advanced {α : Type} (batchMap : BatchMap (TxId × α))
    (hbm : WellTagged batchMap) :
    ∀ (states : List usrBatchState) (i0 : Nat), i0 + states.length ≤ 2 ^ 32 →
      (∀ (j : Nat) (c : usrBatchState), states[j]? = some c → CursorOK c) →
      ∃ states' out keys, sweepCPUs batchMap i0 states = some (states', out, keys) ∧
        states'.length = states.length ∧
        (∀ (j : Nat) (c : usrBatchState), states[j]? = some c →
          ∃ c', states'[j]? = some c' ∧ Advanced c c' (deliveredOn (i0 + j) out)) ∧
        (∀ cpu, cpu < i0 ∨ i0 + states.length ≤ cpu → deliveredOn cpu out = []) := by
  intro states
  induction states with
  | nil =>
    intro i0 _ _
    exact ⟨[], [], [], rfl, rfl, by simp, fun _ _ => rfl⟩
  | cons s rest ih =>
    intro i0 hlen hok
    simp only [List.length_cons] at hlen
    obtain ⟨r, hr, hcpu, hadv⟩ :=
      pendingLoop_advanced batchMap hbm i0 (by omega) maxLookupsPerCPU s (hok 0 s (by simp))
    obtain ⟨rest', out, keys, hsweep, hl, hget, hout⟩ := ih (i0 + 1) (by omega)
      (fun j c hj => hok (j + 1) c (by simpa using hj))
    refine ⟨r.state :: rest', r.txs ++ out, r.keys ++ keys, ?_, ?_, ?_, ?_⟩
    · simp only [sweepCPUs, hr, hsweep]
    · simp [hl]
    · intro j c hj
      cases j with
      | zero =>
        simp only [List.getElem?_cons_zero, Option.some.injEq] at hj
        subst hj
        refine ⟨r.state, by simp, ?_⟩
        rw [Nat.add_zero, deliveredOn_append, hout i0 (Or.inl (by omega)),
          deliveredOn_same i0 r.txs hcpu, List.append_nil]
        exact hadv
      | succ j =>
        simp only [List.getElem?_cons_succ] at hj
        obtain ⟨c', hc', hadv'⟩ := hget j c hj
        refine ⟨c', by simpa using hc', ?_⟩
        have e : i0 + (j + 1) = i0 + 1 + j := by omega
        rw [e, deliveredOn_append,
          deliveredOn_other (i0 + 1 + j) r.txs (fun t ht => by rw [hcpu t ht]; omega),
          List.nil_append]
        exact hadv'
    · intro cpu hcpu'
      rw [deliveredOn_append, hout cpu (by simp only [List.length_cons] at hcpu'; omega),
        deliveredOn_other cpu r.txs (fun t ht => by
          rw [hcpu t ht]; simp only [List.length_cons] at hcpu'; omega)]
      rfl

theorem GetTransactionsFrom_nil_inv {α : Type} {batchMap : BatchMap α} {m m' : batchManager}
    {n : HttpNotification} {e : Option TxError}
    (h : GetTransactionsFrom batchMap m n = some (m', none, e)) : m' = m := by
  unfold GetTransactionsFrom at h
  cases hc : m.stateByCPU[n.Cpu]? with
  | none => simp [hc] at h
  | some c =>
    cases hpage : batchMap (httpBatchKey.Prepare n) with
    | none =>
      simp only [hc, hpage, Option.some.injEq, Prod.mk.injEq] at h
      exact h.1.symm
    | some page =>
      simp only [hc, hpage] at h
      by_cases hlt : toInt64 page.Idx < c.idx
      · rw [if_pos hlt] at h
        simp only [Option.some.injEq, Prod.mk.injEq] at h
        exact h.1.symm
      · rw [if_neg hlt] at h
        by_cases hd : page.IsDirty n = true
        · rw [if_pos hd] at h
          simp only [Option.some.injEq, Prod.mk.injEq] at h
          exact h.1.symm
        · rw [if_neg hd] at h
          cases hs : sliceFrom page.Transactions c.pos with
          | none => simp [hs] at h
          | some out => simp [hs] at h

/-- The notification path against a well-tagged map: a call that returns transactions
advances the cursor of the notified CPU past the slots it delivers, all of that CPU. -/
theorem notify_advanced {α : Type} (batchMap : BatchMap (TxId × α))
    (hbm : WellTagged batchMap) (m m' : batchManager) (n : HttpNotification)
    (txs : List (TxId × α)) (e : Option TxError)
    (h : GetTransactionsFrom batchMap m n = some (m', some txs, e)) :
    ∃ c c', m.stateByCPU[n.Cpu]? = some c ∧
      m'.stateByCPU = m.stateByCPU.set n.Cpu c' ∧
      (∀ t ∈ txs.map Prod.fst, t.cpu = n.Cpu) ∧
      (CursorOK c → Advanced c c' (txs.map Prod.fst)) := by
  obtain ⟨c, page, hc, hpage, hge, hidx, h0, h1, hm, htxs, _⟩ :=
    GetTransactionsFrom_some_inv h
  obtain ⟨hI, _, htag⟩ := hbm _ page hpage
  have hcpu : (httpBatchKey.Prepare n).Cpu = n.Cpu := rfl
  rw [hcpu] at htag
  have hw : wrapInt64 (toInt64 n.Idx + 1) = (n.Idx : Int) + 1 := by
    rw [toInt64_of_lt (by omega)]
    exact wrapInt64_of_range (by omega) (by omega)
  have hge' : c.idx ≤ (n.Idx : Int) := by
    rw [hidx, toInt64_of_lt (by omega)] at hge
    omega
  have hdrop : txs = (page.Transactions.drop c.pos.toNat).take HTTPBatchSize := by
    rw [htxs, List.take_of_length_le (by simp [Transactions_length])]
  obtain ⟨hpw, hmem⟩ := slice_ids page n.Cpu htag c.pos.toNat HTTPBatchSize
  rw [← hdrop] at hpw hmem
  refine ⟨c, ⟨(n.Idx : Int) + 1, 0⟩, hc, by rw [hm, hw], fun t ht => (hmem t ht).1, ?_⟩
  intro hok
  refine ⟨?_, ?_, hpw, ?_⟩
  · left; show c.idx < (n.Idx : Int) + 1; omega
  · exact ⟨by show (0 : Int) ≤ (n.Idx : Int) + 1; omega,
      by show (n.Idx : Int) + 1 ≤ 2 ^ 63 - 1; omega, le_refl _,
      by show (0 : Int) < 15; omega⟩
  · intro t ht
    obtain ⟨_, h2, h3, _⟩ := hmem t ht
    constructor
    · unfold usrBatchState.atOrBefore
      rw [h2, hidx]
      omega
    · left
      show (t.idx : Int) < (n.Idx : Int) + 1
      rw [h2, hidx]
      omega

/-! ## Delivery order: runs of calls -/

theorem GetTransactionsFrom_returns {α : Type} (batchMap : BatchMap α) (m : batchManager)
    (n : HttpNotification) (c : usrBatchState) (hc : m.stateByCPU[n.Cpu]? = some c)
    (h0 : 0 ≤ c.pos) (h1 : c.pos ≤ HTTPBatchSize) :
    ∃ r, GetTransactionsFrom batchMap m n = some r := by
  cases hpage : batchMap (httpBatchKey.Prepare n) with
  | none =>
    exact ⟨(m, none, some (TxError.retrieving n.Cpu)), by simp [GetTransactionsFrom, hc, hpage]⟩
  | some page =>
    by_cases hlt : toInt64 page.Idx < c.idx
    · exact ⟨(m, none, none), by simp only [GetTransactionsFrom, hc, hpage]; rw [if_pos hlt]⟩
    · by_cases hidx : page.Idx = n.Idx
      · exact ⟨_, GetTransactionsFrom_ok batchMap m n c page hc hpage hlt hidx h0 h1⟩
      · exact ⟨(m, none, some TxError.ErrLostBatch), by
          simp only [GetTransactionsFrom, hc, hpage]
          rw [if_neg hlt, if_pos (by simp [HttpBatch.IsDirty, hidx])]⟩

/-- One call against a page map within the bounds, from valid cursors: every CPU's cursor
is advanced past the slots the call delivers under that CPU's number, no slot is delivered
under any other number, and the call returns unless it is a notification for a CPU the
manager does not have. -/
theorem exec_advanced {α : Type} (s : Step α) (m : batchManager)
    (hb : ∀ k page, s.batchMap k = some page → page.Idx < 2 ^ 63 - 1 ∧ page.Pos ≤ HTTPBatchSize)
    (hlen : m.stateByCPU.length ≤ 2 ^ 32)
    (hok : ∀ (j : Nat) (c : usrBatchState), m.stateByCPU[j]? = some c → CursorOK c) :
    (∀ m' out, s.exec m = some (m', out) →
      m'.stateByCPU.length = m.stateByCPU.length ∧
      (∀ (j : Nat) (c : usrBatchState), m.stateByCPU[j]? = some c →
        ∃ c', m'.stateByCPU[j]? = some c' ∧ Advanced c c' (deliveredOn j out)) ∧
      (∀ cpu, m.stateByCPU.length ≤ cpu → deliveredOn cpu out = [])) ∧
    ((∀ n, s.call = Call.notify n → n.Cpu < m.stateByCPU.length) →
      ∃ r, s.exec m = some r) := by
  have hbm := wellTagged_tagged s.batchMap hb
  cases hcall : s.call with
  | notify n =>
    constructor
    · intro m' out hexec
      simp only [Step.exec, hcall] at hexec
      cases hg : GetTransactionsFrom (tagged s.batchMap) m n with
      | none => simp [hg] at hexec
      | some r =>
        obtain ⟨m1, txs, e⟩ := r
        simp only [hg, Option.some.injEq, Prod.mk.injEq] at hexec
        obtain ⟨hm1, hout⟩ := hexec
        subst hm1
        cases txs with
        | none =>
          have hm := GetTransactionsFrom_nil_inv hg
          subst hm
          simp only [Option.getD_none] at hout
          subst hout
          exact ⟨rfl, fun j c hj => ⟨c, hj, advanced_nil (hok j c hj)⟩, fun _ _ => rfl⟩
        | some l =>
          simp only [Option.getD_some] at hout
          subst hout
          obtain ⟨c, c', hc, hset, hcpu, hadv⟩ :=
            notify_advanced (tagged s.batchMap) hbm m m1 n l e hg
          have hlt : n.Cpu < m.stateByCPU.length := by
            rcases List.getElem?_eq_some_iff.mp hc with ⟨h, _⟩
            exact h
          refine ⟨by rw [hset, List.length_set], ?_, ?_⟩
          · intro j cj hj
            by_cases hjn : j = n.Cpu
            · subst hjn
              rw [hc] at hj
              simp only [Option.some.injEq] at hj
              subst hj
              refine ⟨c', by rw [hset]; exact List.getElem?_set_self hlt, ?_⟩
              rw [deliveredOn_same n.Cpu l hcpu]
              exact hadv (hok _ c hc)
            · refine ⟨cj, by rw [hset, List.getElem?_set_ne (Ne.symm hjn)]; exact hj, ?_⟩
              rw [deliveredOn_other j l (fun t ht => by rw [hcpu t ht]; exact Ne.symm hjn)]
              exact advanced_nil (hok j cj hj)
          · intro cpu hcpu'
            exact deliveredOn_other cpu l (fun t ht => by rw [hcpu t ht]; omega)
    · intro hn
      have hlt := hn n rfl
      obtain ⟨c, hc⟩ : ∃ c, m.stateByCPU[n.Cpu]? = some c :=
        ⟨m.stateByCPU[n.Cpu], List.getElem?_eq_getElem hlt⟩
      obtain ⟨_, _, h0, h1⟩ := hok _ c hc
      obtain ⟨r, hr⟩ := GetTransactionsFrom_returns (tagged s.batchMap) m n c hc h0 (by omega)
      obtain ⟨m1, txs, e⟩ := r
      exact ⟨(m1, txs.getD []), by simp only [Step.exec, hcall, hr]⟩
  | poll =>
    obtain ⟨states', out, keys, hsweep, hl, hget, hout⟩ :=
      sweepCPUs_advanced (tagged s.batchMap) hbm m.stateByCPU 0 (by omega) hok
    have hexec : s.exec m = some (⟨states'⟩, out) := by
      simp only [Step.exec, hcall, GetPendingTransactions, hsweep]
    constructor
    · intro m' out' h
      rw [hexec] at h
      simp only [Option.some.injEq, Prod.mk.injEq] at h
      obtain ⟨hm, ho⟩ := h
      subst hm ho
      refine ⟨hl, ?_, fun cpu hcpu => hout cpu (Or.inr (by omega))⟩
      intro j c hj
      obtain ⟨c', hc', hadv⟩ := hget j c hj
      rw [Nat.zero_add] at hadv
      exact ⟨c', hc', hadv⟩
    · intro _
      exact ⟨_, hexec⟩

/-- Along a run from valid cursors the slots delivered under each CPU's number are
strictly increasing and not before that CPU's cursor at the start of the run. -/
theorem drain_ordered {α : Type} :
    ∀ (steps : List (Step α)) (m : batchManager),
      (∀ s ∈ steps, ∀ k page, s.batchMap k = some page →
        page.Idx < 2 ^ 63 - 1 ∧ page.Pos ≤ HTTPBatchSize) →
      m.stateByCPU.length ≤ 2 ^ 32 →
      (∀ (j : Nat) (c : usrBatchState), m.stateByCPU[j]? = some c → CursorOK c) →
      (∀ cpu, (deliveredOn cpu (drain m steps).2).Pairwise TxId.before ∧
        (∀ c, m.stateByCPU[cpu]? = some c →
          ∀ t ∈ deliveredOn cpu (drain m steps).2, c.atOrBefore t) ∧
        (m.stateByCPU.length ≤ cpu → deliveredOn cpu (drain m steps).2 = [])) ∧
      ((∀ s ∈ steps, ∀ n, s.call = Call.notify n → n.Cpu < m.stateByCPU.length) →
        (drain m steps).1 ≠ none) := by
  intro steps
  induction steps with
  | nil =>
    intro m _ _ _
    refine ⟨fun cpu => ⟨?_, ?_, ?_⟩, ?_⟩ <;> simp [drain, deliveredOn]
  | cons s rest ih =>
    intro m hb hlen hok
    obtain ⟨hstep, hret⟩ := exec_advanced s m (hb s (List.mem_cons_self _ _)) hlen hok
    cases hexec : s.exec m with
    | none =>
      constructor
      · intro cpu
        refine ⟨?_, ?_, ?_⟩ <;> simp [drain, hexec, deliveredOn]
      · intro hn
        obtain ⟨r, hr⟩ := hret (fun n hcall => hn s (List.mem_cons_self _ _) n hcall)
        rw [hexec] at hr
        simp at hr
    | some r =>
      obtain ⟨m', out⟩ := r
      obtain ⟨hl, hadv, hnone⟩ := hstep m' out hexec
      have hok' : ∀ (j : Nat) (c : usrBatchState), m'.stateByCPU[j]? = some c → CursorOK c := by
        intro j c' hj
        have hjlt : j < m.stateByCPU.length := by
          rcases List.getElem?_eq_some_iff.mp hj with ⟨h, _⟩
          omega
        obtain ⟨c'', hc'', hA⟩ := hadv j _ (List.getElem?_eq_getElem hjlt)
        rw [hj] at hc''
        simp only [Option.some.injEq] at hc''
        rw [hc'']
        exact hA.2.1
      obtain ⟨hrest, hrun⟩ := ih m' (fun s' hs' => hb s' (List.mem_cons_of_mem _ hs'))
        (by omega) hok'
      have hd : (drain m (s :: rest)).2 = out ++ (drain m' rest).2 := by
        simp only [drain, hexec]
      have h1 : (drain m (s :: rest)).1 = (drain m' rest).1 := by
        simp only [drain, hexec]
      constructor
      · intro cpu
        obtain ⟨hpw, hge, hemp⟩ := hrest cpu
        rw [hd, deliveredOn_append]
        cases hc : m.stateByCPU[cpu]? with
        | none =>
          have hcpu : m.stateByCPU.length ≤ cpu := List.getElem?_eq_none_iff.mp hc
          rw [hnone cpu hcpu, hemp (by omega)]
          simp
        | some c =>
          obtain ⟨c', hc', hle, _, hpwo, hmem⟩ := hadv cpu c hc
          refine ⟨?_, ?_, ?_⟩
          · rw [List.pairwise_append]
            exact ⟨hpwo, hpw, fun a ha b hb' =>
              before_of_behind (hmem a ha).2 (hge c' hc' b hb')⟩
          · intro c0 hc0 t ht
            simp only [Option.some.injEq] at hc0
            subst hc0
            rw [List.mem_append] at ht
            rcases ht with ht | ht
            · exact (hmem t ht).1
            · exact atOrBefore_of_le hle (hge c' hc' t ht)
          · intro hcpu
            have := List.getElem?_eq_none_iff.mpr hcpu
            rw [hc] at this
            simp at this
      · intro hn
        rw [h1]
        exact hrun (fun s' hs' n hcall => by
          rw [hl]; exact hn s' (List.mem_cons_of_mem _ hs') n hcall)

theorem nodup_of_pairwise_per_cpu :
    ∀ (l : List TxId),
      (∀ cpu, (l.filter (fun t => t.cpu == cpu)).Pairwise TxId.before) → l.Nodup := by
  intro l
  induction l with
  | nil => intro _; exact List.nodup_nil
  | cons x xs ih =>
    intro h
    rw [List.nodup_cons]
    constructor
    · intro hx
      have hp := h x.cpu
      rw [List.filter_cons, if_pos (by simp), List.pairwise_cons] at hp
      exact TxId.before_irrefl x (hp.1 x (List.mem_filter.mpr ⟨hx, by simp⟩))
    · apply ih
      intro cpu
      have hp := h cpu
      rw [List.filter_cons] at hp
      split at hp
      · exact (List.pairwise_cons.mp hp).2
      · exact hp

theorem sampleMap_bound (pages : List (httpBatchKey × HttpBatch Nat))
    (h : ∀ p ∈ pages, p.2.Idx < 2 ^ 63 - 1 ∧ p.2.Pos ≤ HTTPBatchSize) :
    ∀ k page, sampleMap pages k = some page →
      page.Idx < 2 ^ 63 - 1 ∧ page.Pos ≤ HTTPBatchSize := by
  intro k page hp
  unfold sampleMap at hp
  cases hf : pages.find? (fun p => p.1 == k) with
  | none => simp [hf] at hp
  | some p =>
    simp only [hf, Option.some.injEq] at hp
    rw [← hp]
    exact h p (List.mem_of_find?_eq_some hf)

/-- C1 (no transaction is delivered twice). Start from the initial cursors of a manager
of at most `2^32` CPUs and make any sequence of `GetTransactionsFrom` and
`GetPendingTransactions` calls, each against its own arbitrary page map whose pages have
`Idx < 2^63 - 1` and `Pos ≤ PAGE_SIZE`. Then for every CPU the transactions delivered,
identified by (idx of the page read, position in that page), are strictly increasing in
lexicographic order, in delivery order; no (cpu, page idx, position) is delivered twice;
and no call panics as long as every notification names a CPU of the manager. -/
theorem drain_strictly_increasing {α : Type} (numCPUs : Nat) (steps : List (Step α))
    (hcpus : numCPUs ≤ 2 ^ 32)
    (hb : ∀ s ∈ steps, ∀ k page, s.batchMap k = some page →
      page.Idx < 2 ^ 63 - 1 ∧ page.Pos ≤ HTTPBatchSize) :
    (∀ cpu, (deliveredOn cpu (drain (newBatchManager numCPUs) steps).2).Pairwise
        TxId.before) ∧
      ((drain (newBatchManager numCPUs) steps).2.map Prod.fst).Nodup ∧
      ((∀ s ∈ steps, ∀ n, s.call = Call.notify n → n.Cpu < numCPUs) →
        (drain (newBatchManager numCPUs) steps).1 ≠ none) := by
  have hlen : (newBatchManager numCPUs).stateByCPU.length = numCPUs := by
    simp [newBatchManager]
  have hok : ∀ (j : Nat) (c : usrBatchState),
      (newBatchManager numCPUs).stateByCPU[j]? = some c → CursorOK c := by
    intro j c hj
    simp only [newBatchManager, List.getElem?_replicate] at hj
    split at hj
    · simp only [Option.some.injEq] at hj
      rw [← hj]
      exact ⟨le_refl _, by show (0 : Int) ≤ 2 ^ 63 - 1; omega, le_refl _,
        by show (0 : Int) < 15; omega⟩
    · simp at hj
  obtain ⟨h1, h2⟩ := drain_ordered steps (newBatchManager numCPUs) hb (by omega) hok
  refine ⟨fun cpu => (h1 cpu).1, ?_, ?_⟩
  · apply nodup_of_pairwise_per_cpu
    intro cpu
    exact (h1 cpu).1
  · intro hn
    exact h2 (fun s hs n hcall => by rw [hlen]; exact hn s hs n hcall)

theorem drain_strictly_increasing_witness :
    (∀ cpu, (deliveredOn cpu (drain (newBatchManager 1)
        [⟨sampleMap [(⟨0, 0⟩, samplePage 0 7)], Call.poll⟩,
         ⟨sampleMap [(⟨0, 0⟩, samplePage 0 15)], Call.notify ⟨0, 0⟩⟩]).2).Pairwise
        TxId.before) ∧
      ((drain (newBatchManager 1)
        [⟨sampleMap [(⟨0, 0⟩, samplePage 0 7)], Call.poll⟩,
         ⟨sampleMap [(⟨0, 0⟩, samplePage 0 15)], Call.notify ⟨0, 0⟩⟩]).2.map
          Prod.fst).Nodup ∧
      ((∀ s ∈ [(⟨sampleMap [(⟨0, 0⟩, samplePage 0 7)], Call.poll⟩ : Step Nat),
          ⟨sampleMap [(⟨0, 0⟩, samplePage 0 15)], Call.notify ⟨0, 0⟩⟩],
          ∀ n, s.call = Call.notify n → n.Cpu < 1) →
        (drain (newBatchManager 1)
          [⟨sampleMap [(⟨0, 0⟩, samplePage 0 7)], Call.poll⟩,
           ⟨sampleMap [(⟨0, 0⟩, samplePage 0 15)], Call.notify ⟨0, 0⟩⟩]).1 ≠ none) :=
  drain_strictly_increasing 1
    [⟨sampleMap [(⟨0, 0⟩, samplePage 0 7)], Call.poll⟩,
     ⟨sampleMap [(⟨0, 0⟩, samplePage 0 15)], Call.notify ⟨0, 0⟩⟩]
    (by decide)
    (by
      intro s hs
      simp only [List.mem_cons, List.mem_singleton, List.not_mem_nil, or_false] at hs
      rcases hs with rfl | rfl
      · exact sampleMap_bound _ (by decide)
      · exact sampleMap_bound _ (by decide))

/-! ## Telemetry -/

theorem Metric.add_zero (m : Metric) : m.Add 0 = m := by
  cases m; simp [Metric.Add]

theorem Metric.add_add (m : Metric) (a b : Int) : (m.Add a).Add b = m.Add (a + b) := by
  cases m; simp [Metric.Add, add_assoc]

theorem classCount_nil {α : Type} (statusClass : α → Int) (c : Int) :
    classCount statusClass c [] = 0 := rfl

theorem classCount_cons {α : Type} (statusClass : α → Int) (c : Int) (tx : α)
    (txs : List α) :
    classCount statusClass c (tx :: txs)
      = classCount statusClass c txs + if statusClass tx = c then 1 else 0 := by
  unfold classCount
  rw [List.countP_cons]
  simp

/-- The loop of `aggregate`: every hit counter grows by the number of transactions of
its status class, and nothing else changes. -/
theorem foldl_countHit {α : Type} (statusClass : α → Int) :
    ∀ (txs : List α) (t : telemetry),
      txs.foldl (fun acc tx => acc.countHit (statusClass tx)) t =
        { t with
          hits1XX := t.hits1XX.Add (classCount statusClass 100 txs)
          hits2XX := t.hits2XX.Add (classCount statusClass 200 txs)
          hits3XX := t.hits3XX.Add (classCount statusClass 300 txs)
          hits4XX := t.hits4XX.Add (classCount statusClass 400 txs)
          hits5XX := t.hits5XX.Add (classCount statusClass 500 txs) } := by
  intro txs
  induction txs with
  | nil =>
    intro t
    simp [classCount_nil, Metric.add_zero]
  | cons tx txs ih =>
    intro t
    rw [List.foldl_cons, ih]
    simp only [classCount_cons]
    unfold telemetry.countHit
    by_cases h1 : statusClass tx = 100
    · simp [h1, Metric.add_add, add_comm]
    · by_cases h2 : statusClass tx = 200
      · simp [h2, Metric.add_add, add_comm]
      · by_cases h3 : statusClass tx = 300
        · simp [h3, Metric.add_add, add_comm]
        · by_cases h4 : statusClass tx = 400
          · simp [h4, Metric.add_add, add_comm]
          · by_cases h5 : statusClass tx = 500
            · simp [h5, Metric.add_add, add_comm]
            · simp [h1, h2, h3, h4, h5]

/-! ## Slot addressing -/

/-- Go's `%` with a negative dividend: the remainder takes the sign of the dividend. -/
theorem tmod_neg_natCast (k n : Nat) :
    Int.tmod (-(k : Int)) (n : Int) = -((k % n : Nat) : Int) := by
  cases k with
  | zero => simp
  | succ m =>
    have e : (-((m + 1 : Nat) : Int)) = Int.negSucc m := rfl
    rw [e]
    rfl

/-- For a notified idx below `2^63` the key prepared is `(cpu, idx mod PAGE_COUNT)`. -/
theorem Prepare_eq (n : HttpNotification) (h : n.Idx < 2 ^ 63) :
    httpBatchKey.Prepare n = ⟨n.Cpu, n.Idx % HTTPBatchPages⟩ := by
  unfold httpBatchKey.Prepare
  have h1 : Int.tmod (toInt64 n.Idx) HTTPBatchPages = ((n.Idx % 15 : Nat) : Int) := by
    rw [toInt64_of_lt h, Int.tmod_eq_emod (by omega) (by decide)]
    simp
  have h2 : n.Idx % 15 < 15 := Nat.mod_lt _ (by decide)
  rw [h1, toUint32_of_lt (by omega) (by omega), Int.toNat_ofNat]

/-- For a notified idx from `2^63` on the slot prepared is never `idx mod PAGE_COUNT`. -/
theorem Prepare_ne (n : HttpNotification) (h : 2 ^ 63 ≤ n.Idx) (h64 : n.Idx < 2 ^ 64) :
    (httpBatchKey.Prepare n).Num ≠ n.Idx % HTTPBatchPages := by
  unfold httpBatchKey.Prepare
  simp only
  have hi : toInt64 n.Idx = (n.Idx : Int) - 2 ^ 64 := by
    unfold toInt64
    rw [Nat.mod_eq_of_lt h64, if_neg (by omega)]
  have hneg : toInt64 n.Idx = -((2 ^ 64 - n.Idx : Nat) : Int) := by
    rw [hi]; omega
  rw [hneg, tmod_neg_natCast]
  unfold toUint32
  have hm : n.Idx % HTTPBatchPages = n.Idx % 15 := rfl
  have hm2 : (2 ^ 64 - n.Idx) % HTTPBatchPages = (2 ^ 64 - n.Idx) % 15 := rfl
  rw [hm, hm2]
  omega

/-- C20, counterexample. For the notification of idx `2^64 - 1` on CPU 0, `Prepare` yields
slot `4294967295`, which is neither `(2^64 - 1) mod 15 = 0` nor below `PAGE_COUNT`:
`int(n.Idx)` is `-1`, Go's `%` keeps the sign and `uint32(-1)` wraps. -/
theorem Prepare_negative_idx :
    httpBatchKey.Prepare ⟨0, 18446744073709551615⟩ = ⟨0, 4294967295⟩ ∧
      18446744073709551615 % HTTPBatchPages = 0 ∧
      ¬ (httpBatchKey.Prepare ⟨0, 18446744073709551615⟩).Num < HTTPBatchPages := by
  decide

/-- C20 (slot addressing), amended by the bound `n.Idx < 2^63`: for such a notification
`Prepare` yields the key `(n.Cpu, n.Idx mod PAGE_COUNT)`, whose slot is below
`PAGE_COUNT = 15` (and for every `uint64` idx from `2^63` on it does not); likewise, for
a CPU number that fits `uint32` and a cursor `c` on a page number, every lookup the poll
makes at `c` is at the key `(i, c.idx mod PAGE_COUNT)`, whose slot is below 15. -/
theorem slot_addressing (n : HttpNotification) (hn : n.Idx < 2 ^ 63) (i : Nat)
    (c : usrBatchState) (hi : i < 2 ^ 32) (hc : 0 ≤ c.idx) :
    (httpBatchKey.Prepare n = ⟨n.Cpu, n.Idx % HTTPBatchPages⟩ ∧
      (httpBatchKey.Prepare n).Num < HTTPBatchPages) ∧
    (∀ n' : HttpNotification, 2 ^ 63 ≤ n'.Idx → n'.Idx < 2 ^ 64 →
      (httpBatchKey.Prepare n').Num ≠ n'.Idx % HTTPBatchPages) ∧
    (pendingKey i c = ⟨i, (c.idx % HTTPBatchPages).toNat⟩ ∧
      (pendingKey i c).Num < HTTPBatchPages) ∧
    (∀ {α : Type} (batchMap : BatchMap α) (k : Nat) (r : cpuSweep α),
      pendingLoop batchMap i (k + 1) c = some r →
      r.keys.head? = some ⟨i, (c.idx % HTTPBatchPages).toNat⟩) := by
  have hk := pendingKey_eq hi hc
  refine ⟨⟨Prepare_eq n hn, ?_⟩, fun n' h h64 => Prepare_ne n' h h64, ⟨hk, ?_⟩, ?_⟩
  · rw [Prepare_eq n hn]
    exact Nat.mod_lt _ (by decide)
  · rw [hk]
    have h15 : ((HTTPBatchPages : Nat) : Int) = 15 := rfl
    show (c.idx % (HTTPBatchPages : Int)).toNat < 15
    rw [h15]
    omega
  · intro α batchMap k r h
    rw [← hk]
    simp only [pendingLoop] at h
    split at h
    · simp only [Option.some.injEq] at h
      rw [← h]; rfl
    · split at h
      · simp only [Option.some.injEq] at h
        rw [← h]; rfl
      · split at h
        · simp at h
        · split at h
          · split at h
            · simp at h
            · simp only [Option.some.injEq] at h
              rw [← h]; rfl
          · simp only [Option.some.injEq] at h
            rw [← h]; rfl

theorem slot_addressing_witness :
    httpBatchKey.Prepare ⟨2, 18⟩ = ⟨2, 18 % HTTPBatchPages⟩ ∧
      pendingKey 1 ⟨31, 4⟩ = ⟨1, ((31 : Int) % HTTPBatchPages).toNat⟩ :=
  ⟨(slot_addressing ⟨2, 18⟩ (by decide) 1 ⟨31, 4⟩ (by decide) (by decide)).1.1,
   (slot_addressing ⟨2, 18⟩ (by decide) 1 ⟨31, 4⟩ (by decide) (by decide)).2.2.1.1⟩

/-- The five hit counters together count the transactions of a counted status class. -/
theorem classCount_sum {α : Type} (statusClass : α → Int) :
    ∀ txs : List α,
      classCount statusClass 100 txs + classCount statusClass 200 txs
        + classCount statusClass 300 txs + classCount statusClass 400 txs
        + classCount statusClass 500 txs
        = txs.countP (fun tx => decide (IsHitClass (statusClass tx))) := by
  intro txs
  induction txs with
  | nil => rfl
  | cons tx txs ih =>
    simp only [classCount_cons, List.countP_cons, decide_eq_true_eq]
    rw [← ih]
    unfold IsHitClass
    by_cases h1 : statusClass tx = 100
    · simp [h1]; omega
    · by_cases h2 : statusClass tx = 200
      · simp [h2]; omega
      · by_cases h3 : statusClass tx = 300
        · simp [h3]; omega
        · by_cases h4 : statusClass tx = 400
          · simp [h4]; omega
          · by_cases h5 : statusClass tx = 500
            · simp [h5]; omega
            · simp [h1, h2, h3, h4, h5]

/-- What `aggregate` does to the record: every hit counter grows by the number of
transactions of its class, `misses` grows by `len(txs)` if the error is `ErrLostBatch`,
and nothing else changes. -/
theorem aggregate_eq {α : Type} (statusClass : α → Int) (t : telemetry) (txs : List α)
    (err : Option TxError) :
    t.aggregate statusClass txs err =
      { t with
        hits1XX := t.hits1XX.Add (classCount statusClass 100 txs)
        hits2XX := t.hits2XX.Add (classCount statusClass 200 txs)
        hits3XX := t.hits3XX.Add (classCount statusClass 300 txs)
        hits4XX := t.hits4XX.Add (classCount statusClass 400 txs)
        hits5XX := t.hits5XX.Add (classCount statusClass 500 txs)
        misses :=
          if err = some TxError.ErrLostBatch then t.misses.Add (txs.length : Int)
          else t.misses } := by
  unfold telemetry.aggregate
  simp only [foldl_countHit]
  by_cases h : err = some TxError.ErrLostBatch
  · simp [h]
  · simp [h]

theorem totalHits_aggregate {α : Type} (statusClass : α → Int) (t : telemetry)
    (txs : List α) (err : Option TxError) :
    (t.aggregate statusClass txs err).totalHits
      = t.totalHits + (txs.countP (fun tx => decide (IsHitClass (statusClass tx))) : Nat) := by
  rw [aggregate_eq, ← classCount_sum]
  simp only [telemetry.totalHits, Metric.Add]
  push_cast
  ring

theorem totalHits_aggregateAll {α : Type} (statusClass : α → Int) :
    ∀ (calls : List (List α × Option TxError)) (t : telemetry),
      ∃ hits : Nat, (t.aggregateAll statusClass calls).totalHits = t.totalHits + hits ∧
        hits ≤ ingested calls ∧
        (hits = ingested calls ↔
          ∀ call ∈ calls, ∀ tx ∈ call.1, IsHitClass (statusClass tx)) := by
  intro calls
  induction calls with
  | nil =>
    intro t
    exact ⟨0, by simp [telemetry.aggregateAll], by simp [ingested], by simp [ingested]⟩
  | cons call calls ih =>
    intro t
    obtain ⟨hits, h1, h2, h3⟩ := ih (t.aggregate statusClass call.1 call.2)
    have hle : call.1.countP (fun tx => decide (IsHitClass (statusClass tx))) ≤ call.1.length :=
      List.countP_le_length _
    have heq : call.1.countP (fun tx => decide (IsHitClass (statusClass tx))) = call.1.length ↔
        ∀ tx ∈ call.1, IsHitClass (statusClass tx) := by
      rw [List.countP_eq_length]
      simp
    have hing : ingested (call :: calls) = call.1.length + ingested calls := by
      simp [ingested]
    refine ⟨call.1.countP (fun tx => decide (IsHitClass (statusClass tx))) + hits, ?_, ?_, ?_⟩
    · have : (t.aggregateAll statusClass (call :: calls))
          = (t.aggregate statusClass call.1 call.2).aggregateAll statusClass calls := rfl
      rw [this, h1, totalHits_aggregate]
      push_cast
      ring
    · rw [hing]; omega
    · rw [hing]
      constructor
      · intro h
        have e1 : call.1.countP (fun tx => decide (IsHitClass (statusClass tx))) = call.1.length := by
          omega
        have e2 : hits = ingested calls := by omega
        intro c hc
        rw [List.mem_cons] at hc
        rcases hc with rfl | hc
        · exact heq.mp e1
        · exact h3.mp e2 c hc
      · intro h
        have e1 := heq.mpr (h call (List.mem_cons_self _ _))
        have e2 := h3.mpr (fun c hc => h c (List.mem_cons_of_mem _ hc))
        omega

theorem classCount_eq_zero {α : Type} (statusClass : α → Int) (c : Int) (txs : List α)
    (h : ∀ tx ∈ txs, statusClass tx ≠ c) : classCount statusClass c txs = 0 := by
  unfold classCount
  rw [List.countP_eq_zero]
  intro tx htx
  simpa using h tx htx

/-- The status class of a kernel record with a status code from 100 to 599 is counted. -/
theorem isHitClass_of_valid (tx : EbpfHttpTx)
    (h : 100 ≤ tx.Response_status_code ∧ tx.Response_status_code ≤ 599) :
    IsHitClass tx.StatusClass := by
  unfold IsHitClass EbpfHttpTx.StatusClass
  omega

/-- A notification passed through `GetTransactionsFrom` and then `aggregate` never
changes `misses`: with `ErrLostBatch` the slice is nil and `len(txs)` is 0, and without
it `misses` is not touched. -/
theorem notification_keeps_misses {α : Type} (batchMap : BatchMap α) (m m' : batchManager)
    (n : HttpNotification) (txs : Option (List α)) (err : Option TxError)
    (h : GetTransactionsFrom batchMap m n = some (m', txs, err))
    (statusClass : α → Int) (t : telemetry) :
    (t.aggregate statusClass (txs.getD []) err).misses = t.misses := by
  rw [aggregate_eq]
  cases txs with
  | none => simp [Metric.add_zero]
  | some l =>
    obtain ⟨_, _, _, _, _, _, _, _, _, _, he⟩ := GetTransactionsFrom_some_inv h
    simp [he]

/-- C12 (lost-batch accounting), evaluated on the code. The cursor of CPU 0 stands at
`{3,0}` and the notification of page 3 finds slot 3 recycled for page 18:
`GetTransactionsFrom` returns `(nil, ErrLostBatch)`, and `aggregate` applied to that
result adds `len(nil) = 0` to `misses`, which stays at 0 instead of growing by 15. -/
theorem lost_batch_adds_no_miss :
    GetTransactionsFrom (sampleMap [(⟨0, 3⟩, samplePage 18 15)]) ⟨[⟨3, 0⟩]⟩ ⟨0, 3⟩
        = some (⟨[⟨3, 0⟩]⟩, none, some TxError.ErrLostBatch) ∧
      ((newTelemetry 0).aggregate (fun _ : Nat => (200 : Int))
          ((none : Option (List Nat)).getD []) (some TxError.ErrLostBatch)).misses.value
        = 0 := by
  decide

/-- C13, counterexample. From cursor `{0,0}` the notification of page 5 is served from
slot 5: the 15 records are returned without error, and after `aggregate` the counter
`misses` is still 0, not `(5 - 0) * 15 - 0 = 75`. -/
theorem page_jump_adds_no_miss :
    GetTransactionsFrom (sampleMap [(⟨0, 5⟩, samplePage 5 15)]) (newBatchManager 1) ⟨0, 5⟩
        = some (⟨[⟨6, 0⟩]⟩, some (samplePage 5 15).Transactions, none) ∧
      ((newTelemetry 0).aggregate (fun _ : Nat => (200 : Int))
          (samplePage 5 15).Transactions none).misses.value = 0 ∧
      ((5 : Int) - 0) * HTTPBatchSize - 0 = 75 := by
  decide

/-- C13 (skipped-page accounting), amended: when a notification is served from a page
with `page.idx = n.idx > c.idx` (page idx a Go `int`, `0 ≤ c.pos ≤ PAGE_SIZE`), the call
returns transactions and no error, and `aggregate` on that result leaves `misses` as it
was: the skipped transactions, `(page.idx - c.idx) * PAGE_SIZE - c.pos` of them (a
positive number for `c.pos < PAGE_SIZE`), are not counted. -/
theorem skipped_pages_not_counted {α : Type} (batchMap : BatchMap α) (m : batchManager)
    (n : HttpNotification) (c : usrBatchState) (page : HttpBatch α)
    (hc : m.stateByCPU[n.Cpu]? = some c)
    (hpage : batchMap (httpBatchKey.Prepare n) = some page)
    (hidx : page.Idx = n.Idx) (hgt : c.idx < (page.Idx : Int)) (h63 : page.Idx < 2 ^ 63)
    (h0 : 0 ≤ c.pos) (h1 : c.pos ≤ HTTPBatchSize) :
    ∃ m' txs, GetTransactionsFrom batchMap m n = some (m', some txs, none) ∧
      (∀ (statusClass : α → Int) (t : telemetry),
        (t.aggregate statusClass txs none).misses = t.misses) ∧
      (c.pos < HTTPBatchSize → 0 < ((page.Idx : Int) - c.idx) * HTTPBatchSize - c.pos) := by
  have hge : ¬ toInt64 page.Idx < c.idx := by
    rw [toInt64_of_lt h63]; omega
  have hret := GetTransactionsFrom_ok batchMap m n c page hc hpage hge hidx h0 h1
  refine ⟨_, _, hret, ?_, ?_⟩
  · intro statusClass t
    exact notification_keeps_misses batchMap m _ n _ none hret statusClass t
  · intro hlt
    have h15 : ((HTTPBatchSize : Nat) : Int) = 15 := rfl
    rw [h15] at hlt ⊢
    omega

theorem skipped_pages_not_counted_witness :
    ∃ m' txs, GetTransactionsFrom (sampleMap [(⟨0, 5⟩, samplePage 5 15)]) ⟨[⟨0, 4⟩]⟩ ⟨0, 5⟩
        = some (m', some txs, none) ∧
      (∀ (statusClass : Nat → Int) (t : telemetry),
        (t.aggregate statusClass txs none).misses = t.misses) ∧
      ((4 : Int) < HTTPBatchSize →
        0 < (((samplePage 5 15).Idx : Int) - 0) * HTTPBatchSize - 4) :=
  skipped_pages_not_counted (sampleMap [(⟨0, 5⟩, samplePage 5 15)]) ⟨[⟨0, 4⟩]⟩ ⟨0, 5⟩
    ⟨0, 4⟩ (samplePage 5 15) rfl rfl rfl (by decide) (by decide) (by decide) (by decide)

/-- C14, counterexample. Aggregating one transaction of status class 200 together with
`ErrLostBatch` adds 1 to `misses` and also 1 to `hits2XX`. -/
theorem lost_batch_still_counts_hits :
    ((newTelemetry 0).aggregate EbpfHttpTx.StatusClass [sampleTx 1 200]
        (some TxError.ErrLostBatch)).misses.value = 1 ∧
      ((newTelemetry 0).aggregate EbpfHttpTx.StatusClass [sampleTx 1 200]
        (some TxError.ErrLostBatch)).hits2XX.value = 1 ∧
      (newTelemetry 0).hits2XX.value = 0 := by
  decide

/-- C14 (aggregation of a lost batch), amended: for every list `txs`, `aggregate` with
`ErrLostBatch` adds `len(txs)` to `misses` and, before that, counts each transaction in
the hit counter of its status class; it changes nothing else, and no hit counter when no
transaction of `txs` has a status class among 100..500, as when `txs` is empty. -/
theorem aggregate_lost_batch {α : Type} (statusClass : α → Int) (t : telemetry)
    (txs : List α) :
    t.aggregate statusClass txs (some TxError.ErrLostBatch) =
        { t with
          hits1XX := t.hits1XX.Add (classCount statusClass 100 txs)
          hits2XX := t.hits2XX.Add (classCount statusClass 200 txs)
          hits3XX := t.hits3XX.Add (classCount statusClass 300 txs)
          hits4XX := t.hits4XX.Add (classCount statusClass 400 txs)
          hits5XX := t.hits5XX.Add (classCount statusClass 500 txs)
          misses := t.misses.Add (txs.length : Int) } ∧
      ((∀ tx ∈ txs, ¬ IsHitClass (statusClass tx)) →
        t.aggregate statusClass txs (some TxError.ErrLostBatch)
          = { t with misses := t.misses.Add (txs.length : Int) }) := by
  constructor
  · rw [aggregate_eq]; simp
  · intro h
    have hz : ∀ c, IsHitClass c → classCount statusClass c txs = 0 := by
      intro c hcl
      apply classCount_eq_zero
      intro tx htx heq
      exact h tx htx (heq ▸ hcl)
    rw [aggregate_eq, hz 100 (by unfold IsHitClass; omega), hz 200 (by unfold IsHitClass; omega),
      hz 300 (by unfold IsHitClass; omega), hz 400 (by unfold IsHitClass; omega),
      hz 500 (by unfold IsHitClass; omega)]
    simp [Metric.add_zero]

/-- C15 (hits by status class). For every list `txs` aggregated with no error (or any
error other than `ErrLostBatch`), `aggregate` adds to each of `hits1XX .. hits5XX` the
number of transactions of `txs` whose status class is 100 .. 500 respectively, and leaves
`misses`, `dropped`, `rejected`, `malformed` and `aggregations` as they were; when every
transaction has one of these classes the hit counters grow by `len(txs)` in total, so
the 15 records of a page with status codes from 100 to 599 add 15. -/
theorem aggregate_hits {α : Type} (statusClass : α → Int) (t : telemetry) (txs : List α)
    (err : Option TxError) (herr : err ≠ some TxError.ErrLostBatch) :
    t.aggregate statusClass txs err =
        { t with
          hits1XX := t.hits1XX.Add (classCount statusClass 100 txs)
          hits2XX := t.hits2XX.Add (classCount statusClass 200 txs)
          hits3XX := t.hits3XX.Add (classCount statusClass 300 txs)
          hits4XX := t.hits4XX.Add (classCount statusClass 400 txs)
          hits5XX := t.hits5XX.Add (classCount statusClass 500 txs) } ∧
      ((∀ tx ∈ txs, IsHitClass (statusClass tx)) →
        (t.aggregate statusClass txs err).totalHits = t.totalHits + txs.length) ∧
      (∀ page : HttpBatch EbpfHttpTx,
        (∀ j, 100 ≤ (page.Txs j).Response_status_code ∧
          (page.Txs j).Response_status_code ≤ 599) →
        (t.aggregate EbpfHttpTx.StatusClass page.Transactions err).totalHits
          = t.totalHits + HTTPBatchSize) := by
  have hall : ∀ {β : Type} (sc : β → Int) (l : List β), (∀ tx ∈ l, IsHitClass (sc tx)) →
      (t.aggregate sc l err).totalHits = t.totalHits + l.length := by
    intro β sc l h
    rw [totalHits_aggregate]
    have : l.countP (fun tx => decide (IsHitClass (sc tx))) = l.length := by
      rw [List.countP_eq_length]
      intro tx htx
      simpa using h tx htx
    rw [this]
  refine ⟨?_, hall statusClass txs, ?_⟩
  · rw [aggregate_eq]; simp [herr]
  · intro page hvalid
    have h := hall EbpfHttpTx.StatusClass page.Transactions (by
      intro tx htx
      obtain ⟨k, hk⟩ := List.mem_iff_getElem?.mp htx
      by_cases hb : k < HTTPBatchSize
      · rw [Transactions_getElem? page k hb] at hk
        simp only [Option.some.injEq] at hk
        rw [← hk]
        exact isHitClass_of_valid _ (hvalid _)
      · have : page.Transactions[k]? = none := by
          apply List.getElem?_eq_none
          rw [Transactions_length]; omega
        rw [this] at hk
        simp at hk)
    rw [h, Transactions_length]

theorem aggregate_hits_witness :
    ((newTelemetry 0).aggregate EbpfHttpTx.StatusClass
        [sampleTx 1 200, sampleTx 2 404, sampleTx 1 204] none).totalHits
      = (newTelemetry 0).totalHits + ([sampleTx 1 200, sampleTx 2 404, sampleTx 1 204].length) :=
  (aggregate_hits EbpfHttpTx.StatusClass (newTelemetry 0)
    [sampleTx 1 200, sampleTx 2 404, sampleTx 1 204] none (by decide)).2.1 (by
      intro tx htx
      simp only [List.mem_cons, List.mem_singleton, List.not_mem_nil, or_false] at htx
      rcases htx with rfl | rfl | rfl <;> decide)

/-- C16 (hits against transactions ingested). After any sequence of `aggregate` calls on
a new telemetry record, `hits1XX + hits2XX + hits3XX + hits4XX + hits5XX` is at most the
total number of transactions the calls handed in, and equal to it exactly when every
transaction handed in has a status class among 100, 200, 300, 400 and 500. -/
theorem totalHits_le_ingested {α : Type} (statusClass : α → Int) (now : Int)
    (calls : List (List α × Option TxError)) :
    ((newTelemetry now).aggregateAll statusClass calls).totalHits ≤ (ingested calls : Int) ∧
      (((newTelemetry now).aggregateAll statusClass calls).totalHits = (ingested calls : Int) ↔
        ∀ call ∈ calls, ∀ tx ∈ call.1, IsHitClass (statusClass tx)) := by
  obtain ⟨hits, h1, h2, h3⟩ := totalHits_aggregateAll statusClass calls (newTelemetry now)
  have h0 : (newTelemetry now).totalHits = 0 := rfl
  rw [h1, h0, zero_add]
  constructor
  · exact_mod_cast h2
  · rw [← h3]
    exact_mod_cast Iff.rfl

/-- C17, counterexample. A transaction with method `UNKNOWN` (0) and status 200, handed
to `aggregate`, adds 1 to `hits2XX`. -/
theorem unknown_method_is_counted :
    (sampleTx 0 200).Method = MethodUnknown ∧
      ((newTelemetry 0).aggregate EbpfHttpTx.StatusClass [sampleTx 0 200] none).hits2XX.value
        = 1 ∧
      (newTelemetry 0).hits2XX.value = 0 := by
  decide

/-- C17 (transactions of unknown method), amended: `aggregate` does not consult the
method. A transaction whose method is `UNKNOWN` (0) adds 1 to the hit counter of its
status class when its status code is from 100 to 599 (to `hits2XX` for status 200), as a
transaction of any other method with that status code does; it increments no hit counter
only when its status code is outside 100..599. -/
theorem aggregate_unknown_method (t : telemetry) (tx : EbpfHttpTx) (err : Option TxError)
    (hm : tx.Method = MethodUnknown) :
    (100 ≤ tx.Response_status_code ∧ tx.Response_status_code ≤ 599 →
        (t.aggregate EbpfHttpTx.StatusClass [tx] err).totalHits = t.totalHits + 1) ∧
      (tx.Response_status_code = 200 →
        (t.aggregate EbpfHttpTx.StatusClass [tx] err).hits2XX.value = t.hits2XX.value + 1) ∧
      (¬ (100 ≤ tx.Response_status_code ∧ tx.Response_status_code ≤ 599) →
        (t.aggregate EbpfHttpTx.StatusClass [tx] err).totalHits = t.totalHits) ∧
      (∀ tx' : EbpfHttpTx, tx'.Response_status_code = tx.Response_status_code →
        t.aggregate EbpfHttpTx.StatusClass [tx'] err
          = t.aggregate EbpfHttpTx.StatusClass [tx] err) := by
  have _ := hm
  refine ⟨?_, ?_, ?_, ?_⟩
  · intro hv
    rw [totalHits_aggregate]
    have : IsHitClass tx.StatusClass := isHitClass_of_valid tx hv
    simp [List.countP_cons, this]
  · intro h200
    rw [aggregate_eq]
    simp [classCount, List.countP_cons, EbpfHttpTx.StatusClass, h200, Metric.Add]
  · intro hv
    rw [totalHits_aggregate]
    have : ¬ IsHitClass tx.StatusClass := by
      unfold IsHitClass EbpfHttpTx.StatusClass
      omega
    simp [List.countP_cons, this]
  · intro tx' hcode
    have hsc : tx'.StatusClass = tx.StatusClass := by
      unfold EbpfHttpTx.StatusClass
      rw [hcode]
    simp only [telemetry.aggregate, List.foldl_cons, List.foldl_nil, hsc, List.length_singleton]

theorem aggregate_unknown_method_witness :
    ((newTelemetry 0).aggregate EbpfHttpTx.StatusClass [sampleTx 0 404] none).totalHits
      = (newTelemetry 0).totalHits + 1 :=
  (aggregate_unknown_method (newTelemetry 0) (sampleTx 0 404) none rfl).1 (by decide)

/-- C18 (error atomicity). Whenever `GetTransactionsFrom` returns a non-nil error it
returns a nil slice and the manager, hence the cursor of every CPU, exactly as before
the call; the error is the lookup error or `ErrLostBatch`. Both occur: a failed lookup
gives the first, a page of another idx that is not behind the cursor the second. -/
theorem GetTransactionsFrom_error_atomic {α : Type} (batchMap : BatchMap α)
    (m : batchManager) (n : HttpNotification) (c : usrBatchState)
    (hc : m.stateByCPU[n.Cpu]? = some c) :
    (∀ m' txs e, GetTransactionsFrom batchMap m n = some (m', txs, some e) →
        txs = none ∧ m' = m ∧ (e = TxError.retrieving n.Cpu ∨ e = TxError.ErrLostBatch)) ∧
      (batchMap (httpBatchKey.Prepare n) = none →
        GetTransactionsFrom batchMap m n = some (m, none, some (TxError.retrieving n.Cpu))) ∧
      (∀ page, batchMap (httpBatchKey.Prepare n) = some page → page.Idx ≠ n.Idx →
        ¬ toInt64 page.Idx < c.idx →
        GetTransactionsFrom batchMap m n = some (m, none, some TxError.ErrLostBatch)) := by
  refine ⟨?_, ?_, ?_⟩
  · intro m' txs e h
    cases txs with
    | some l =>
      obtain ⟨_, _, _, _, _, _, _, _, _, _, he⟩ := GetTransactionsFrom_some_inv h
      simp at he
    | none =>
      refine ⟨rfl, GetTransactionsFrom_nil_inv h, ?_⟩
      unfold GetTransactionsFrom at h
      simp only [hc] at h
      cases hpage : batchMap (httpBatchKey.Prepare n) with
      | none =>
        simp only [hpage, Option.some.injEq, Prod.mk.injEq] at h
        exact Or.inl h.2.2.symm
      | some page =>
        simp only [hpage] at h
        by_cases hlt : toInt64 page.Idx < c.idx
        · rw [if_pos hlt] at h
          simp at h
        · rw [if_neg hlt] at h
          by_cases hd : page.IsDirty n = true
          · rw [if_pos hd] at h
            simp only [Option.some.injEq, Prod.mk.injEq] at h
            exact Or.inr h.2.2.symm
          · rw [if_neg hd] at h
            cases hs : sliceFrom page.Transactions c.pos with
            | none => simp [hs] at h
            | some out => simp [hs] at h
  · intro hpage
    simp [GetTransactionsFrom, hc, hpage]
  · intro page hpage hne hge
    simp only [GetTransactionsFrom, hc, hpage]
    rw [if_neg hge, if_pos (by simp [HttpBatch.IsDirty, hne])]

theorem GetTransactionsFrom_error_atomic_witness :
    GetTransactionsFrom (sampleMap [(⟨0, 3⟩, samplePage 18 15)]) ⟨[⟨3, 6⟩, ⟨1, 2⟩]⟩ ⟨1, 4⟩
      = some (⟨[⟨3, 6⟩, ⟨1, 2⟩]⟩, none, some (TxError.retrieving 1)) :=
  (GetTransactionsFrom_error_atomic (sampleMap [(⟨0, 3⟩, samplePage 18 15)])
    ⟨[⟨3, 6⟩, ⟨1, 2⟩]⟩ ⟨1, 4⟩ ⟨1, 2⟩ rfl).2.1 rfl

/-! ## The poll path: failed lookups -/

/-- The loop over the CPUs handles a manager split in two parts one part after the
other, the second from the CPU number where the first ends. -/
theorem sweepCPUs_append {α : Type} (batchMap : BatchMap α) :
    ∀ (pre rest : List usrBatchState) (i0 : Nat),
      sweepCPUs batchMap i0 (pre ++ rest) =
        match sweepCPUs batchMap i0 pre with
        | none => none
        | some (pre', t1, k1) =>
          match sweepCPUs batchMap (i0 + pre.length) rest with
          | none => none
          | some (rest', t2, k2) => some (pre' ++ rest', t1 ++ t2, k1 ++ k2) := by
  intro pre
  induction pre with
  | nil =>
    intro rest i0
    simp only [List.nil_append, sweepCPUs, List.length_nil, Nat.add_zero]
    cases sweepCPUs batchMap i0 rest with
    | none => rfl
    | some r => rfl
  | cons s pre ih =>
    intro rest i0
    have e : i0 + (s :: pre).length = i0 + 1 + pre.length := by
      simp only [List.length_cons]; omega
    rw [e]
    simp only [List.cons_append, sweepCPUs]
    cases hr : pendingLoop batchMap i0 maxLookupsPerCPU s with
    | none => rfl
    | some r =>
      simp only []
      have hih : sweepCPUs batchMap (i0 + 1) (pre.append rest) = _ := ih rest (i0 + 1)
      rw [hih]
      cases hp : sweepCPUs batchMap (i0 + 1) pre with
      | none => rfl
      | some p =>
        obtain ⟨pre', t1, k1⟩ := p
        simp only []
        cases hq : sweepCPUs batchMap (i0 + 1 + pre.length) rest with
        | none => rfl
        | some q =>
          obtain ⟨rest', t2, k2⟩ := q
          simp

/-- C19 (failed lookup in the poll path). When the page lookup for CPU `i` at cursor `c`
fails, the iteration that made it delivers nothing and leaves the cursor at `c`, whatever
the number of iterations left, and the loop for that CPU ends there. A sweep over a
manager whose CPU `i` has that cursor handles the CPUs before `i` and the CPUs after `i`
as it would without CPU `i`: it returns their cursors and transactions with the cursor `c`
unchanged between them, the failed key recorded among the lookups, and no error. -/
theorem GetPendingTransactions_lookup_failed {α : Type} (batchMap : BatchMap α) (i : Nat)
    (c : usrBatchState) (hfail : batchMap (pendingKey i c) = none) :
    (∀ n, pendingLoop batchMap i (n + 1) c = some ⟨c, [], [pendingKey i c]⟩) ∧
      (∀ (pre rest : List usrBatchState), pre.length = i →
        GetPendingTransactions batchMap ⟨pre ++ c :: rest⟩ =
          match sweepCPUs batchMap 0 pre with
          | none => none
          | some (pre', t1, k1) =>
            match sweepCPUs batchMap (i + 1) rest with
            | none => none
            | some (rest', t2, k2) =>
              some (⟨pre' ++ c :: rest'⟩, t1 ++ t2, k1 ++ pendingKey i c :: k2)) := by
  have hloop : ∀ n, pendingLoop batchMap i (n + 1) c = some ⟨c, [], [pendingKey i c]⟩ :=
    fun n => pendingLoop_lookup_failed batchMap i n c hfail
  refine ⟨hloop, ?_⟩
  intro pre rest hlen
  unfold GetPendingTransactions
  rw [sweepCPUs_append, Nat.zero_add, hlen]
  cases hp : sweepCPUs batchMap 0 pre with
  | none => rfl
  | some p =>
    obtain ⟨pre', t1, k1⟩ := p
    simp only [sweepCPUs, hloop 1]
    cases hq : sweepCPUs batchMap (i + 1) rest with
    | none => rfl
    | some q =>
      obtain ⟨rest', t2, k2⟩ := q
      simp

theorem GetPendingTransactions_lookup_failed_witness :
    GetPendingTransactions (sampleMap [(⟨0, 0⟩, samplePage 0 3), (⟨2, 0⟩, samplePage 0 2)])
        ⟨[⟨0, 0⟩] ++ ⟨0, 0⟩ :: [⟨0, 0⟩]⟩
      = some (⟨[⟨0, 3⟩, ⟨0, 0⟩, ⟨0, 2⟩]⟩, [0, 1, 2, 0, 1], [⟨0, 0⟩, ⟨1, 0⟩, ⟨2, 0⟩]) :=
  ((GetPendingTransactions_lookup_failed
    (sampleMap [(⟨0, 0⟩, samplePage 0 3), (⟨2, 0⟩, samplePage 0 2)]) 1 ⟨0, 0⟩ rfl).2
    [⟨0, 0⟩] [⟨0, 0⟩] rfl).trans (by decide)

/-! ## Mixed drain -/

/-- C11, counterexample. For page index `k = 2^63 - 1` and `p = 7`: the sweep delivers
slots 0..6 and leaves the cursor at `{k,7}`, the notification then delivers slots 7..14,
but the cursor ends at `{-2^63, 0}` and not at `{k + 1, 0}`. -/
theorem poll_then_notify_wraps_at_max_idx :
    GetPendingTransactions (sampleMap [(⟨0, 7⟩, samplePage 9223372036854775807 7)])
        ⟨[⟨9223372036854775807, 0⟩]⟩
      = some (⟨[⟨9223372036854775807, 7⟩]⟩,
          (samplePage 9223372036854775807 15).Transactions.take 7, [⟨0, 7⟩]) ∧
    GetTransactionsFrom (sampleMap [(⟨0, 7⟩, samplePage 9223372036854775807 15)])
        ⟨[⟨9223372036854775807, 7⟩]⟩ ⟨0, 9223372036854775807⟩
      = some (⟨[⟨-9223372036854775808, 0⟩]⟩,
          some ((samplePage 9223372036854775807 15).Transactions.drop 7), none) ∧
    (⟨-9223372036854775808, 0⟩ : usrBatchState)
      ≠ ⟨((9223372036854775807 : Nat) : Int) + 1, 0⟩ := by
  decide

/-- C11 (mixed drain), amended by the bound `k < 2^63 - 1`. CPU `cpu` (a number that
fits `uint32`) has cursor `{k,0}`. A sweep sees page `k` with `pos = p`, `0 < p <
PAGE_SIZE`; afterwards the page is complete, its first `p` records unchanged, and
`GetTransactionsFrom({cpu,k})` is called. Then the sweep delivers slots `0..p-1` for that
CPU and leaves its cursor at `{k,p}`, the notification delivers slots `p..14` without
error, the two lists together are exactly the 15 records of the page in order, and the
cursor ends at `{k+1,0}`; a notification-only drain of the complete page from `{k,0}`
returns the same 15 records and ends at the same cursor. -/
theorem mixed_drain {α : Type} (batchMap1 batchMap2 : BatchMap α) (m m1 : batchManager)
    (out : List α) (keys : List httpBatchKey) (cpu k p : Nat) (page1 page2 : HttpBatch α)
    (hcpu : cpu < 2 ^ 32) (hk : k < 2 ^ 63 - 1) (hp0 : 0 < p) (hp : p < HTTPBatchSize)
    (hc : m.stateByCPU[cpu]? = some ⟨k, 0⟩)
    (h1 : batchMap1 ⟨cpu, k % HTTPBatchPages⟩ = some page1)
    (hi1 : page1.Idx = k) (hpos1 : page1.Pos = p)
    (hsweep : GetPendingTransactions batchMap1 m = some (m1, out, keys))
    (h2 : batchMap2 ⟨cpu, k % HTTPBatchPages⟩ = some page2)
    (hi2 : page2.Idx = k) (hpos2 : page2.Pos = HTTPBatchSize)
    (hsame : ∀ j : Fin HTTPBatchSize, j.val < p → page2.Txs j = page1.Txs j) :
    ∃ txs1 txs2 m2,
      pendingLoop batchMap1 cpu maxLookupsPerCPU ⟨k, 0⟩
          = some ⟨⟨k, p⟩, txs1, [⟨cpu, k % HTTPBatchPages⟩]⟩ ∧
        (∃ pre post, out = pre ++ txs1 ++ post) ∧
        m1.stateByCPU[cpu]? = some ⟨k, p⟩ ∧
        IsSlots page2 0 p txs1 ∧
        GetTransactionsFrom batchMap2 m1 ⟨cpu, k⟩ = some (m2, some txs2, none) ∧
        IsSlots page2 p HTTPBatchSize txs2 ∧
        txs1 ++ txs2 = page2.Transactions ∧
        m2.stateByCPU[cpu]? = some ⟨(k : Int) + 1, 0⟩ ∧
        ∃ m', GetTransactionsFrom batchMap2 m ⟨cpu, k⟩
            = some (m', some page2.Transactions, none) ∧
          m'.stateByCPU[cpu]? = some ⟨(k : Int) + 1, 0⟩ := by
  have _ := hpos2
  have hkey : pendingKey cpu ⟨k, 0⟩ = ⟨cpu, k % HTTPBatchPages⟩ := by
    rw [pendingKey_eq hcpu (by show (0 : Int) ≤ (k : Int); omega)]
    have h15 : ((HTTPBatchPages : Nat) : Int) = 15 := rfl
    have hm : k % HTTPBatchPages = k % 15 := rfl
    show (⟨cpu, (((k : Int)) % (HTTPBatchPages : Int)).toNat⟩ : httpBatchKey) = _
    rw [h15, hm]
    have e : ((k : Int) % 15).toNat = k % 15 := by omega
    rw [e]
  have hprep : httpBatchKey.Prepare ⟨cpu, k⟩ = ⟨cpu, k % HTTPBatchPages⟩ :=
    Prepare_eq ⟨cpu, k⟩ (by show k < 2 ^ 63; omega)
  have hw : wrapInt64 (toInt64 k + 1) = (k : Int) + 1 := by
    rw [toInt64_of_lt (by omega)]
    exact wrapInt64_of_range (by omega) (by omega)
  -- the sweep
  have hloop := pendingLoop_new batchMap1 cpu 1 ⟨k, 0⟩ page1 (by rw [hkey]; exact h1)
    (by rw [hi1, toInt64_of_lt (by omega)]) (le_refl _)
    (by show (0 : Int) < (page1.Pos : Int); omega) (by omega)
  rw [if_neg (by omega), hkey, hpos1] at hloop
  have hzero : (0 : Int).toNat = 0 := rfl
  simp only [hzero, List.drop_zero, Nat.sub_zero] at hloop
  obtain ⟨r, pre, post, hr, hst, hout⟩ :=
    GetPendingTransactions_get batchMap1 m m1 out keys hsweep cpu _ hc
  have hloop' : pendingLoop batchMap1 cpu maxLookupsPerCPU ⟨k, 0⟩ = _ := hloop
  rw [hloop'] at hr
  simp only [Option.some.injEq] at hr
  subst hr
  simp only at hst hout
  have hlen1 : cpu < m1.stateByCPU.length := by
    rcases List.getElem?_eq_some_iff.mp hst with ⟨h, _⟩
    exact h
  have hlen : cpu < m.stateByCPU.length := by
    rcases List.getElem?_eq_some_iff.mp hc with ⟨h, _⟩
    exact h
  -- the two pages agree on the first p slots
  have htake : page1.Transactions.take p = page2.Transactions.take p := by
    apply List.ext_getElem?
    intro j
    rw [List.getElem?_take, List.getElem?_take]
    by_cases hj : j < p
    · rw [if_pos hj, if_pos hj, Transactions_getElem? page1 j (by omega),
        Transactions_getElem? page2 j (by omega), hsame ⟨j, by omega⟩ hj]
    · rw [if_neg hj, if_neg hj]
  -- the notification after the sweep
  have hret := GetTransactionsFrom_ok batchMap2 m1 ⟨cpu, k⟩ ⟨k, p⟩ page2 hst
    (by rw [hprep]; exact h2) (by rw [hi2, toInt64_of_lt (by omega)]; simp) hi2
    (by show (0 : Int) ≤ (p : Int); omega) (by show (p : Int) ≤ (HTTPBatchSize : Int); omega)
  rw [hw] at hret
  simp only [Int.toNat_ofNat] at hret
  -- the notification alone
  have hret0 := GetTransactionsFrom_ok batchMap2 m ⟨cpu, k⟩ ⟨k, 0⟩ page2 hc
    (by rw [hprep]; exact h2) (by rw [hi2, toInt64_of_lt (by omega)]; simp) hi2
    (le_refl _) (by show (0 : Int) ≤ (HTTPBatchSize : Int); omega)
  rw [hw] at hret0
  simp only [hzero, List.drop_zero] at hret0
  refine ⟨_, _, _, hloop, ⟨pre, post, hout⟩, hst, ?_, hret, ?_, ?_, ?_, _, hret0, ?_⟩
  · rw [htake]
    have h := isSlots_drop_take page2 0 p (by omega)
    simpa using h
  · have h := isSlots_drop_take page2 p HTTPBatchSize (le_refl _)
    rwa [List.take_of_length_le (by simp [Transactions_length])] at h
  · rw [htake]
    exact List.take_append_drop p _
  · exact List.getElem?_set_self hlen1
  · exact List.getElem?_set_self hlen

theorem mixed_drain_witness :
    ∃ txs1 txs2 m2,
      pendingLoop (sampleMap [(⟨0, 0⟩, samplePage 0 7)]) 0 maxLookupsPerCPU ⟨(0 : Nat), 0⟩
          = some ⟨⟨(0 : Nat), (7 : Nat)⟩, txs1, [⟨0, 0 % HTTPBatchPages⟩]⟩ ∧
        (∃ pre post, [0, 1, 2, 3, 4, 5, 6] = pre ++ txs1 ++ post) ∧
        (⟨[⟨0, 7⟩]⟩ : batchManager).stateByCPU[(0 : Nat)]? = some ⟨(0 : Nat), (7 : Nat)⟩ ∧
        IsSlots (samplePage 0 15) 0 7 txs1 ∧
        GetTransactionsFrom (sampleMap [(⟨0, 0⟩, samplePage 0 15)]) ⟨[⟨0, 7⟩]⟩ ⟨0, 0⟩
          = some (m2, some txs2, none) ∧
        IsSlots (samplePage 0 15) 7 HTTPBatchSize txs2 ∧
        txs1 ++ txs2 = (samplePage 0 15).Transactions ∧
        m2.stateByCPU[(0 : Nat)]? = some ⟨((0 : Nat) : Int) + 1, 0⟩ ∧
        ∃ m', GetTransactionsFrom (sampleMap [(⟨0, 0⟩, samplePage 0 15)]) (newBatchManager 1)
              ⟨0, 0⟩
            = some (m', some (samplePage 0 15).Transactions, none) ∧
          m'.stateByCPU[(0 : Nat)]? = some ⟨((0 : Nat) : Int) + 1, 0⟩ :=
  mixed_drain (sampleMap [(⟨0, 0⟩, samplePage 0 7)]) (sampleMap [(⟨0, 0⟩, samplePage 0 15)])
    (newBatchManager 1) ⟨[⟨0, 7⟩]⟩ [0, 1, 2, 3, 4, 5, 6] [⟨0, 0⟩] 0 0 7
    (samplePage 0 7) (samplePage 0 15) (by decide) (by decide) (by decide) (by decide)
    rfl rfl rfl rfl (by decide) rfl rfl rfl (fun _ _ => rfl)

/-! ## Cursor monotonicity -/

/-- A slot delivered between two cursors separates them. -/
theorem lt_of_between {c c' : usrBatchState} {t : TxId} (h1 : c.atOrBefore t)
    (h2 : t.behind c') : c.lt c' := by
  unfold usrBatchState.atOrBefore at h1
  unfold TxId.behind at h2
  unfold usrBatchState.lt
  omega

/-- Every state a run reaches from valid cursors has as many cursors, all valid. -/
theorem drain_reaches_ok {α : Type} :
    ∀ (steps : List (Step α)) (m m' : batchManager),
      (∀ s ∈ steps, ∀ k page, s.batchMap k = some page →
        page.Idx < 2 ^ 63 - 1 ∧ page.Pos ≤ HTTPBatchSize) →
      m.stateByCPU.length ≤ 2 ^ 32 →
      (∀ (j : Nat) (c : usrBatchState), m.stateByCPU[j]? = some c → CursorOK c) →
      (drain m steps).1 = some m' →
      m'.stateByCPU.length = m.stateByCPU.length ∧
        ∀ (j : Nat) (c : usrBatchState), m'.stateByCPU[j]? = some c → CursorOK c := by
  intro steps
  induction steps with
  | nil =>
    intro m m' _ _ hok h
    simp only [drain, Option.some.injEq] at h
    subst h
    exact ⟨rfl, hok⟩
  | cons s rest ih =>
    intro m m' hb hlen hok h
    obtain ⟨hstep, _⟩ := exec_advanced s m (hb s (List.mem_cons_self _ _)) hlen hok
    cases hexec : s.exec m with
    | none => simp [drain, hexec] at h
    | some r =>
      obtain ⟨m1, out⟩ := r
      obtain ⟨hl, hadv, _⟩ := hstep m1 out hexec
      have hok1 : ∀ (j : Nat) (c : usrBatchState), m1.stateByCPU[j]? = some c → CursorOK c := by
        intro j c1 hj
        have hjlt : j < m.stateByCPU.length := by
          rcases List.getElem?_eq_some_iff.mp hj with ⟨h', _⟩
          omega
        obtain ⟨c2, hc2, hA⟩ := hadv j _ (List.getElem?_eq_getElem hjlt)
        rw [hj] at hc2
        simp only [Option.some.injEq] at hc2
        rw [hc2]
        exact hA.2.1
      have h1 : (drain m (s :: rest)).1 = (drain m1 rest).1 := by
        simp only [drain, hexec]
      rw [h1] at h
      obtain ⟨hl2, hok2⟩ := ih m1 m' (fun s' hs' => hb s' (List.mem_cons_of_mem _ hs'))
        (by omega) hok1 h
      exact ⟨by omega, hok2⟩

/-- C21 (cursor monotonicity). `newBatchManager` creates `numCPUs` cursors, all `{0,0}`.
In every state `m` reached from it by calls against page maps whose pages have
`Idx < 2^63 - 1` and `Pos ≤ PAGE_SIZE` (at most `2^32` CPUs), a further call, of either
kind and against such a page map, that returns leaves the cursor of every CPU
lexicographically at or after its value before the call, and strictly after it for a CPU
for which the call delivers at least one transaction. -/
theorem cursor_monotone {α : Type} (numCPUs : Nat) (steps : List (Step α)) (s : Step α)
    (m m' : batchManager) (out : List (TxId × α))
    (hcpus : numCPUs ≤ 2 ^ 32)
    (hb : ∀ s' ∈ steps ++ [s], ∀ k page, s'.batchMap k = some page →
      page.Idx < 2 ^ 63 - 1 ∧ page.Pos ≤ HTTPBatchSize)
    (hreach : (drain (newBatchManager numCPUs) steps).1 = some m)
    (hexec : s.exec m = some (m', out)) :
    ((newBatchManager numCPUs).numCPUs = numCPUs ∧
      ∀ (i : Nat) (c : usrBatchState),
        (newBatchManager numCPUs).stateByCPU[i]? = some c → c = ⟨0, 0⟩) ∧
    ∀ (cpu : Nat) (c : usrBatchState), m.stateByCPU[cpu]? = some c →
      ∃ c', m'.stateByCPU[cpu]? = some c' ∧ c.le c' ∧
        (deliveredOn cpu out ≠ [] → c.lt c') := by
  have hinit : ∀ (i : Nat) (c : usrBatchState),
      (newBatchManager numCPUs).stateByCPU[i]? = some c → c = ⟨0, 0⟩ := by
    intro i c hi
    simp only [newBatchManager, List.getElem?_replicate] at hi
    split at hi
    · simp only [Option.some.injEq] at hi
      exact hi.symm
    · simp at hi
  have hlen0 : (newBatchManager numCPUs).stateByCPU.length = numCPUs := by
    simp [newBatchManager]
  have hok0 : ∀ (j : Nat) (c : usrBatchState),
      (newBatchManager numCPUs).stateByCPU[j]? = some c → CursorOK c := by
    intro j c hj
    rw [hinit j c hj]
    exact ⟨le_refl _, by show (0 : Int) ≤ 2 ^ 63 - 1; omega, le_refl _,
      by show (0 : Int) < 15; omega⟩
  obtain ⟨hl, hok⟩ := drain_reaches_ok steps (newBatchManager numCPUs) m
    (fun s' hs' => hb s' (List.mem_append_left _ hs')) (by omega) hok0 hreach
  obtain ⟨hstep, _⟩ := exec_advanced s m
    (hb s (List.mem_append_right _ (List.mem_singleton_self s))) (by omega) hok
  obtain ⟨_, hadv, _⟩ := hstep m' out hexec
  refine ⟨⟨hlen0, hinit⟩, ?_⟩
  intro cpu c hc
  obtain ⟨c', hc', hle, _, _, hmem⟩ := hadv cpu c hc
  refine ⟨c', hc', hle, ?_⟩
  intro hne
  obtain ⟨t, ht⟩ := List.exists_mem_of_ne_nil _ hne
  exact lt_of_between (hmem t ht).1 (hmem t ht).2

theorem cursor_monotone_witness :
    ((newBatchManager 1).numCPUs = 1 ∧
      ∀ (i : Nat) (c : usrBatchState),
        (newBatchManager 1).stateByCPU[i]? = some c → c = ⟨0, 0⟩) ∧
    ∀ (cpu : Nat) (c : usrBatchState),
      (⟨[⟨0, 7⟩]⟩ : batchManager).stateByCPU[cpu]? = some c →
      ∃ c', (⟨[⟨1, 0⟩]⟩ : batchManager).stateByCPU[cpu]? = some c' ∧ c.le c' ∧
        (deliveredOn cpu
            ((tagged (sampleMap [(⟨0, 0⟩, samplePage 0 15)]) ⟨0, 0⟩).elim []
              (fun p => p.Transactions.drop 7)) ≠ [] → c.lt c') :=
  cursor_monotone 1 [⟨sampleMap [(⟨0, 0⟩, samplePage 0 7)], Call.poll⟩]
    ⟨sampleMap [(⟨0, 0⟩, samplePage 0 15)], Call.notify ⟨0, 0⟩⟩
    ⟨[⟨0, 7⟩]⟩ ⟨[⟨1, 0⟩]⟩
    ((tagged (sampleMap [(⟨0, 0⟩, samplePage 0 15)]) ⟨0, 0⟩).elim []
      (fun p => p.Transactions.drop 7))
    (by decide)
    (by
      intro s' hs'
      simp only [List.cons_append, List.nil_append, List.mem_cons, List.mem_singleton,
        List.not_mem_nil, or_false] at hs'
      rcases hs' with rfl | rfl
      · exact sampleMap_bound _ (by decide)
      · exact sampleMap_bound _ (by decide))
    (by decide) (by rfl)

/-! ## What the notification path reads -/

/-- `GetTransactionsFrom` gives the same result against two page maps whose pages differ
at most in `Pos`. -/
theorem GetTransactionsFrom_congr_pos {α : Type} (batchMap batchMap' : BatchMap α)
    (m : batchManager) (n : HttpNotification)
    (h : ∀ k, (batchMap' k).map (fun p => (p.Idx, p.Txs))
      = (batchMap k).map (fun p => (p.Idx, p.Txs))) :
    GetTransactionsFrom batchMap' m n = GetTransactionsFrom batchMap m n := by
  unfold GetTransactionsFrom
  cases hc : m.stateByCPU[n.Cpu]? with
  | none => rfl
  | some c =>
    have hk := h (httpBatchKey.Prepare n)
    cases hb : batchMap (httpBatchKey.Prepare n) with
    | none =>
      cases hb' : batchMap' (httpBatchKey.Prepare n) with
      | none => rfl
      | some page' => rw [hb, hb'] at hk; simp at hk
    | some page =>
      cases hb' : batchMap' (httpBatchKey.Prepare n) with
      | none => rw [hb, hb'] at hk; simp at hk
      | some page' =>
        rw [hb, hb'] at hk
        simp only [Option.map_some', Option.some.injEq, Prod.mk.injEq] at hk
        obtain ⟨hI, hT⟩ := hk
        simp only [HttpBatch.IsDirty, HttpBatch.Transactions, hI, hT]

/-- C27 (the page's `pos` is not consulted). When `GetTransactionsFrom` returns
transactions, from cursor `c` of the notified CPU, it returns exactly
`PAGE_SIZE - c.pos` of them: the records of slots `c.pos .. 14` of the page looked up,
whatever its `pos`, hence also the slots at and after `pos` that the producer has not
written. The whole result is the same against any page map whose pages differ from the
given ones in `pos` only. -/
theorem GetTransactionsFrom_ignores_pos {α : Type} (batchMap : BatchMap α)
    (m m' : batchManager) (n : HttpNotification) (c : usrBatchState) (txs : List α)
    (e : Option TxError)
    (hc : m.stateByCPU[n.Cpu]? = some c)
    (h : GetTransactionsFrom batchMap m n = some (m', some txs, e)) :
    txs.length = HTTPBatchSize - c.pos.toNat ∧
      (∃ page, batchMap (httpBatchKey.Prepare n) = some page ∧ page.Idx = n.Idx ∧
        IsSlots page c.pos.toNat HTTPBatchSize txs ∧
        ∀ (j : Nat) (hj : j < HTTPBatchSize), c.pos.toNat ≤ j → page.Txs ⟨j, hj⟩ ∈ txs) ∧
      ∀ batchMap' : BatchMap α,
        (∀ k, (batchMap' k).map (fun p => (p.Idx, p.Txs))
          = (batchMap k).map (fun p => (p.Idx, p.Txs))) →
        GetTransactionsFrom batchMap' m n = some (m', some txs, e) := by
  obtain ⟨c0, page, hc0, hpage, _, hidx, _, _, _, htxs, _⟩ := GetTransactionsFrom_some_inv h
  rw [hc] at hc0
  simp only [Option.some.injEq] at hc0
  subst hc0
  have hs : IsSlots page c.pos.toNat HTTPBatchSize txs := by
    have h' := isSlots_drop_take page c.pos.toNat HTTPBatchSize (le_refl _)
    rwa [List.take_of_length_le (by simp [Transactions_length]), ← htxs] at h'
  refine ⟨hs.1, ⟨page, hpage, hidx, hs, ?_⟩, ?_⟩
  · intro j hj hle
    have hget := hs.2 (j - c.pos.toNat) (by omega) (by omega)
    have e1 : c.pos.toNat + (j - c.pos.toNat) = j := by omega
    simp only [e1] at hget
    exact List.mem_iff_getElem?.mpr ⟨_, hget⟩
  · intro batchMap' hsame
    rw [GetTransactionsFrom_congr_pos batchMap batchMap' m n hsame]
    exact h

theorem GetTransactionsFrom_ignores_pos_witness :
    (samplePage 2 4).Transactions.length = HTTPBatchSize - (0 : Int).toNat :=
  (GetTransactionsFrom_ignores_pos (sampleMap [(⟨0, 2⟩, samplePage 2 4)]) ⟨[⟨0, 0⟩]⟩
    ⟨[⟨3, 0⟩]⟩ ⟨0, 2⟩ ⟨0, 0⟩ (samplePage 2 4).Transactions none rfl (by decide)).1

/-! ## Bounds safety -/

/-- From a cursor with its position inside a page, against pages with `Pos ≤ PAGE_SIZE`,
the inner loop of the poll returns and leaves such a cursor. -/
theorem pendingLoop_pos_ok {α : Type} (batchMap : BatchMap α)
    (hpos : ∀ k page, batchMap k = some page → page.Pos ≤ HTTPBatchSize) (i : Nat) :
    ∀ (n : Nat) (c : usrBatchState), PosOK c →
      ∃ r, pendingLoop batchMap i n c = some r ∧ PosOK r.state := by
  intro n
  induction n with
  | zero =>
    intro c hc
    exact ⟨⟨c, [], []⟩, rfl, hc⟩
  | succ n ih =>
    intro c hc
    cases hpage : batchMap (pendingKey i c) with
    | none => exact ⟨_, pendingLoop_lookup_failed batchMap i n c hpage, hc⟩
    | some page =>
      by_cases hn : toInt64 page.Idx ≠ c.idx ∨ (page.Pos : Int) ≤ c.pos
      · exact ⟨_, pendingLoop_nothing_new batchMap i n c page hpage hn, hc⟩
      · have hidx : toInt64 page.Idx = c.idx := by
          by_contra h; exact hn (Or.inl h)
        have h1 : c.pos < page.Pos := by
          by_contra h; exact hn (Or.inr (by omega))
        have hP := hpos _ page hpage
        have hloop := pendingLoop_new batchMap i n c page hpage hidx hc.1 h1 hP
        by_cases hf : page.Pos = HTTPBatchSize
        · rw [if_pos hf] at hloop
          obtain ⟨r2, hr2, hok2⟩ := ih ⟨wrapInt64 (c.idx + 1), 0⟩
            ⟨le_refl _, by show (0 : Int) < 15; omega⟩
          rw [hr2] at hloop
          exact ⟨_, hloop, hok2⟩
        · rw [if_neg hf] at hloop
          refine ⟨_, hloop, ?_, ?_⟩
          · show (0 : Int) ≤ (page.Pos : Int); omega
          · show (page.Pos : Int) < (HTTPBatchSize : Int); omega

theorem sweepCPUs_pos_ok {α : Type} (batchMap : BatchMap α)
    (hpos : ∀ k page, batchMap k = some page → page.Pos ≤ HTTPBatchSize) :
    ∀ (states : List usrBatchState) (i0 : Nat), (∀ c ∈ states, PosOK c) →
      ∃ states' out keys, sweepCPUs batchMap i0 states = some (states', out, keys) ∧
        states'.length = states.length ∧ ∀ c ∈ states', PosOK c := by
  intro states
  induction states with
  | nil =>
    intro i0 _
    exact ⟨[], [], [], rfl, rfl, by simp⟩
  | cons s rest ih =>
    intro i0 hok
    obtain ⟨r, hr, hrok⟩ := pendingLoop_pos_ok batchMap hpos i0 maxLookupsPerCPU s
      (hok s (List.mem_cons_self _ _))
    obtain ⟨rest', out, keys, hsweep, hl, hok'⟩ := ih (i0 + 1)
      (fun c hc => hok c (List.mem_cons_of_mem _ hc))
    refine ⟨r.state :: rest', r.txs ++ out, r.keys ++ keys, ?_, by simp [hl], ?_⟩
    · simp only [sweepCPUs, hr, hsweep]
    · intro c hc
      rw [List.mem_cons] at hc
      rcases hc with rfl | hc
      · exact hrok
      · exact hok' c hc

/-- One call, from cursors with positions inside a page and against pages with
`Pos ≤ PAGE_SIZE`, returns when it is a poll or a notification for a CPU of the manager,
and leaves as many cursors, all with positions inside a page. -/
theorem exec_pos_ok {α : Type} (s : Step α) (m : batchManager)
    (hpos : ∀ k page, s.batchMap k = some page → page.Pos ≤ HTTPBatchSize)
    (hcpu : ∀ n, s.call = Call.notify n → n.Cpu < m.stateByCPU.length)
    (hok : ∀ c ∈ m.stateByCPU, PosOK c) :
    ∃ m' out, s.exec m = some (m', out) ∧
      m'.stateByCPU.length = m.stateByCPU.length ∧ ∀ c ∈ m'.stateByCPU, PosOK c := by
  have hpos' : ∀ k page, tagged s.batchMap k = some page → page.Pos ≤ HTTPBatchSize := by
    intro k page hp
    unfold tagged at hp
    cases hb : s.batchMap k with
    | none => simp [hb] at hp
    | some p =>
      simp only [hb, Option.some.injEq] at hp
      rw [← hp]
      exact hpos k p hb
  cases hcall : s.call with
  | notify n =>
    have hlt := hcpu n hcall
    have hc : m.stateByCPU[n.Cpu]? = some (m.stateByCPU[n.Cpu]) :=
      List.getElem?_eq_getElem hlt
    have hcok := hok _ (List.getElem_mem hlt)
    obtain ⟨r, hr⟩ := GetTransactionsFrom_returns (tagged s.batchMap) m n _ hc hcok.1
      (by have := hcok.2; omega)
    obtain ⟨m1, txs, e⟩ := r
    refine ⟨m1, txs.getD [], by simp only [Step.exec, hcall, hr], ?_⟩
    cases txs with
    | none =>
      have hm := GetTransactionsFrom_nil_inv hr
      subst hm
      exact ⟨rfl, hok⟩
    | some l =>
      obtain ⟨_, _, _, _, _, _, _, _, hm, _, _⟩ := GetTransactionsFrom_some_inv hr
      rw [hm]
      refine ⟨List.length_set _ _ _, ?_⟩
      intro c hcm
      rcases List.mem_or_eq_of_mem_set hcm with h | h
      · exact hok c h
      · rw [h]
        exact ⟨le_refl _, by show (0 : Int) < 15; omega⟩
  | poll =>
    obtain ⟨states', out, keys, hsweep, hl, hok'⟩ :=
      sweepCPUs_pos_ok (tagged s.batchMap) hpos' m.stateByCPU 0 hok
    exact ⟨⟨states'⟩, out, by simp only [Step.exec, hcall, GetPendingTransactions, hsweep],
      hl, hok'⟩

theorem drain_pos_ok {α : Type} :
    ∀ (steps : List (Step α)) (m : batchManager),
      (∀ s ∈ steps, ∀ k page, s.batchMap k = some page → page.Pos ≤ HTTPBatchSize) →
      (∀ s ∈ steps, ∀ n, s.call = Call.notify n → n.Cpu < m.stateByCPU.length) →
      (∀ c ∈ m.stateByCPU, PosOK c) →
      ∃ m', (drain m steps).1 = some m' ∧
        m'.stateByCPU.length = m.stateByCPU.length ∧ ∀ c ∈ m'.stateByCPU, PosOK c := by
  intro steps
  induction steps with
  | nil =>
    intro m _ _ hok
    exact ⟨m, rfl, rfl, hok⟩
  | cons s rest ih =>
    intro m hpos hcpu hok
    obtain ⟨m1, out, hexec, hl, hok1⟩ := exec_pos_ok s m (hpos s (List.mem_cons_self _ _))
      (hcpu s (List.mem_cons_self _ _)) hok
    obtain ⟨m', hd, hl', hok'⟩ := ih m1
      (fun s' hs' => hpos s' (List.mem_cons_of_mem _ hs'))
      (fun s' hs' n hcall => by rw [hl]; exact hcpu s' (List.mem_cons_of_mem _ hs') n hcall)
      hok1
    refine ⟨m', ?_, by omega, hok'⟩
    simp only [drain, hexec]
    exact hd

/-- C28 (bounds safety). Start from `newBatchManager numCPUs` and make any sequence of
calls in which every page of the page maps has `Pos ≤ PAGE_SIZE` and every notification
has `Cpu < numCPUs`. Then no call panics (the cursor array is never indexed out of
range and neither slice expression goes out of range), and the state reached has
`numCPUs` cursors, each with `0 ≤ pos < PAGE_SIZE`. This holds for every prefix of the
sequence too, so for every reachable state; no bound on the idx values is needed. -/
theorem bounds_safety {α : Type} (numCPUs : Nat) (steps : List (Step α))
    (hpos : ∀ s ∈ steps, ∀ k page, s.batchMap k = some page → page.Pos ≤ HTTPBatchSize)
    (hcpu : ∀ s ∈ steps, ∀ n, s.call = Call.notify n → n.Cpu < numCPUs) :
    ∃ m, (drain (newBatchManager numCPUs) steps).1 = some m ∧ m.numCPUs = numCPUs ∧
      ∀ c ∈ m.stateByCPU, 0 ≤ c.pos ∧ c.pos < HTTPBatchSize := by
  have hlen : (newBatchManager numCPUs).stateByCPU.length = numCPUs := by
    simp [newBatchManager]
  obtain ⟨m, hd, hl, hok⟩ := drain_pos_ok steps (newBatchManager numCPUs) hpos
    (fun s hs n hcall => by rw [hlen]; exact hcpu s hs n hcall)
    (by
      intro c hc
      simp only [newBatchManager] at hc
      rw [List.eq_of_mem_replicate hc]
      exact ⟨le_refl _, by show (0 : Int) < 15; omega⟩)
  exact ⟨m, hd, by unfold batchManager.numCPUs; omega, hok⟩

theorem bounds_safety_witness :
    ∃ m, (drain (newBatchManager 1)
        [⟨sampleMap [(⟨0, 0⟩, samplePage 0 7)], Call.poll⟩,
         ⟨sampleMap [(⟨0, 0⟩, samplePage 0 15)], Call.notify ⟨0, 0⟩⟩]).1 = some m ∧
      m.numCPUs = 1 ∧ ∀ c ∈ m.stateByCPU, 0 ≤ c.pos ∧ c.pos < HTTPBatchSize :=
  bounds_safety 1
    [⟨sampleMap [(⟨0, 0⟩, samplePage 0 7)], Call.poll⟩,
     ⟨sampleMap [(⟨0, 0⟩, samplePage 0 15)], Call.notify ⟨0, 0⟩⟩]
    (by
      intro s hs
      simp only [List.mem_cons, List.mem_singleton, List.not_mem_nil, or_false] at hs
      rcases hs with rfl | rfl
      · exact fun k page h => (sampleMap_bound _ (by decide) k page h).2
      · exact fun k page h => (sampleMap_bound _ (by decide) k page h).2)
    (by
      intro s hs n hcall
      simp only [List.mem_cons, List.mem_singleton, List.not_mem_nil, or_false] at hs
      rcases hs with rfl | rfl
      · simp at hcall
      · simp only [Call.notify.injEq] at hcall
        rw [← hcall]
        decide)

/-! ## Per-CPU isolation -/

/-- The inner loop for CPU `i` reads only the pages keyed with CPU `uint32(i)`. -/
theorem pendingLoop_congr {α : Type} (batchMap batchMap' : BatchMap α) (i : Nat)
    (h : ∀ num, batchMap' ⟨toUint32 i, num⟩ = batchMap ⟨toUint32 i, num⟩) :
    ∀ (n : Nat) (c : usrBatchState),
      pendingLoop batchMap' i n c = pendingLoop batchMap i n c := by
  intro n
  induction n with
  | zero => intro c; rfl
  | succ n ih =>
    intro c
    have hk : batchMap' (pendingKey i c) = batchMap (pendingKey i c) := h _
    simp only [pendingLoop, hk, ih]

/-- The sweep over the CPUs returns exactly when every CPU's inner loop returns, and its
three results are the per-CPU results in CPU order. -/
theorem sweepCPUs_iff {α : Type} (batchMap : BatchMap α) :
    ∀ (states : List usrBatchState) (i0 : Nat) (states' : List usrBatchState)
      (out : List α) (keys : List httpBatchKey),
      sweepCPUs batchMap i0 states = some (states', out, keys) ↔
        ∃ rs : List (cpuSweep α), rs.length = states.length ∧
          (∀ (j : Nat) (c : usrBatchState), states[j]? = some c →
            pendingLoop batchMap (i0 + j) maxLookupsPerCPU c = rs[j]?) ∧
          states' = rs.map cpuSweep.state ∧ out = (rs.map cpuSweep.txs).flatten ∧
          keys = (rs.map cpuSweep.keys).flatten := by
  intro states
  induction states with
  | nil =>
    intro i0 states' out keys
    simp only [sweepCPUs, Option.some.injEq, Prod.mk.injEq]
    constructor
    · rintro ⟨h1, h2, h3⟩
      exact ⟨[], rfl, by simp, by simp [← h1], by simp [← h2], by simp [← h3]⟩
    · rintro ⟨rs, hl, _, h1, h2, h3⟩
      have hrs : rs = [] := List.length_eq_zero.mp (by simpa using hl)
      subst hrs
      simp [h1, h2, h3]
  | cons s rest ih =>
    intro i0 states' out keys
    constructor
    · intro h
      simp only [sweepCPUs] at h
      cases hr : pendingLoop batchMap i0 maxLookupsPerCPU s with
      | none => simp [hr] at h
      | some r =>
        cases hs : sweepCPUs batchMap (i0 + 1) rest with
        | none => simp [hr, hs] at h
        | some t =>
          obtain ⟨rest', t2, k2⟩ := t
          simp only [hr, hs, Option.some.injEq, Prod.mk.injEq] at h
          obtain ⟨rs, hl, hget, h1, h2, h3⟩ := (ih (i0 + 1) rest' t2 k2).mp hs
          refine ⟨r :: rs, by simp [hl], ?_, ?_, ?_, ?_⟩
          · intro j c hj
            cases j with
            | zero =>
              simp only [List.getElem?_cons_zero, Option.some.injEq] at hj
              subst hj
              simpa using hr
            | succ j =>
              simp only [List.getElem?_cons_succ] at hj ⊢
              have := hget j c hj
              rw [← this]
              congr 1
              omega
          · rw [← h.1, h1]; rfl
          · rw [← h.2.1, h2]; simp
          · rw [← h.2.2, h3]; simp
    · rintro ⟨rs, hl, hget, h1, h2, h3⟩
      cases rs with
      | nil => simp at hl
      | cons r rs =>
        have hr : pendingLoop batchMap i0 maxLookupsPerCPU s = some r := by
          simpa using hget 0 s (by simp)
        have hs : sweepCPUs batchMap (i0 + 1) rest =
            some (rs.map cpuSweep.state, (rs.map cpuSweep.txs).flatten,
              (rs.map cpuSweep.keys).flatten) := by
          refine (ih (i0 + 1) _ _ _).mpr ⟨rs, by simpa using hl, ?_, rfl, rfl, rfl⟩
          intro j c hj
          have := hget (j + 1) c (by simpa using hj)
          simp only [List.getElem?_cons_succ] at this
          rw [← this]
          congr 1
          omega
        simp only [sweepCPUs, hr, hs, h1, h2, h3]
        simp

/-- C30 (per-CPU isolation). (1) `GetTransactionsFrom(n)` writes only the cursor of
`n.cpu`: the cursor of every other CPU is unchanged. (2) It reads only the cursor of
`n.cpu`: a manager with the same cursor for `n.cpu` gives the same results and the same
new cursor for `n.cpu` (and panics exactly when this one does). (3) A call of
`GetPendingTransactions` returns exactly when the inner loop of every CPU returns, and
then CPU `i` is left with the cursor its own inner loop computes from its own cursor,
and the transactions (and keys looked up) are the concatenation of the per-CPU results in
increasing CPU order. (4) The inner loop of CPU `i` reads only pages keyed with CPU
`uint32(i)`, which is `i` for every CPU number below `2^32`. -/
theorem per_cpu_isolation {α : Type} (batchMap : BatchMap α) (m : batchManager)
    (n : HttpNotification) :
    (∀ (m' : batchManager) (txs : Option (List α)) (e : Option TxError),
      GetTransactionsFrom batchMap m n = some (m', txs, e) →
      ∀ j, j ≠ n.Cpu → m'.stateByCPU[j]? = m.stateByCPU[j]?) ∧
    (∀ m2 : batchManager, m2.stateByCPU[n.Cpu]? = m.stateByCPU[n.Cpu]? →
      (GetTransactionsFrom batchMap m2 n).map (fun r => (r.1.stateByCPU[n.Cpu]?, r.2)) =
        (GetTransactionsFrom batchMap m n).map (fun r => (r.1.stateByCPU[n.Cpu]?, r.2))) ∧
    (∀ (m' : batchManager) (out : List α) (keys : List httpBatchKey),
      GetPendingTransactions batchMap m = some (m', out, keys) ↔
        ∃ rs : List (cpuSweep α), rs.length = m.numCPUs ∧
          (∀ (i : Nat) (c : usrBatchState), m.stateByCPU[i]? = some c →
            pendingLoop batchMap i maxLookupsPerCPU c = rs[i]?) ∧
          m'.stateByCPU = rs.map cpuSweep.state ∧ out = (rs.map cpuSweep.txs).flatten ∧
          keys = (rs.map cpuSweep.keys).flatten) ∧
    (∀ (batchMap' : BatchMap α) (i : Nat),
      (∀ num, batchMap' ⟨toUint32 i, num⟩ = batchMap ⟨toUint32 i, num⟩) →
      ∀ (k : Nat) (c : usrBatchState),
        pendingLoop batchMap' i k c = pendingLoop batchMap i k c) ∧
    (∀ i : Nat, i < 2 ^ 32 → toUint32 i = i) := by
  refine ⟨?_, ?_, ?_, ?_, ?_⟩
  · intro m' txs e h j hj
    cases txs with
    | none => rw [GetTransactionsFrom_nil_inv h]
    | some l =>
      obtain ⟨_, _, _, _, _, _, _, _, hm, _, _⟩ := GetTransactionsFrom_some_inv h
      rw [hm]
      exact List.getElem?_set_ne (Ne.symm hj)
  · intro m2 h2
    unfold GetTransactionsFrom
    rw [h2]
    cases hc : m.stateByCPU[n.Cpu]? with
    | none => rfl
    | some c =>
      have hlt : n.Cpu < m.stateByCPU.length := by
        rcases Nat.lt_or_ge n.Cpu m.stateByCPU.length with h | h
        · exact h
        · rw [List.getElem?_eq_none h] at hc; cases hc
      have hlt2 : n.Cpu < m2.stateByCPU.length := by
        rcases Nat.lt_or_ge n.Cpu m2.stateByCPU.length with h | h
        · exact h
        · rw [hc] at h2; rw [List.getElem?_eq_none h] at h2; cases h2
      rw [hc] at h2
      cases hpage : batchMap (httpBatchKey.Prepare n) with
      | none => simp [h2, hc]
      | some page =>
        simp only []
        by_cases h1 : toInt64 page.Idx < c.idx
        · simp [h1, h2, hc]
        · by_cases hd : page.IsDirty n = true
          · simp [h1, hd, h2, hc]
          · simp only [if_neg h1, hd]
            cases sliceFrom page.Transactions c.pos with
            | none => rfl
            | some tocopy =>
              simp [List.getElem?_set_self hlt, List.getElem?_set_self hlt2]
  · intro m' out keys
    unfold GetPendingTransactions batchManager.numCPUs
    cases hs : sweepCPUs batchMap 0 m.stateByCPU with
    | none =>
      constructor
      · intro h; cases h
      · rintro ⟨rs, hl, hget, h1, h2, h3⟩
        have := (sweepCPUs_iff batchMap m.stateByCPU 0 _ _ _).mpr
          ⟨rs, hl, fun j c hj => by rw [Nat.zero_add]; exact hget j c hj, rfl, rfl, rfl⟩
        rw [hs] at this
        cases this
    | some t =>
      obtain ⟨states, t2, k2⟩ := t
      obtain ⟨rs, hl, hget, h1, h2, h3⟩ := (sweepCPUs_iff batchMap m.stateByCPU 0 _ _ _).mp hs
      simp only [Option.some.injEq, Prod.mk.injEq]
      constructor
      · rintro ⟨e1, e2, e3⟩
        refine ⟨rs, hl, fun j c hj => by simpa using hget j c hj, ?_, ?_, ?_⟩
        · rw [← e1]; exact h1
        · rw [← e2]; exact h2
        · rw [← e3]; exact h3
      · rintro ⟨rs', hl', hget', h1', h2', h3'⟩
        have hrs : rs' = rs := by
          apply List.ext_getElem? 
          intro j
          rcases Nat.lt_or_ge j m.stateByCPU.length with hj | hj
          · have hc : m.stateByCPU[j]? = some (m.stateByCPU[j]) := List.getElem?_eq_getElem hj
            have a := hget j _ hc
            have b := hget' j _ hc
            rw [Nat.zero_add] at a
            rw [← a, ← b]
          · rw [List.getElem?_eq_none (by omega), List.getElem?_eq_none (by omega)]
        subst hrs
        refine ⟨?_, by rw [h2, h2'], by rw [h3, h3']⟩
        cases m'
        simp only [batchManager.mk.injEq]
        simp only at h1'
        rw [h1, h1']
  · intro batchMap' i h k c
    exact pendingLoop_congr batchMap batchMap' i h k c
  · intro i hi
    rw [toUint32_of_lt (by omega) (by exact_mod_cast hi)]
    simp

/-! ## Telemetry snapshot -/

/-- A call of `aggregate` keeps the name of every metric. -/
theorem aggregate_metric_names {α : Type} (statusClass : α → Int) (t : telemetry)
    (txs : List α) (err : Option TxError) :
    (t.aggregate statusClass txs err).metrics.map Metric.name = t.metrics.map Metric.name := by
  rw [aggregate_eq]
  by_cases h : err = some TxError.ErrLostBatch
  · simp [telemetry.metrics, Metric.Add, h]
  · simp [telemetry.metrics, Metric.Add, h]

theorem aggregateAll_metric_names {α : Type} (statusClass : α → Int) :
    ∀ (calls : List (List α × Option TxError)) (t : telemetry),
      (t.aggregateAll statusClass calls).metrics.map Metric.name =
        t.metrics.map Metric.name := by
  intro calls
  induction calls with
  | nil => intro t; rfl
  | cons call rest ih =>
    intro t
    have h := ih (t.aggregate statusClass call.1 call.2)
    rw [aggregate_metric_names] at h
    exact h

theorem snapshot_keys (t : telemetry) :
    t.snapshot.map Prod.fst = t.metrics.map Metric.name := by
  simp [telemetry.snapshot]

/-- C22 (telemetry metrics). The telemetry created by `newTelemetry` registers exactly
ten metrics, named hits1xx, hits2xx, hits3xx, hits4xx, hits5xx, misses, dropped,
rejected, malformed and aggregations, all different; its snapshot before any
aggregation has exactly these ten keys, each at 0; and after any sequence of
`aggregate` calls the snapshot still has exactly these ten keys, among them `dropped`
and `misses`. -/
theorem newTelemetry_metrics {α : Type} (now : Int) (statusClass : α → Int)
    (calls : List (List α × Option TxError)) :
    (newTelemetry now).metrics.map Metric.name =
      ["hits1xx", "hits2xx", "hits3xx", "hits4xx", "hits5xx",
       "misses", "dropped", "rejected", "malformed", "aggregations"] ∧
    ((newTelemetry now).metrics.map Metric.name).Nodup ∧
    (newTelemetry now).metrics.length = 10 ∧
    (newTelemetry now).snapshot =
      [("hits1xx", 0), ("hits2xx", 0), ("hits3xx", 0), ("hits4xx", 0), ("hits5xx", 0),
       ("misses", 0), ("dropped", 0), ("rejected", 0), ("malformed", 0),
       ("aggregations", 0)] ∧
    (((newTelemetry now).aggregateAll statusClass calls).snapshot.map Prod.fst =
      ["hits1xx", "hits2xx", "hits3xx", "hits4xx", "hits5xx",
       "misses", "dropped", "rejected", "malformed", "aggregations"]) ∧
    "dropped" ∈ ((newTelemetry now).aggregateAll statusClass calls).snapshot.map Prod.fst ∧
    "misses" ∈ ((newTelemetry now).aggregateAll statusClass calls).snapshot.map Prod.fst := by
  have hnames : (newTelemetry now).metrics.map Metric.name =
      ["hits1xx", "hits2xx", "hits3xx", "hits4xx", "hits5xx",
       "misses", "dropped", "rejected", "malformed", "aggregations"] := rfl
  have hkeys : ((newTelemetry now).aggregateAll statusClass calls).snapshot.map Prod.fst =
      ["hits1xx", "hits2xx", "hits3xx", "hits4xx", "hits5xx",
       "misses", "dropped", "rejected", "malformed", "aggregations"] := by
    rw [snapshot_keys, aggregateAll_metric_names, hnames]
  refine ⟨hnames, ?_, rfl, rfl, hkeys, ?_, ?_⟩
  · rw [hnames]; decide
  · rw [hkeys]; decide
  · rw [hkeys]; decide

/-! ## Method names -/

/-- A method value in `0..7` is one of the eight constants. -/
theorem method_cases (a : Int) (h0 : 0 ≤ a) (h7 : a ≤ 7) :
    a = 0 ∨ a = 1 ∨ a = 2 ∨ a = 3 ∨ a = 4 ∨ a = 5 ∨ a = 6 ∨ a = 7 := by
  omega

/-- C23 (method enum round trip). The eight defined methods have the values UNKNOWN=0,
GET=1, POST=2, PUT=3, DELETE=4, HEAD=5, OPTIONS=6, PATCH=7; `Method.String` maps each
to exactly that name; `String` is injective on them, so a decoder exists that gives
every defined method back from its name; and every value outside 1..7 is rendered as
"UNKNOWN". -/
theorem Method_String_round_trip :
    (MethodUnknown = 0 ∧ MethodGet = 1 ∧ MethodPost = 2 ∧ MethodPut = 3 ∧
      MethodDelete = 4 ∧ MethodHead = 5 ∧ MethodOptions = 6 ∧ MethodPatch = 7) ∧
    (Method.String MethodUnknown = "UNKNOWN" ∧ Method.String MethodGet = "GET" ∧
      Method.String MethodPost = "POST" ∧ Method.String MethodPut = "PUT" ∧
      Method.String MethodDelete = "DELETE" ∧ Method.String MethodHead = "HEAD" ∧
      Method.String MethodOptions = "OPTIONS" ∧ Method.String MethodPatch = "PATCH") ∧
    (∀ a b : Method, 0 ≤ a → a ≤ 7 → 0 ≤ b → b ≤ 7 →
      Method.String a = Method.String b → a = b) ∧
    (∃ decode : String → Method, ∀ m : Method, 0 ≤ m → m ≤ 7 →
      decode (Method.String m) = m) ∧
    (∀ m : Method, ¬ (1 ≤ m ∧ m ≤ 7) → Method.String m = "UNKNOWN") := by
  have hinj : ∀ a b : Method, 0 ≤ a → a ≤ 7 → 0 ≤ b → b ≤ 7 →
      Method.String a = Method.String b → a = b := by
    intro a b ha0 ha7 hb0 hb7 h
    have ha : a = 0 ∨ a = 1 ∨ a = 2 ∨ a = 3 ∨ a = 4 ∨ a = 5 ∨ a = 6 ∨ a = 7 :=
      method_cases a ha0 ha7
    have hb : b = 0 ∨ b = 1 ∨ b = 2 ∨ b = 3 ∨ b = 4 ∨ b = 5 ∨ b = 6 ∨ b = 7 :=
      method_cases b hb0 hb7
    rcases ha with rfl | rfl | rfl | rfl | rfl | rfl | rfl | rfl <;>
      rcases hb with rfl | rfl | rfl | rfl | rfl | rfl | rfl | rfl <;>
      first
        | rfl
        | (exfalso; revert h; decide)
  refine ⟨⟨rfl, rfl, rfl, rfl, rfl, rfl, rfl, rfl⟩,
    ⟨by decide, by decide, by decide, by decide, by decide, by decide, by decide, by decide⟩,
    hinj, ?_, ?_⟩
  · refine ⟨fun s =>
      if s = "GET" then MethodGet else if s = "POST" then MethodPost
      else if s = "PUT" then MethodPut else if s = "DELETE" then MethodDelete
      else if s = "HEAD" then MethodHead else if s = "OPTIONS" then MethodOptions
      else if s = "PATCH" then MethodPatch else MethodUnknown, ?_⟩
    intro m h0 h7
    have hm : m = 0 ∨ m = 1 ∨ m = 2 ∨ m = 3 ∨ m = 4 ∨ m = 5 ∨ m = 6 ∨ m = 7 :=
      method_cases m h0 h7
    rcases hm with rfl | rfl | rfl | rfl | rfl | rfl | rfl | rfl <;> decide
  · intro m hm
    have h1 : m ≠ 1 := fun h => hm (by rw [h]; decide)
    have h2 : m ≠ 2 := fun h => hm (by rw [h]; decide)
    have h3 : m ≠ 3 := fun h => hm (by rw [h]; decide)
    have h4 : m ≠ 4 := fun h => hm (by rw [h]; decide)
    have h5 : m ≠ 5 := fun h => hm (by rw [h]; decide)
    have h6 : m ≠ 6 := fun h => hm (by rw [h]; decide)
    have h7 : m ≠ 7 := fun h => hm (by rw [h]; decide)
    unfold Method.String MethodGet MethodPost MethodPut MethodHead MethodDelete
      MethodOptions MethodPatch
    rw [if_neg h1, if_neg h2, if_neg h3, if_neg h5, if_neg h4, if_neg h6, if_neg h7]

/-! ## Go TLS offsets -/

/-- C24 (code bug: paths outside `/proc`). With an inspection result that converts and an
existing offsets map, `addInspectionResultToMap` succeeds on `/tmp/1234/mybin`, which is
not of the form `/proc/<pid>/exe`, and writes the offsets under the key 1234; it
also succeeds on the path under `/proc` whose pid part is `-1`, writing under the key
`uint32(-1) = 4294967295`. For
comparison, `/proc/1234/exe` succeeds with key 1234 and `/proc/self/exe` fails and
writes nothing. -/
theorem addInspectionResultToMap_outside_proc :
    addInspectionResultToMap (some 7) (some ([] : List (Nat × Nat)))
        (fun m k v => some ((k, v) :: m)) "/tmp/1234/mybin" = (none, some [(1234, 7)]) ∧
    addInspectionResultToMap (some 7) (some ([] : List (Nat × Nat)))
        (fun m k v => some ((k, v) :: m)) "/proc/-1/exe" = (none, some [(4294967295, 7)]) ∧
    addInspectionResultToMap (some 7) (some ([] : List (Nat × Nat)))
        (fun m k v => some ((k, v) :: m)) "/proc/1234/exe" = (none, some [(1234, 7)]) ∧
    addInspectionResultToMap (some 7) (some ([] : List (Nat × Nat)))
        (fun m k v => some ((k, v) :: m)) "/proc/self/exe" =
      (some GoTLSError.failedExtractingPid, some []) := by
  decide

/-! ## Process command lines -/

/-- C25 (code bug: a resolved flag after a bare flag). On the arguments
`["-a", "-x=y", "pos"]` the argument `-x=y` starts with `-` and contains `=`, and `pos`
does not start with `-`; yet `parseProcessCmdLine` records `pos` as the value of the key
`-x=y` (the whole string) and has no key `pos`. Without the bare flag in front,
`["-x=y", "pos"]` gives `pos` its own key with an empty value. -/
theorem parseProcessCmdLine_resolved_flag_takes_value :
    (∃ r, parseProcessCmdLine ["-a", "-x=y", "pos"] = some r ∧
      r "-a" = some "" ∧ r "-x" = some "y" ∧ r "-x=y" = some "pos" ∧ r "pos" = none) ∧
    (∃ r, parseProcessCmdLine ["-x=y", "pos"] = some r ∧
      r "-x" = some "y" ∧ r "pos" = some "" ∧ r "-x=y" = none) := by
  refine ⟨⟨_, rfl, ?_, ?_, ?_, ?_⟩, ⟨_, rfl, ?_, ?_, ?_⟩⟩ <;> decide

theorem SplitN2_no_sep (s : String) (sep : Char) (h : sep ∉ s.data) :
    SplitN2 s sep = [s] := by
  unfold SplitN2
  have : s.data.dropWhile (fun c => c != sep) = [] := by
    rw [List.dropWhile_eq_nil_iff]
    intro c hc
    simp only [bne_iff_ne, ne_eq]
    rintro rfl
    exact h hc
  rw [this]

theorem SplitN2_first_sep (k v : String) (sep : Char) (h : sep ∉ k.data) :
    SplitN2 (k ++ String.singleton sep ++ v) sep = [k, v] := by
  unfold SplitN2
  have hdata : (k ++ String.singleton sep ++ v).data = k.data ++ sep :: v.data := by
    simp [String.data_append, String.singleton]
  have hall : ∀ c ∈ k.data, (c != sep) = true := by
    intro c hc
    simp only [bne_iff_ne, ne_eq]
    rintro rfl
    exact h hc
  have hd : (k.data ++ sep :: v.data).dropWhile (fun c => c != sep) = sep :: v.data := by
    rw [List.dropWhile_append_of_pos hall]
    simp [List.dropWhile]
  have ht : (k.data ++ sep :: v.data).takeWhile (fun c => c != sep) = k.data := by
    rw [List.takeWhile_append_of_pos hall]
    simp [List.takeWhile]
  rw [hdata, hd]
  simp only [ht]

theorem SplitN2_length (s : String) (sep : Char) :
    (∃ a, SplitN2 s sep = [a]) ∨ ∃ a b, SplitN2 s sep = [a, b] := by
  unfold SplitN2
  cases s.data.dropWhile (fun c => c != sep) with
  | nil => exact Or.inl ⟨_, rfl⟩
  | cons c rest => exact Or.inr ⟨_, _, rfl⟩

theorem StrMap.set_set (m : StrMap) (k v w : String) : (m.set k v).set k w = m.set k w := by
  funext x
  unfold StrMap.set
  by_cases h : x = k <;> simp [h]

/-- The loop over a run of flag and value pairs: each flag is recorded with its value. -/
theorem parseLoop_pairs :
    ∀ (pairs : List (String × String)) (done tail : List String) (results : StrMap)
      (pending : Bool),
      (∀ p ∈ pairs, HasPrefix p.1 '-' ∧ '=' ∉ p.1.data ∧ ¬ HasPrefix p.2 '-') →
      parseLoop (done ++ (pairs.flatMap (fun p => [p.1, p.2]) ++ tail)) done.length
          (pairs.flatMap (fun p => [p.1, p.2]) ++ tail) results pending =
        parseLoop (done ++ (pairs.flatMap (fun p => [p.1, p.2]) ++ tail))
          (done.length + 2 * pairs.length) tail
          (pairs.foldl (fun r p => r.set p.1 p.2) results)
          (pending || !pairs.isEmpty) := by
  intro pairs
  induction pairs with
  | nil =>
    intro done tail results pending _
    simp
  | cons p rest ih =>
    intro done tail results pending h
    obtain ⟨hf, heq, hv⟩ := h p (List.mem_cons_self _ _)
    have hrest : (p :: rest).flatMap (fun p => [p.1, p.2]) ++ tail =
        p.1 :: p.2 :: (rest.flatMap (fun p => [p.1, p.2]) ++ tail) := by
      simp
    rw [hrest]
    have hargs : done ++ p.1 :: p.2 :: (rest.flatMap (fun p => [p.1, p.2]) ++ tail) =
        (done ++ [p.1, p.2]) ++ (rest.flatMap (fun p => [p.1, p.2]) ++ tail) := by
      simp
    have hprev : (done ++ p.1 :: p.2 :: (rest.flatMap (fun p => [p.1, p.2]) ++ tail))[
        done.length]? = some p.1 := by
      rw [List.getElem?_append_right (le_refl _)]
      simp
    have h12 : ¬ ((1 : Nat) = 2) := by decide
    have hstep : parseLoop (done ++ p.1 :: p.2 :: (rest.flatMap (fun p => [p.1, p.2]) ++ tail))
        done.length (p.1 :: p.2 :: (rest.flatMap (fun p => [p.1, p.2]) ++ tail)) results
        pending =
        parseLoop (done ++ p.1 :: p.2 :: (rest.flatMap (fun p => [p.1, p.2]) ++ tail))
          (done.length + 1 + 1) (rest.flatMap (fun p => [p.1, p.2]) ++ tail)
          (results.set p.1 p.2) true := by
      rw [parseLoop, if_pos hf, SplitN2_no_sep _ _ heq]
      simp only [List.length_singleton, if_neg h12, List.getElem?_cons_zero]
      rw [parseLoop, if_neg hv]
      simp only [if_true, Nat.add_one_ne_zero, if_false, Nat.add_sub_cancel, hprev,
        StrMap.set_set]
    rw [hstep]
    have hih := ih (done ++ [p.1, p.2]) tail (results.set p.1 p.2) true
      (fun q hq => h q (List.mem_cons_of_mem _ hq))
    rw [← hargs] at hih
    simp only [List.length_append, List.length_cons, List.length_nil] at hih
    rw [hih]
    simp only [List.foldl_cons, List.length_cons, Bool.true_or, List.isEmpty_cons,
      Bool.not_false, Bool.or_true]
    congr 1
    omega

theorem foldl_set_other :
    ∀ (pairs : List (String × String)) (results : StrMap) (k : String),
      k ∉ pairs.map Prod.fst →
      (pairs.foldl (fun r p => r.set p.1 p.2) results) k = results k := by
  intro pairs
  induction pairs with
  | nil => intro results k _; rfl
  | cons p rest ih =>
    intro results k hk
    simp only [List.map_cons, List.mem_cons, not_or] at hk
    simp only [List.foldl_cons]
    rw [ih _ k hk.2]
    simp [StrMap.set, hk.1]

theorem foldl_set_mem :
    ∀ (pairs : List (String × String)) (results : StrMap),
      (pairs.map Prod.fst).Nodup → ∀ p ∈ pairs,
      (pairs.foldl (fun r p => r.set p.1 p.2) results) p.1 = some p.2 := by
  intro pairs
  induction pairs with
  | nil => intro results _ p hp; simp at hp
  | cons q rest ih =>
    intro results hnd p hp
    simp only [List.map_cons, List.nodup_cons] at hnd
    simp only [List.foldl_cons]
    rw [List.mem_cons] at hp
    rcases hp with rfl | hp
    · rw [foldl_set_other rest _ _ hnd.1]
      simp [StrMap.set]
    · exact ih _ hnd.2 p hp

/-- C26 (standard flag-style arguments). For every list `[f1, v1, ..., fn, vn]` where
the `fi` are pairwise distinct, start with `-` and contain no `=`, and no `vi` starts
with `-`, `parseProcessCmdLine` returns exactly the map `{f1: v1, ..., fn: vn}`: every
`fi` has the value `vi` and no other key is present. And for a single argument
`k=v` where `k` starts with `-` and contains no `=`, the result is exactly `{k: v}`,
whatever `v` is: the split is at the first `=` only. -/
theorem parseProcessCmdLine_flag_pairs (pairs : List (String × String)) (k v : String)
    (hflag : ∀ p ∈ pairs, HasPrefix p.1 '-' ∧ '=' ∉ p.1.data)
    (hval : ∀ p ∈ pairs, ¬ HasPrefix p.2 '-')
    (hnd : (pairs.map Prod.fst).Nodup)
    (hk : HasPrefix k '-' ∧ '=' ∉ k.data) :
    (∃ r, parseProcessCmdLine (pairs.flatMap (fun p => [p.1, p.2])) = some r ∧
      (∀ p ∈ pairs, r p.1 = some p.2) ∧
      (∀ x, x ∉ pairs.map Prod.fst → r x = none)) ∧
    (∃ r, parseProcessCmdLine [k ++ "=" ++ v] = some r ∧ r k = some v ∧
      ∀ x, x ≠ k → r x = none) := by
  constructor
  · have h := parseLoop_pairs pairs [] [] StrMap.empty false
      (fun p hp => ⟨(hflag p hp).1, (hflag p hp).2, hval p hp⟩)
    simp only [List.nil_append, List.append_nil, List.length_nil] at h
    refine ⟨pairs.foldl (fun r p => r.set p.1 p.2) StrMap.empty, ?_, ?_, ?_⟩
    · unfold parseProcessCmdLine
      rw [h]
      rfl
    · exact foldl_set_mem pairs _ hnd
    · intro x hx
      rw [foldl_set_other pairs _ x hx]
      rfl
  · refine ⟨StrMap.empty.set k v, ?_, by simp [StrMap.set], ?_⟩
    · have hp : HasPrefix (k ++ "=" ++ v) '-' := by
        have h1 := hk.1
        unfold HasPrefix at h1 ⊢
        cases hd : k.data with
        | nil => rw [hd] at h1; cases h1
        | cons c cs =>
          rw [hd] at h1
          simp [String.data_append, hd] at h1 ⊢
          exact h1
      have hs : SplitN2 (k ++ "=" ++ v) '=' = [k, v] := SplitN2_first_sep k v '=' hk.2
      unfold parseProcessCmdLine
      rw [parseLoop, if_pos hp, hs]
      simp [parseLoop]
    · intro x hx
      simp [StrMap.set, StrMap.empty, hx]

theorem parseProcessCmdLine_flag_pairs_witness :
    (∃ r, parseProcessCmdLine
        ([("--port", "8080"), ("-v", "")].flatMap (fun p => [p.1, p.2])) = some r ∧
      (∀ p ∈ [("--port", "8080"), ("-v", "")], r p.1 = some p.2) ∧
      (∀ x, x ∉ [("--port", "8080"), ("-v", "")].map Prod.fst → r x = none)) ∧
    (∃ r, parseProcessCmdLine ["--path" ++ "=" ++ "a=b"] = some r ∧
      r "--path" = some "a=b" ∧ ∀ x, x ≠ "--path" → r x = none) :=
  parseProcessCmdLine_flag_pairs [("--port", "8080"), ("-v", "")] "--path" "a=b"
    (by decide) (by decide) (by decide) (by decide)

/-- The loop returns from every position: a pending flag value is only ever set after
an argument has been read, so `args[i-1]` is in range when it is reached. -/
theorem parseLoop_total :
    ∀ (rest done : List String) (results : StrMap) (pending : Bool),
      (pending = true → done ≠ []) →
      ∃ r, parseLoop (done ++ rest) done.length rest results pending = some r := by
  intro rest
  induction rest with
  | nil =>
    intro done results pending _
    exact ⟨results, by simp [parseLoop]⟩
  | cons arg rest ih =>
    intro done results pending hp
    have hargs : done ++ arg :: rest = (done ++ [arg]) ++ rest := by simp
    have hlen : (done ++ [arg]).length = done.length + 1 := by simp
    have hne : ∀ b : Bool, b = true → done ++ [arg] ≠ [] := by
      intro _ _; simp
    rw [parseLoop]
    by_cases hf : HasPrefix arg '-'
    · rw [if_pos hf]
      rcases SplitN2_length arg '=' with ⟨a, ha⟩ | ⟨a, b, hab⟩
      · rw [ha]
        simp only [List.length_singleton, OfNat.ofNat_ne_one, if_false,
          List.getElem?_cons_zero]
        rw [hargs, ← hlen]
        exact ih _ _ _ (hne _)
      · rw [hab]
        simp only [List.length_cons, List.length_nil, if_true, List.getElem?_cons_zero,
          List.getElem?_cons_succ]
        rw [hargs, ← hlen]
        exact ih _ _ _ (hne _)
    · rw [if_neg hf]
      cases pending with
      | true =>
        have hd : done ≠ [] := hp rfl
        have hpos : 0 < done.length := List.length_pos.mpr hd
        have hget : (done ++ arg :: rest)[done.length - 1]? =
            some (done.get ⟨done.length - 1, by omega⟩) := by
          rw [List.getElem?_append_left (by omega)]
          exact List.getElem?_eq_getElem _
        simp only [if_true, if_neg (Nat.pos_iff_ne_zero.mp hpos), hget]
        rw [hargs, ← hlen]
        exact ih _ _ _ (hne _)
      | false =>
        simp only [Bool.false_eq_true, if_false]
        rw [hargs, ← hlen]
        exact ih _ _ _ (hne _)

/-- C29 (no index out of range). For every argument list, the empty list and lists that
start with a positional argument included, `parseProcessCmdLine` returns a map: the
access `args[i-1]` is never out of range (the embedding returns `none` exactly when an
index is out of range), so the function is total. -/
theorem parseProcessCmdLine_total (args : List String) :
    ∃ r, parseProcessCmdLine args = some r := by
  have h := parseLoop_total args [] StrMap.empty false (by simp)
  simpa [parseProcessCmdLine] using h

end Http
